import Mathlib

/-!
# Verification of the ui_builder core against its specification

This development shallowly embeds the core of the `ui_builder` repository
(`src/app/services/ui-builder.service.ts`, `src/app/components/canvas.component.ts`,
`src/models/types.ts`) in Lean 4 and settles the frozen claims about it.

Modelling conventions:
* JavaScript numbers are modelled as rationals (`ℚ`); every arithmetic
  operation the embedded code performs (`+`, `-`, `/2`, `abs`, comparisons)
  is exact on the values the claims exercise.
* JavaScript strings are modelled as `List Char` (with `String` wrappers at
  statement boundaries where convenient).
* TypeScript numeric enums (`UIAnchor`, `UIBgFill`, `UIImageType`) are
  modelled as `ℕ` ordinals with named constants carrying the exact numeric
  values that `enum` declaration order assigns in `src/models/types.ts`.
* Fallible code is modelled with `Except String`; the *text* of error
  messages is abbreviated, their presence and placement is faithful.
* The `advancedMetadata` blob is owned by a subsystem the spec excludes and
  is passed through untouched by every function modelled here, so it is
  omitted from the element record.
-/

set_option maxHeartbeats 2000000

namespace UIB

/-- A 2-d point/vector of logical canvas units. -/
structure Vec2 where
  x : ℚ
  y : ℚ
deriving Repr, DecidableEq

-- `src/models/types.ts` enum `UIAnchor` (ordinals from declaration order).
namespace UIAnchor

def BottomCenter : ℕ := 0
def BottomLeft : ℕ := 1
def BottomRight : ℕ := 2
def Center : ℕ := 3
def CenterLeft : ℕ := 4
def CenterRight : ℕ := 5
def TopCenter : ℕ := 6
def TopLeft : ℕ := 7
def TopRight : ℕ := 8

end UIAnchor

-- `src/models/types.ts` enum `UIBgFill`.
namespace UIBgFill

def Blur : ℕ := 0
def GradientBottom : ℕ := 1
def GradientLeft : ℕ := 2
def GradientRight : ℕ := 3
def GradientTop : ℕ := 4
def None : ℕ := 5
def OutlineThick : ℕ := 6
def OutlineThin : ℕ := 7
def Solid : ℕ := 8

end UIBgFill

-- `src/models/types.ts` enum `UIImageType`.
namespace UIImageType

def CrownOutline : ℕ := 0
def CrownSolid : ℕ := 1
def None : ℕ := 2
def QuestionMark : ℕ := 3
def RifleAmmo : ℕ := 4
def SelfHeal : ℕ := 5
def SpawnBeacon : ℕ := 6
def TEMP_PortalIcon : ℕ := 7

end UIImageType

/-- `src/models/types.ts` union `UIElementTypes`. -/
inductive ElemType where
  | Container
  | Text
  | Image
  | Button
deriving Repr, DecidableEq

/-- The string each member of `UIElementTypes` denotes. -/
def ElemType.str : ElemType → String
  | .Container => "Container"
  | .Text => "Text"
  | .Image => "Image"
  | .Button => "Button"

/-- The per-node property record of `UIParams` / `UIElement`
(`src/models/types.ts`), children excluded (they are carried by the tree
constructors below).  `advancedMetadata` is omitted: it is pass-through data
of an excluded subsystem. -/
structure UIFields where
  name : String
  type : ElemType
  position : List ℚ
  size : List ℚ
  anchor : ℕ
  visible : Bool
  textLabel : String
  textColor : List ℚ
  textAlpha : ℚ
  textSize : ℚ
  textAnchor : ℕ
  padding : ℚ
  bgColor : List ℚ
  bgAlpha : ℚ
  bgFill : ℕ
  imageType : ℕ
  imageColor : List ℚ
  imageAlpha : ℚ
  buttonEnabled : Bool
  buttonColorBase : List ℚ
  buttonAlphaBase : ℚ
  buttonColorDisabled : List ℚ
  buttonAlphaDisabled : ℚ
  buttonColorPressed : List ℚ
  buttonAlphaPressed : ℚ
  buttonColorHover : List ℚ
  buttonAlphaHover : ℚ
  buttonColorFocused : List ℚ
  buttonAlphaFocused : ℚ
deriving Repr, DecidableEq

/-- `UIParams`: the serialization-facing node shape (no id, no locked flag). -/
inductive UIParams where
  | node (fields : UIFields) (children : List UIParams)

def UIParams.fields : UIParams → UIFields
  | .node f _ => f

def UIParams.children : UIParams → List UIParams
  | .node _ cs => cs

/-- `UIElement`: the in-store node shape (`UIParams` plus `id` and `locked`). -/
inductive UIElement where
  | node (id : String) (locked : Bool) (fields : UIFields) (children : List UIElement)

def UIElement.id : UIElement → String
  | .node i _ _ _ => i

def UIElement.locked : UIElement → Bool
  | .node _ l _ _ => l

def UIElement.fields : UIElement → UIFields
  | .node _ _ f _ => f

def UIElement.children : UIElement → List UIElement
  | .node _ _ _ cs => cs

/-- `DEFAULT_UI_PARAMS` from `src/models/types.ts` (the property fields). -/
def DEFAULT_UI_PARAMS : UIFields where
  name := ""
  type := .Container
  position := [0, 0]
  size := [100, 50]
  anchor := UIAnchor.TopLeft
  visible := true
  textLabel := ""
  textColor := [1, 1, 1]
  textAlpha := 1
  textSize := 24
  textAnchor := UIAnchor.Center
  padding := 0
  bgColor := [1/5, 1/5, 1/5]
  bgAlpha := 1
  bgFill := UIBgFill.None
  imageType := UIImageType.None
  imageColor := [1, 1, 1]
  imageAlpha := 1
  buttonEnabled := false
  buttonColorBase := [3/10, 3/10, 3/10]
  buttonAlphaBase := 1
  buttonColorDisabled := [1/10, 1/10, 1/10]
  buttonAlphaDisabled := 1/2
  buttonColorPressed := [1/5, 1/5, 1/5]
  buttonAlphaPressed := 1
  buttonColorHover := [2/5, 2/5, 2/5]
  buttonAlphaHover := 1
  buttonColorFocused := [1/2, 1/2, 1/2]
  buttonAlphaFocused := 1

def CANVAS_WIDTH : ℚ := 1920

def CANVAS_HEIGHT : ℚ := 1080

/-- Absolute rectangle with derived edges and centers (`UIRect`). -/
structure UIRect where
  left : ℚ
  top : ℚ
  right : ℚ
  bottom : ℚ
  width : ℚ
  height : ℚ
  centerX : ℚ
  centerY : ℚ
deriving Repr, DecidableEq

/-- One entry of the bounds list (`UIElementBounds`). -/
structure UIElementBounds where
  id : String
  parentId : Option String
  rect : UIRect
deriving Repr, DecidableEq

/-- `getAnchorStartCoordinates` (ui-builder.service.ts): the anchor's
reference point inside a container of the given size. -/
def getAnchorStartCoordinates (anchor : ℕ) (parentWidth parentHeight : ℚ) : Vec2 :=
  if anchor = UIAnchor.TopLeft then ⟨0, 0⟩
  else if anchor = UIAnchor.TopCenter then ⟨parentWidth / 2, 0⟩
  else if anchor = UIAnchor.TopRight then ⟨parentWidth, 0⟩
  else if anchor = UIAnchor.CenterLeft then ⟨0, parentHeight / 2⟩
  else if anchor = UIAnchor.Center then ⟨parentWidth / 2, parentHeight / 2⟩
  else if anchor = UIAnchor.CenterRight then ⟨parentWidth, parentHeight / 2⟩
  else if anchor = UIAnchor.BottomLeft then ⟨0, parentHeight⟩
  else if anchor = UIAnchor.BottomCenter then ⟨parentWidth / 2, parentHeight⟩
  else if anchor = UIAnchor.BottomRight then ⟨parentWidth, parentHeight⟩
  else ⟨0, 0⟩

/-- `getAnchorOffset` (ui-builder.service.ts): per-axis correction aligning
the element's own box to the anchor point.  The JS code destructures
`const [width, height] = size`; missing components are modelled as 0. -/
def getAnchorOffset (anchor : ℕ) (size : List ℚ) : Vec2 :=
  let width := size.getD 0 0
  let height := size.getD 1 0
  let offsetX : ℚ :=
    if anchor = UIAnchor.TopCenter ∨ anchor = UIAnchor.Center ∨ anchor = UIAnchor.BottomCenter then
      -width / 2
    else if anchor = UIAnchor.TopRight ∨ anchor = UIAnchor.CenterRight ∨ anchor = UIAnchor.BottomRight then
      -width
    else 0
  let offsetY : ℚ :=
    if anchor = UIAnchor.CenterLeft ∨ anchor = UIAnchor.Center ∨ anchor = UIAnchor.CenterRight then
      -height / 2
    else if anchor = UIAnchor.BottomLeft ∨ anchor = UIAnchor.BottomCenter ∨ anchor = UIAnchor.BottomRight then
      -height
    else 0
  ⟨offsetX, offsetY⟩

/-- The body of `computeElementBounds`'s `traverse` closure: a depth-first
pass pushing every node's absolute rectangle.  `parentRect = none` stands
for the JS `null` root case. -/
def computeBoundsList (parentRect : Option UIRect) (parentId : Option String) :
    List UIElement → List UIElementBounds
  | [] => []
  | UIElement.node i _ f children :: rest =>
    let parentWidth := match parentRect with | some r => r.width | none => CANVAS_WIDTH
    let parentHeight := match parentRect with | some r => r.height | none => CANVAS_HEIGHT
    let anchorStart := getAnchorStartCoordinates f.anchor parentWidth parentHeight
    let anchorOffset := getAnchorOffset f.anchor f.size
    let baseX := match parentRect with | some r => r.left | none => 0
    let baseY := match parentRect with | some r => r.top | none => 0
    let absoluteX := baseX + anchorStart.x + anchorOffset.x + f.position.getD 0 0
    let absoluteY := baseY + anchorStart.y + anchorOffset.y + f.position.getD 1 0
    let width := f.size.getD 0 0
    let height := f.size.getD 1 0
    let rect : UIRect :=
      { left := absoluteX, top := absoluteY, right := absoluteX + width,
        bottom := absoluteY + height, width := width, height := height,
        centerX := absoluteX + width / 2, centerY := absoluteY + height / 2 }
    ({ id := i, parentId := parentId, rect := rect } : UIElementBounds)
      :: (computeBoundsList (some rect) (some i) children ++ computeBoundsList parentRect parentId rest)

/-- `computeElementBounds`: the full bounds pass over the root list. -/
def computeElementBounds (roots : List UIElement) : List UIElementBounds :=
  computeBoundsList none none roots

/-- Modelled from the spec (§4.1 `absolutePosition`): the recursively defined
absolute position `parentAbsolute + anchorStart(node.anchor, containerSize) +
anchorOffset(node.anchor, node.size) + node.position`, where `containerSize`
is the parent's resolved size (the fixed 1920×1080 canvas for roots) and
`parentAbsolute` is (0,0) for roots.  Produces the id → absolute-position
pairs in the same depth-first order as the bounds pass. -/
def specAbsolutePositions (parentAbsolute : Vec2) (containerW containerH : ℚ) :
    List UIElement → List (String × Vec2)
  | [] => []
  | UIElement.node i _ f children :: rest =>
    let start := getAnchorStartCoordinates f.anchor containerW containerH
    let off := getAnchorOffset f.anchor f.size
    let abs : Vec2 :=
      ⟨parentAbsolute.x + start.x + off.x + f.position.getD 0 0,
       parentAbsolute.y + start.y + off.y + f.position.getD 1 0⟩
    (i, abs) :: (specAbsolutePositions abs (f.size.getD 0 0) (f.size.getD 1 0) children
      ++ specAbsolutePositions parentAbsolute containerW containerH rest)


/-- The absolute base point a parent rect contributes (`parentRect.left/top`,
or (0,0) for roots). -/
def boundsBase : Option UIRect → Vec2
  | some r => ⟨r.left, r.top⟩
  | none => ⟨0, 0⟩

/-- The container width a parent rect provides (canvas width for roots). -/
def boundsContainerW : Option UIRect → ℚ
  | some r => r.width
  | none => CANVAS_WIDTH

/-- The container height a parent rect provides (canvas height for roots). -/
def boundsContainerH : Option UIRect → ℚ
  | some r => r.height
  | none => CANVAS_HEIGHT

theorem computeBoundsList_eq_spec (els : List UIElement) :
    ∀ (pr : Option UIRect) (pid : Option String),
    (computeBoundsList pr pid els).map (fun b => (b.id, Vec2.mk b.rect.left b.rect.top)) =
      specAbsolutePositions (boundsBase pr) (boundsContainerW pr) (boundsContainerH pr) els := by
  match els with
  | [] => intro pr pid; simp [computeBoundsList, specAbsolutePositions]
  | UIElement.node i l f children :: rest =>
    intro pr pid
    have ih1 := computeBoundsList_eq_spec children
    have ih2 := computeBoundsList_eq_spec rest
    cases pr <;>
      simp [computeBoundsList, specAbsolutePositions, List.map_cons, List.map_append,
        ih1, ih2, boundsBase, boundsContainerW, boundsContainerH]

/-- **C2.** For every node in the tree, the absolute position computed by the
bounds pass (`computeElementBounds`) equals the spec's recursive formula
`parentAbsolute + anchorStart(node.anchor, containerSize) +
anchorOffset(node.anchor, node.size) + node.position`, where `containerSize`
is the parent's resolved size for nested nodes and the fixed 1920×1080
canvas for roots, and `parentAbsolute` is (0,0) for roots. -/
theorem bounds_pass_computes_spec_absolute_positions (roots : List UIElement) :
    (computeElementBounds roots).map (fun b => (b.id, Vec2.mk b.rect.left b.rect.top)) =
      specAbsolutePositions ⟨0, 0⟩ CANVAS_WIDTH CANVAS_HEIGHT roots := by
  simpa [boundsBase, boundsContainerW, boundsContainerH, computeElementBounds] using
    computeBoundsList_eq_spec roots none none

/-- Modelled from the claim (C8): the reference point of anchor `A` inside a
`w × h` container — the 3×3 grid crossing \x7bleft, center, right\x7d ×
\x7btop, center, bottom\x7d. -/
def specAnchorReferencePoint (anchor : ℕ) (w h : ℚ) : Vec2 :=
  if anchor = UIAnchor.TopLeft then ⟨0, 0⟩
  else if anchor = UIAnchor.TopCenter then ⟨w / 2, 0⟩
  else if anchor = UIAnchor.TopRight then ⟨w, 0⟩
  else if anchor = UIAnchor.CenterLeft then ⟨0, h / 2⟩
  else if anchor = UIAnchor.Center then ⟨w / 2, h / 2⟩
  else if anchor = UIAnchor.CenterRight then ⟨w, h / 2⟩
  else if anchor = UIAnchor.BottomLeft then ⟨0, h⟩
  else if anchor = UIAnchor.BottomCenter then ⟨w / 2, h⟩
  else ⟨w, h⟩

/-- Modelled from the claim (C8): the point of a box (top-left `origin`,
size `boxW × boxH`) that anchor `A` is supposed to pin — per axis its
left/top edge, its center, or its right/bottom edge. -/
def specBoxMatchingPoint (anchor : ℕ) (origin : Vec2) (boxW boxH : ℚ) : Vec2 :=
  let mx : ℚ :=
    if anchor = UIAnchor.TopLeft ∨ anchor = UIAnchor.CenterLeft ∨ anchor = UIAnchor.BottomLeft then
      origin.x
    else if anchor = UIAnchor.TopCenter ∨ anchor = UIAnchor.Center ∨ anchor = UIAnchor.BottomCenter then
      origin.x + boxW / 2
    else origin.x + boxW
  let my : ℚ :=
    if anchor = UIAnchor.TopLeft ∨ anchor = UIAnchor.TopCenter ∨ anchor = UIAnchor.TopRight then
      origin.y
    else if anchor = UIAnchor.CenterLeft ∨ anchor = UIAnchor.Center ∨ anchor = UIAnchor.CenterRight then
      origin.y + boxH / 2
    else origin.y + boxH
  ⟨mx, my⟩

/-- **C8.** For each of the 9 anchors `A` and every container size `(w,h)`
and element size `(boxW,boxH)`, a box placed at position `(0,0)` — i.e. with
top-left corner `anchorStart(A,w,h) + anchorOffset(A,size) + (0,0)` — has
its `A`-matching edge or center coinciding with `A`'s reference point. -/
theorem anchor_identity (anchor : ℕ) (h9 : anchor < 9) (w h boxW boxH : ℚ) :
    specBoxMatchingPoint anchor
      ⟨(getAnchorStartCoordinates anchor w h).x + (getAnchorOffset anchor [boxW, boxH]).x + 0,
       (getAnchorStartCoordinates anchor w h).y + (getAnchorOffset anchor [boxW, boxH]).y + 0⟩
      boxW boxH
    = specAnchorReferencePoint anchor w h := by
  interval_cases anchor <;>
    · simp [specBoxMatchingPoint, specAnchorReferencePoint, getAnchorStartCoordinates,
        getAnchorOffset, UIAnchor.BottomCenter, UIAnchor.BottomLeft, UIAnchor.BottomRight,
        UIAnchor.Center, UIAnchor.CenterLeft, UIAnchor.CenterRight, UIAnchor.TopCenter,
        UIAnchor.TopLeft, UIAnchor.TopRight, Vec2.mk.injEq]
      all_goals first
        | (constructor <;> ring)
        | ring

/-- Witness for C8 at the `Center` anchor in a 200×100 container with a
50×20 box: the box center lands on (100, 50). -/
theorem anchor_identity_witness :
    (3 : ℕ) < 9 ∧
      specBoxMatchingPoint 3
        ⟨(getAnchorStartCoordinates 3 200 100).x + (getAnchorOffset 3 [50, 20]).x + 0,
         (getAnchorStartCoordinates 3 200 100).y + (getAnchorOffset 3 [50, 20]).y + 0⟩
        50 20
      = specAnchorReferencePoint 3 200 100 :=
  ⟨by norm_num, anchor_identity 3 (by norm_num) 200 100 50 20⟩


/-- `Partial<UIElement>` as passed to `updateElement`: every property field
optionally present.  (`id`, `children`, `parent` and `advancedMetadata`
updates are outside the behaviour the claims exercise and are not
modelled.) -/
structure UIElementUpdate where
  locked : Option Bool := none
  name : Option String := none
  type : Option ElemType := none
  position : Option (List ℚ) := none
  size : Option (List ℚ) := none
  anchor : Option ℕ := none
  visible : Option Bool := none
  textLabel : Option String := none
  textColor : Option (List ℚ) := none
  textAlpha : Option ℚ := none
  textSize : Option ℚ := none
  textAnchor : Option ℕ := none
  padding : Option ℚ := none
  bgColor : Option (List ℚ) := none
  bgAlpha : Option ℚ := none
  bgFill : Option ℕ := none
  imageType : Option ℕ := none
  imageColor : Option (List ℚ) := none
  imageAlpha : Option ℚ := none
  buttonEnabled : Option Bool := none
  buttonColorBase : Option (List ℚ) := none
  buttonAlphaBase : Option ℚ := none
  buttonColorDisabled : Option (List ℚ) := none
  buttonAlphaDisabled : Option ℚ := none
  buttonColorPressed : Option (List ℚ) := none
  buttonAlphaPressed : Option ℚ := none
  buttonColorHover : Option (List ℚ) := none
  buttonAlphaHover : Option ℚ := none
  buttonColorFocused : Option (List ℚ) := none
  buttonAlphaFocused : Option ℚ := none
deriving Repr, DecidableEq

/-- The JS object spread `{...element, ...nextUpdates}` restricted to
the property fields: every field present in the update overrides. -/
def applyFieldUpdates (f : UIFields) (u : UIElementUpdate) : UIFields where
  name := u.name.getD f.name
  type := u.type.getD f.type
  position := u.position.getD f.position
  size := u.size.getD f.size
  anchor := u.anchor.getD f.anchor
  visible := u.visible.getD f.visible
  textLabel := u.textLabel.getD f.textLabel
  textColor := u.textColor.getD f.textColor
  textAlpha := u.textAlpha.getD f.textAlpha
  textSize := u.textSize.getD f.textSize
  textAnchor := u.textAnchor.getD f.textAnchor
  padding := u.padding.getD f.padding
  bgColor := u.bgColor.getD f.bgColor
  bgAlpha := u.bgAlpha.getD f.bgAlpha
  bgFill := u.bgFill.getD f.bgFill
  imageType := u.imageType.getD f.imageType
  imageColor := u.imageColor.getD f.imageColor
  imageAlpha := u.imageAlpha.getD f.imageAlpha
  buttonEnabled := u.buttonEnabled.getD f.buttonEnabled
  buttonColorBase := u.buttonColorBase.getD f.buttonColorBase
  buttonAlphaBase := u.buttonAlphaBase.getD f.buttonAlphaBase
  buttonColorDisabled := u.buttonColorDisabled.getD f.buttonColorDisabled
  buttonAlphaDisabled := u.buttonAlphaDisabled.getD f.buttonAlphaDisabled
  buttonColorPressed := u.buttonColorPressed.getD f.buttonColorPressed
  buttonAlphaPressed := u.buttonAlphaPressed.getD f.buttonAlphaPressed
  buttonColorHover := u.buttonColorHover.getD f.buttonColorHover
  buttonAlphaHover := u.buttonAlphaHover.getD f.buttonAlphaHover
  buttonColorFocused := u.buttonColorFocused.getD f.buttonColorFocused
  buttonAlphaFocused := u.buttonAlphaFocused.getD f.buttonAlphaFocused

/-- The update closure `updateElement` passes to `updateElementRecursive`
(ui-builder.service.ts, the locked-element guard):
`requestedLocked` is the update's `locked` when it carries a boolean, else
the element's current flag; when the element is locked and `requestedLocked`
is not `false`, the `position` and `size` keys are deleted from the update
before the spread. -/
def applyElementUpdate (updates : UIElementUpdate) (e : UIElement) : UIElement :=
  match e with
  | .node i lk f cs =>
    let requestedLocked : Bool := updates.locked.getD lk
    let nextUpdates : UIElementUpdate :=
      if lk = true ∧ requestedLocked ≠ false then
        { updates with position := none, size := none }
      else updates
    .node i (nextUpdates.locked.getD lk) (applyFieldUpdates f nextUpdates) cs

/-- `updateElementRecursive` (ui-builder.service.ts): map over the tree,
applying `updateFn` on the id match and recursing into children lists. -/
def updateElementRecursive (els : List UIElement) (targetId : String)
    (updateFn : UIElement → UIElement) : List UIElement :=
  match els with
  | [] => []
  | (UIElement.node i lk f cs) :: rest =>
    (if i = targetId then updateFn (.node i lk f cs)
     else if cs.length ≠ 0 then .node i lk f (updateElementRecursive cs targetId updateFn)
     else .node i lk f cs)
      :: updateElementRecursive rest targetId updateFn

/-- `updateElement` (ui-builder.service.ts, lines 938–960). -/
def updateElement (els : List UIElement) (elementId : String) (updates : UIElementUpdate) :
    List UIElement :=
  updateElementRecursive els elementId (applyElementUpdate updates)

/-- **C10.** Updating a locked element discards the `position` and `size`
fields of the requested update — the element keeps its stored position and
size — unless the same update also sets `locked` to `false`; every other
field of the update is still applied (here stated for the updated element;
`updateElementRecursive` applies the same closure wherever the id sits). -/
theorem locked_update_discards_position_and_size
    (i : String) (f : UIFields) (cs : List UIElement) (u : UIElementUpdate)
    (h : u.locked ≠ some false) :
    updateElement [UIElement.node i true f cs] i u =
      [UIElement.node i (u.locked.getD true)
        (applyFieldUpdates f { u with position := none, size := none }) cs] ∧
    (applyFieldUpdates f { u with position := none, size := none }).position = f.position ∧
    (applyFieldUpdates f { u with position := none, size := none }).size = f.size := by
  refine ⟨?_, rfl, rfl⟩
  have hreq : u.locked.getD true = true := by
    cases hl : u.locked with
    | none => rfl
    | some b => cases b with
      | false => exact absurd hl h
      | true => rfl
  simp [updateElement, updateElementRecursive, applyElementUpdate, hreq]

/-- Witness for C10: a locked element with position (1,2) and size (3,4)
receives an update carrying a new position, size and name; the name is
applied, position and size are kept. -/
theorem locked_update_discards_position_and_size_witness :
    (({ name := some "renamed", position := some [9, 9], size := some [9, 9] }
        : UIElementUpdate).locked ≠ some false) ∧
    updateElement
        [UIElement.node "e1" true { DEFAULT_UI_PARAMS with name := "old", position := [1, 2], size := [3, 4] } []]
        "e1" { name := some "renamed", position := some [9, 9], size := some [9, 9] } =
      [UIElement.node "e1" true
        (applyFieldUpdates { DEFAULT_UI_PARAMS with name := "old", position := [1, 2], size := [3, 4] }
          { name := some "renamed" }) []] :=
  ⟨by simp, (locked_update_discards_position_and_size "e1"
      { DEFAULT_UI_PARAMS with name := "old", position := [1, 2], size := [3, 4] } []
      { name := some "renamed", position := some [9, 9], size := some [9, 9] }
      (by simp)).1⟩


/-- `CanvasComponent.snapThreshold` (canvas.component.ts line 22). -/
def snapThreshold : ℚ := 8

/-- The mutable state of `applySnapping`'s candidate loop. -/
structure SnapAcc where
  bestHorizontalDiff : ℚ
  bestVerticalDiff : ℚ
  snappedX : ℚ
  snappedY : ℚ
  verticalGuide : Option ℚ
  horizontalGuide : Option ℚ
deriving Repr, DecidableEq

/-- What `applySnapping` returns (snapped position) together with the guide
lines it publishes via `updateSnapGuides` (unscaled). -/
structure SnapOutcome where
  x : ℚ
  y : ℚ
  verticalGuide : Option ℚ
  horizontalGuide : Option ℚ
deriving Repr, DecidableEq

/-- The `diffLeft` check of `applySnapping`'s candidate loop. -/
def snapLeft (baseLeft : ℚ) (rect : UIRect) (acc : SnapAcc) : SnapAcc :=
  if |rect.left - baseLeft| < acc.bestHorizontalDiff ∧ |rect.left - baseLeft| ≤ snapThreshold then
    { acc with bestHorizontalDiff := |rect.left - baseLeft|, snappedX := rect.left,
               verticalGuide := some rect.left }
  else acc

/-- The `diffRight` check of `applySnapping`'s candidate loop. -/
def snapRight (baseRight width : ℚ) (rect : UIRect) (acc : SnapAcc) : SnapAcc :=
  if |rect.right - baseRight| < acc.bestHorizontalDiff ∧ |rect.right - baseRight| ≤ snapThreshold then
    { acc with bestHorizontalDiff := |rect.right - baseRight|, snappedX := rect.right - width,
               verticalGuide := some rect.right }
  else acc

/-- The `diffCenterX` check of `applySnapping`'s candidate loop. -/
def snapCenterX (baseCenterX width : ℚ) (rect : UIRect) (acc : SnapAcc) : SnapAcc :=
  if |rect.centerX - baseCenterX| < acc.bestHorizontalDiff ∧ |rect.centerX - baseCenterX| ≤ snapThreshold then
    { acc with bestHorizontalDiff := |rect.centerX - baseCenterX|, snappedX := rect.centerX - width / 2,
               verticalGuide := some rect.centerX }
  else acc

/-- The `diffTop` check of `applySnapping`'s candidate loop. -/
def snapTop (baseTop : ℚ) (rect : UIRect) (acc : SnapAcc) : SnapAcc :=
  if |rect.top - baseTop| < acc.bestVerticalDiff ∧ |rect.top - baseTop| ≤ snapThreshold then
    { acc with bestVerticalDiff := |rect.top - baseTop|, snappedY := rect.top,
               horizontalGuide := some rect.top }
  else acc

/-- The `diffBottom` check of `applySnapping`'s candidate loop. -/
def snapBottom (baseBottom height : ℚ) (rect : UIRect) (acc : SnapAcc) : SnapAcc :=
  if |rect.bottom - baseBottom| < acc.bestVerticalDiff ∧ |rect.bottom - baseBottom| ≤ snapThreshold then
    { acc with bestVerticalDiff := |rect.bottom - baseBottom|, snappedY := rect.bottom - height,
               horizontalGuide := some rect.bottom }
  else acc

/-- The `diffCenterY` check of `applySnapping`'s candidate loop. -/
def snapCenterY (baseCenterY height : ℚ) (rect : UIRect) (acc : SnapAcc) : SnapAcc :=
  if |rect.centerY - baseCenterY| < acc.bestVerticalDiff ∧ |rect.centerY - baseCenterY| ≤ snapThreshold then
    { acc with bestVerticalDiff := |rect.centerY - baseCenterY|, snappedY := rect.centerY - height / 2,
               horizontalGuide := some rect.centerY }
  else acc

/-- One iteration of `applySnapping`'s `for (const rect of candidateRects)`
loop: the six edge/center checks in source order (left, right, centerX,
top, bottom, centerY), each updating the running best for its axis. -/
def snapStep (baseLeft baseRight baseCenterX baseTop baseBottom baseCenterY width height : ℚ)
    (acc : SnapAcc) (rect : UIRect) : SnapAcc :=
  snapCenterY baseCenterY height rect
    (snapBottom baseBottom height rect
      (snapTop baseTop rect
        (snapCenterX baseCenterX width rect
          (snapRight baseRight width rect
            (snapLeft baseLeft rect acc)))))

/-- `applySnapping` (canvas.component.ts lines 600–685), with the
snap-to-elements toggle and the candidate list passed explicitly. -/
def applySnapping (snapEnabled : Bool) (size : List ℚ) (proposedX proposedY : ℚ)
    (candidateRects : List UIRect) : SnapOutcome :=
  if snapEnabled = false then ⟨proposedX, proposedY, none, none⟩
  else if candidateRects.length = 0 then ⟨proposedX, proposedY, none, none⟩
  else
    let width := size.getD 0 0
    let height := size.getD 1 0
    let baseLeft := proposedX
    let baseRight := proposedX + width
    let baseCenterX := proposedX + width / 2
    let baseTop := proposedY
    let baseBottom := proposedY + height
    let baseCenterY := proposedY + height / 2
    let init : SnapAcc :=
      ⟨snapThreshold + 1, snapThreshold + 1, proposedX, proposedY, none, none⟩
    let acc := candidateRects.foldl
      (snapStep baseLeft baseRight baseCenterX baseTop baseBottom baseCenterY width height) init
    let verticalGuide := if acc.bestHorizontalDiff > snapThreshold then none else acc.verticalGuide
    let horizontalGuide := if acc.bestVerticalDiff > snapThreshold then none else acc.horizontalGuide
    ⟨acc.snappedX, acc.snappedY, verticalGuide, horizontalGuide⟩

theorem snapTop_snappedX (b : ℚ) (rect : UIRect) (acc : SnapAcc) :
    (snapTop b rect acc).snappedX = acc.snappedX := by
  unfold snapTop; split <;> rfl

theorem snapBottom_snappedX (b hh : ℚ) (rect : UIRect) (acc : SnapAcc) :
    (snapBottom b hh rect acc).snappedX = acc.snappedX := by
  unfold snapBottom; split <;> rfl

theorem snapCenterY_snappedX (b hh : ℚ) (rect : UIRect) (acc : SnapAcc) :
    (snapCenterY b hh rect acc).snappedX = acc.snappedX := by
  unfold snapCenterY; split <;> rfl

theorem snapLeft_snappedY (b : ℚ) (rect : UIRect) (acc : SnapAcc) :
    (snapLeft b rect acc).snappedY = acc.snappedY := by
  unfold snapLeft; split <;> rfl

theorem snapRight_snappedY (b ww : ℚ) (rect : UIRect) (acc : SnapAcc) :
    (snapRight b ww rect acc).snappedY = acc.snappedY := by
  unfold snapRight; split <;> rfl

theorem snapCenterX_snappedY (b ww : ℚ) (rect : UIRect) (acc : SnapAcc) :
    (snapCenterX b ww rect acc).snappedY = acc.snappedY := by
  unfold snapCenterX; split <;> rfl

theorem snapLeft_bestVerticalDiff (b : ℚ) (rect : UIRect) (acc : SnapAcc) :
    (snapLeft b rect acc).bestVerticalDiff = acc.bestVerticalDiff := by
  unfold snapLeft; split <;> rfl

theorem snapRight_bestVerticalDiff (b ww : ℚ) (rect : UIRect) (acc : SnapAcc) :
    (snapRight b ww rect acc).bestVerticalDiff = acc.bestVerticalDiff := by
  unfold snapRight; split <;> rfl

theorem snapCenterX_bestVerticalDiff (b ww : ℚ) (rect : UIRect) (acc : SnapAcc) :
    (snapCenterX b ww rect acc).bestVerticalDiff = acc.bestVerticalDiff := by
  unfold snapCenterX; split <;> rfl

theorem applySnapping_single_x (w h px py : ℚ) (rect : UIRect) :
    (applySnapping true [w, h] px py [rect]).x =
      (snapCenterX (px + w / 2) w rect
        (snapRight (px + w) w rect
          (snapLeft px rect
            ⟨snapThreshold + 1, snapThreshold + 1, px, py, none, none⟩))).snappedX := by
  simp [applySnapping, snapStep, snapTop_snappedX, snapBottom_snappedX, snapCenterY_snappedX]

theorem snapTop_bestVerticalDiff (b : ℚ) (rect : UIRect) (acc : SnapAcc) :
    (snapTop b rect acc).bestVerticalDiff =
      if |rect.top - b| < acc.bestVerticalDiff ∧ |rect.top - b| ≤ snapThreshold then
        |rect.top - b| else acc.bestVerticalDiff := by
  unfold snapTop; split <;> rfl

theorem snapTop_snappedY (b : ℚ) (rect : UIRect) (acc : SnapAcc) :
    (snapTop b rect acc).snappedY =
      if |rect.top - b| < acc.bestVerticalDiff ∧ |rect.top - b| ≤ snapThreshold then
        rect.top else acc.snappedY := by
  unfold snapTop; split <;> rfl

theorem snapBottom_bestVerticalDiff (b hh : ℚ) (rect : UIRect) (acc : SnapAcc) :
    (snapBottom b hh rect acc).bestVerticalDiff =
      if |rect.bottom - b| < acc.bestVerticalDiff ∧ |rect.bottom - b| ≤ snapThreshold then
        |rect.bottom - b| else acc.bestVerticalDiff := by
  unfold snapBottom; split <;> rfl

theorem snapBottom_snappedY (b hh : ℚ) (rect : UIRect) (acc : SnapAcc) :
    (snapBottom b hh rect acc).snappedY =
      if |rect.bottom - b| < acc.bestVerticalDiff ∧ |rect.bottom - b| ≤ snapThreshold then
        rect.bottom - hh else acc.snappedY := by
  unfold snapBottom; split <;> rfl

theorem snapCenterY_snappedY (b hh : ℚ) (rect : UIRect) (acc : SnapAcc) :
    (snapCenterY b hh rect acc).snappedY =
      if |rect.centerY - b| < acc.bestVerticalDiff ∧ |rect.centerY - b| ≤ snapThreshold then
        rect.centerY - hh / 2 else acc.snappedY := by
  unfold snapCenterY; split <;> rfl

theorem applySnapping_single_y (w h px py : ℚ) (rect : UIRect) :
    (applySnapping true [w, h] px py [rect]).y =
      (snapCenterY (py + h / 2) h rect
        (snapBottom (py + h) h rect
          (snapTop py rect
            ⟨snapThreshold + 1, snapThreshold + 1, px, py, none, none⟩))).snappedY := by
  simp [applySnapping, snapStep, snapCenterY_snappedY, snapBottom_snappedY,
    snapBottom_bestVerticalDiff, snapTop_snappedY, snapTop_bestVerticalDiff,
    snapLeft_snappedY, snapRight_snappedY, snapCenterX_snappedY,
    snapLeft_bestVerticalDiff, snapRight_bestVerticalDiff, snapCenterX_bestVerticalDiff]

theorem snap_x_part (w h px py : ℚ) (rect : UIRect)
    (hmin : min |rect.left - px| (min |rect.right - (px + w)| |rect.centerX - (px + w / 2)|) = 8) :
    ((applySnapping true [w, h] px py [rect]).x = rect.left ∨
     (applySnapping true [w, h] px py [rect]).x + w = rect.right ∨
     (applySnapping true [w, h] px py [rect]).x + w / 2 = rect.centerX) ∧
    (applySnapping true [w, h] px py [rect]).x ≠ px := by
  have ha : (8 : ℚ) ≤ |rect.left - px| := hmin ▸ min_le_left _ _
  have hbc : (8 : ℚ) ≤ min |rect.right - (px + w)| |rect.centerX - (px + w / 2)| :=
    hmin ▸ min_le_right _ _
  have hb : (8 : ℚ) ≤ |rect.right - (px + w)| := le_trans hbc (min_le_left _ _)
  have hc : (8 : ℚ) ≤ |rect.centerX - (px + w / 2)| := le_trans hbc (min_le_right _ _)
  have hdisj : |rect.left - px| = 8 ∨ |rect.right - (px + w)| = 8 ∨
      |rect.centerX - (px + w / 2)| = 8 := by
    rcases min_cases |rect.left - px|
        (min |rect.right - (px + w)| |rect.centerX - (px + w / 2)|) with ⟨h', _⟩ | ⟨h', _⟩
    · exact Or.inl (by rw [h'] at hmin; exact hmin)
    · rw [h'] at hmin
      rcases min_cases |rect.right - (px + w)| |rect.centerX - (px + w / 2)| with
        ⟨h'', _⟩ | ⟨h'', _⟩
      · exact Or.inr (Or.inl (by rw [h''] at hmin; exact hmin))
      · exact Or.inr (Or.inr (by rw [h''] at hmin; exact hmin))
  rw [applySnapping_single_x]
  by_cases h1 : |rect.left - px| ≤ 8
  · have e1 : snapLeft px rect ⟨snapThreshold + 1, snapThreshold + 1, px, py, none, none⟩ =
        ⟨|rect.left - px|, snapThreshold + 1, rect.left, py, some rect.left, none⟩ := by
      simp only [snapLeft, snapThreshold]
      rw [if_pos ⟨by norm_num; linarith, by linarith⟩]
    rw [e1]
    have hd1 : |rect.left - px| = 8 := le_antisymm h1 ha
    by_cases h2 : |rect.right - (px + w)| < |rect.left - px| ∧ |rect.right - (px + w)| ≤ 8
    · exact absurd h2.1 (by rw [hd1]; exact not_lt.mpr hb)
    · have e2 : snapRight (px + w) w rect
          ⟨|rect.left - px|, snapThreshold + 1, rect.left, py, some rect.left, none⟩ =
          ⟨|rect.left - px|, snapThreshold + 1, rect.left, py, some rect.left, none⟩ := by
        simp only [snapRight, snapThreshold]
        rw [if_neg]; simpa using h2
      rw [e2]
      by_cases h3 : |rect.centerX - (px + w / 2)| < |rect.left - px| ∧
          |rect.centerX - (px + w / 2)| ≤ 8
      · exact absurd h3.1 (by rw [hd1]; exact not_lt.mpr hc)
      · have e3 : snapCenterX (px + w / 2) w rect
            ⟨|rect.left - px|, snapThreshold + 1, rect.left, py, some rect.left, none⟩ =
            ⟨|rect.left - px|, snapThreshold + 1, rect.left, py, some rect.left, none⟩ := by
          simp only [snapCenterX, snapThreshold]
          rw [if_neg]; simpa using h3
        rw [e3]
        refine ⟨Or.inl rfl, fun heq => ?_⟩
        rw [show rect.left = px from heq] at hd1
        simp at hd1
  · have e1 : snapLeft px rect ⟨snapThreshold + 1, snapThreshold + 1, px, py, none, none⟩ =
        ⟨snapThreshold + 1, snapThreshold + 1, px, py, none, none⟩ := by
      simp only [snapLeft, snapThreshold]
      rw [if_neg]; intro hcon; exact h1 (by norm_num at hcon; linarith [hcon.2])
    rw [e1]
    by_cases h2 : |rect.right - (px + w)| ≤ 8
    · have hd2 : |rect.right - (px + w)| = 8 := le_antisymm h2 hb
      have e2 : snapRight (px + w) w rect
          ⟨snapThreshold + 1, snapThreshold + 1, px, py, none, none⟩ =
          ⟨|rect.right - (px + w)|, snapThreshold + 1, rect.right - w, py, some rect.right,
            none⟩ := by
        simp only [snapRight, snapThreshold]
        rw [if_pos ⟨by norm_num; linarith, by linarith⟩]
      rw [e2]
      by_cases h3 : |rect.centerX - (px + w / 2)| < |rect.right - (px + w)| ∧
          |rect.centerX - (px + w / 2)| ≤ 8
      · exact absurd h3.1 (by rw [hd2]; exact not_lt.mpr hc)
      · have e3 : snapCenterX (px + w / 2) w rect
            ⟨|rect.right - (px + w)|, snapThreshold + 1, rect.right - w, py, some rect.right,
              none⟩ =
            ⟨|rect.right - (px + w)|, snapThreshold + 1, rect.right - w, py, some rect.right,
              none⟩ := by
          simp only [snapCenterX, snapThreshold]
          rw [if_neg]; simpa using h3
        rw [e3]
        refine ⟨Or.inr (Or.inl (by ring)), fun heq => ?_⟩
        simp at heq
        rw [show rect.right - (px + w) = 0 from by linarith [heq]] at hd2
        simp at hd2
    · have e2 : snapRight (px + w) w rect
          ⟨snapThreshold + 1, snapThreshold + 1, px, py, none, none⟩ =
          ⟨snapThreshold + 1, snapThreshold + 1, px, py, none, none⟩ := by
        simp only [snapRight, snapThreshold]
        rw [if_neg]; intro hcon; exact h2 (by norm_num at hcon; linarith [hcon.2])
      rw [e2]
      have h3 : |rect.centerX - (px + w / 2)| ≤ 8 := by
        rcases hdisj with hx | hx | hx
        · exact absurd hx (fun hcon => h1 (le_of_eq hcon))
        · exact absurd hx (fun hcon => h2 (le_of_eq hcon))
        · exact le_of_eq hx
      have hd3 : |rect.centerX - (px + w / 2)| = 8 := le_antisymm h3 hc
      have e3 : snapCenterX (px + w / 2) w rect
          ⟨snapThreshold + 1, snapThreshold + 1, px, py, none, none⟩ =
          ⟨|rect.centerX - (px + w / 2)|, snapThreshold + 1, rect.centerX - w / 2, py,
            some rect.centerX, none⟩ := by
        simp only [snapCenterX, snapThreshold]
        rw [if_pos ⟨by norm_num; linarith, by linarith⟩]
      rw [e3]
      refine ⟨Or.inr (Or.inr (by ring)), fun heq => ?_⟩
      simp at heq
      rw [show rect.centerX - (px + w / 2) = 0 from by linarith [heq]] at hd3
      simp at hd3

theorem snap_y_part (w h px py : ℚ) (rect : UIRect)
    (hmin : min |rect.top - py| (min |rect.bottom - (py + h)| |rect.centerY - (py + h / 2)|) = 8) :
    ((applySnapping true [w, h] px py [rect]).y = rect.top ∨
     (applySnapping true [w, h] px py [rect]).y + h = rect.bottom ∨
     (applySnapping true [w, h] px py [rect]).y + h / 2 = rect.centerY) ∧
    (applySnapping true [w, h] px py [rect]).y ≠ py := by
  have ha : (8 : ℚ) ≤ |rect.top - py| := hmin ▸ min_le_left _ _
  have hbc : (8 : ℚ) ≤ min |rect.bottom - (py + h)| |rect.centerY - (py + h / 2)| :=
    hmin ▸ min_le_right _ _
  have hb : (8 : ℚ) ≤ |rect.bottom - (py + h)| := le_trans hbc (min_le_left _ _)
  have hc : (8 : ℚ) ≤ |rect.centerY - (py + h / 2)| := le_trans hbc (min_le_right _ _)
  have hdisj : |rect.top - py| = 8 ∨ |rect.bottom - (py + h)| = 8 ∨
      |rect.centerY - (py + h / 2)| = 8 := by
    rcases min_cases |rect.top - py|
        (min |rect.bottom - (py + h)| |rect.centerY - (py + h / 2)|) with ⟨h', _⟩ | ⟨h', _⟩
    · exact Or.inl (by rw [h'] at hmin; exact hmin)
    · rw [h'] at hmin
      rcases min_cases |rect.bottom - (py + h)| |rect.centerY - (py + h / 2)| with
        ⟨h'', _⟩ | ⟨h'', _⟩
      · exact Or.inr (Or.inl (by rw [h''] at hmin; exact hmin))
      · exact Or.inr (Or.inr (by rw [h''] at hmin; exact hmin))
  rw [applySnapping_single_y]
  by_cases h1 : |rect.top - py| ≤ 8
  · have e1 : snapTop py rect ⟨snapThreshold + 1, snapThreshold + 1, px, py, none, none⟩ =
        ⟨snapThreshold + 1, |rect.top - py|, px, rect.top, none, some rect.top⟩ := by
      simp only [snapTop, snapThreshold]
      rw [if_pos ⟨by norm_num; linarith, by linarith⟩]
    rw [e1]
    have hd1 : |rect.top - py| = 8 := le_antisymm h1 ha
    by_cases h2 : |rect.bottom - (py + h)| < |rect.top - py| ∧ |rect.bottom - (py + h)| ≤ 8
    · exact absurd h2.1 (by rw [hd1]; exact not_lt.mpr hb)
    · have e2 : snapBottom (py + h) h rect
          ⟨snapThreshold + 1, |rect.top - py|, px, rect.top, none, some rect.top⟩ =
          ⟨snapThreshold + 1, |rect.top - py|, px, rect.top, none, some rect.top⟩ := by
        simp only [snapBottom, snapThreshold]
        rw [if_neg]; simpa using h2
      rw [e2]
      by_cases h3 : |rect.centerY - (py + h / 2)| < |rect.top - py| ∧
          |rect.centerY - (py + h / 2)| ≤ 8
      · exact absurd h3.1 (by rw [hd1]; exact not_lt.mpr hc)
      · have e3 : snapCenterY (py + h / 2) h rect
            ⟨snapThreshold + 1, |rect.top - py|, px, rect.top, none, some rect.top⟩ =
            ⟨snapThreshold + 1, |rect.top - py|, px, rect.top, none, some rect.top⟩ := by
          simp only [snapCenterY, snapThreshold]
          rw [if_neg]; simpa using h3
        rw [e3]
        refine ⟨Or.inl rfl, fun heq => ?_⟩
        simp at heq
        rw [show rect.top = py from heq] at hd1
        simp at hd1
  · have e1 : snapTop py rect ⟨snapThreshold + 1, snapThreshold + 1, px, py, none, none⟩ =
        ⟨snapThreshold + 1, snapThreshold + 1, px, py, none, none⟩ := by
      simp only [snapTop, snapThreshold]
      rw [if_neg]; intro hcon; exact h1 (by norm_num at hcon; linarith [hcon.2])
    rw [e1]
    by_cases h2 : |rect.bottom - (py + h)| ≤ 8
    · have hd2 : |rect.bottom - (py + h)| = 8 := le_antisymm h2 hb
      have e2 : snapBottom (py + h) h rect
          ⟨snapThreshold + 1, snapThreshold + 1, px, py, none, none⟩ =
          ⟨snapThreshold + 1, |rect.bottom - (py + h)|, px, rect.bottom - h, none,
            some rect.bottom⟩ := by
        simp only [snapBottom, snapThreshold]
        rw [if_pos ⟨by norm_num; linarith, by linarith⟩]
      rw [e2]
      by_cases h3 : |rect.centerY - (py + h / 2)| < |rect.bottom - (py + h)| ∧
          |rect.centerY - (py + h / 2)| ≤ 8
      · exact absurd h3.1 (by rw [hd2]; exact not_lt.mpr hc)
      · have e3 : snapCenterY (py + h / 2) h rect
            ⟨snapThreshold + 1, |rect.bottom - (py + h)|, px, rect.bottom - h, none,
              some rect.bottom⟩ =
            ⟨snapThreshold + 1, |rect.bottom - (py + h)|, px, rect.bottom - h, none,
              some rect.bottom⟩ := by
          simp only [snapCenterY, snapThreshold]
          rw [if_neg]; simpa using h3
        rw [e3]
        refine ⟨Or.inr (Or.inl (by ring)), fun heq => ?_⟩
        simp at heq
        rw [show rect.bottom - (py + h) = 0 from by linarith [heq]] at hd2
        simp at hd2
    · have e2 : snapBottom (py + h) h rect
          ⟨snapThreshold + 1, snapThreshold + 1, px, py, none, none⟩ =
          ⟨snapThreshold + 1, snapThreshold + 1, px, py, none, none⟩ := by
        simp only [snapBottom, snapThreshold]
        rw [if_neg]; intro hcon; exact h2 (by norm_num at hcon; linarith [hcon.2])
      rw [e2]
      have h3 : |rect.centerY - (py + h / 2)| ≤ 8 := by
        rcases hdisj with hx | hx | hx
        · exact absurd hx (fun hcon => h1 (le_of_eq hcon))
        · exact absurd hx (fun hcon => h2 (le_of_eq hcon))
        · exact le_of_eq hx
      have hd3 : |rect.centerY - (py + h / 2)| = 8 := le_antisymm h3 hc
      have e3 : snapCenterY (py + h / 2) h rect
          ⟨snapThreshold + 1, snapThreshold + 1, px, py, none, none⟩ =
          ⟨snapThreshold + 1, |rect.centerY - (py + h / 2)|, px, rect.centerY - h / 2, none,
            some rect.centerY⟩ := by
        simp only [snapCenterY, snapThreshold]
        rw [if_pos ⟨by norm_num; linarith, by linarith⟩]
      rw [e3]
      refine ⟨Or.inr (Or.inr (by ring)), fun heq => ?_⟩
      simp at heq
      rw [show rect.centerY - (py + h / 2) = 0 from by linarith [heq]] at hd3
      simp at hd3

theorem snap_x_none (w h px py : ℚ) (rect : UIRect)
    (hmin : 9 ≤ min |rect.left - px| (min |rect.right - (px + w)| |rect.centerX - (px + w / 2)|)) :
    (applySnapping true [w, h] px py [rect]).x = px := by
  have ha : (9 : ℚ) ≤ |rect.left - px| := le_trans hmin (min_le_left _ _)
  have hbc := le_trans hmin (min_le_right _ _)
  have hb : (9 : ℚ) ≤ |rect.right - (px + w)| := le_trans hbc (min_le_left _ _)
  have hc : (9 : ℚ) ≤ |rect.centerX - (px + w / 2)| := le_trans hbc (min_le_right _ _)
  rw [applySnapping_single_x]
  have e1 : snapLeft px rect ⟨snapThreshold + 1, snapThreshold + 1, px, py, none, none⟩ =
      ⟨snapThreshold + 1, snapThreshold + 1, px, py, none, none⟩ := by
    simp only [snapLeft, snapThreshold]
    rw [if_neg]; intro hcon; norm_num at hcon; linarith [hcon.2]
  rw [e1]
  have e2 : snapRight (px + w) w rect ⟨snapThreshold + 1, snapThreshold + 1, px, py, none, none⟩ =
      ⟨snapThreshold + 1, snapThreshold + 1, px, py, none, none⟩ := by
    simp only [snapRight, snapThreshold]
    rw [if_neg]; intro hcon; norm_num at hcon; linarith [hcon.2]
  rw [e2]
  have e3 : snapCenterX (px + w / 2) w rect
      ⟨snapThreshold + 1, snapThreshold + 1, px, py, none, none⟩ =
      ⟨snapThreshold + 1, snapThreshold + 1, px, py, none, none⟩ := by
    simp only [snapCenterX, snapThreshold]
    rw [if_neg]; intro hcon; norm_num at hcon; linarith [hcon.2]
  rw [e3]

theorem snap_y_none (w h px py : ℚ) (rect : UIRect)
    (hmin : 9 ≤ min |rect.top - py| (min |rect.bottom - (py + h)| |rect.centerY - (py + h / 2)|)) :
    (applySnapping true [w, h] px py [rect]).y = py := by
  have ha : (9 : ℚ) ≤ |rect.top - py| := le_trans hmin (min_le_left _ _)
  have hbc := le_trans hmin (min_le_right _ _)
  have hb : (9 : ℚ) ≤ |rect.bottom - (py + h)| := le_trans hbc (min_le_left _ _)
  have hc : (9 : ℚ) ≤ |rect.centerY - (py + h / 2)| := le_trans hbc (min_le_right _ _)
  rw [applySnapping_single_y]
  have e1 : snapTop py rect ⟨snapThreshold + 1, snapThreshold + 1, px, py, none, none⟩ =
      ⟨snapThreshold + 1, snapThreshold + 1, px, py, none, none⟩ := by
    simp only [snapTop, snapThreshold]
    rw [if_neg]; intro hcon; norm_num at hcon; linarith [hcon.2]
  rw [e1]
  have e2 : snapBottom (py + h) h rect ⟨snapThreshold + 1, snapThreshold + 1, px, py, none, none⟩ =
      ⟨snapThreshold + 1, snapThreshold + 1, px, py, none, none⟩ := by
    simp only [snapBottom, snapThreshold]
    rw [if_neg]; intro hcon; norm_num at hcon; linarith [hcon.2]
  rw [e2]
  have e3 : snapCenterY (py + h / 2) h rect
      ⟨snapThreshold + 1, snapThreshold + 1, px, py, none, none⟩ =
      ⟨snapThreshold + 1, snapThreshold + 1, px, py, none, none⟩ := by
    simp only [snapCenterY, snapThreshold]
    rw [if_neg]; intro hcon; norm_num at hcon; linarith [hcon.2]
  rw [e3]

/-- **C6.** With the snap threshold equal to 8: for a candidate rect whose
nearest matching line (leading edge, trailing edge or center, compared with
the moving box's corresponding line) lies at absolute distance exactly 8,
the snapping computation replaces that axis's position so that the matching
line coincides with the candidate line (in particular the position changes);
for a candidate whose nearest matching line lies at distance 9 — hence no
candidate within threshold — the proposed position on that axis is returned
unmodified.  Stated for both axes. -/
theorem snap_threshold_boundary (w h px py : ℚ) (rect : UIRect) :
    (min |rect.left - px| (min |rect.right - (px + w)| |rect.centerX - (px + w / 2)|) = 8 →
      ((applySnapping true [w, h] px py [rect]).x = rect.left ∨
       (applySnapping true [w, h] px py [rect]).x + w = rect.right ∨
       (applySnapping true [w, h] px py [rect]).x + w / 2 = rect.centerX) ∧
      (applySnapping true [w, h] px py [rect]).x ≠ px) ∧
    (9 ≤ min |rect.left - px| (min |rect.right - (px + w)| |rect.centerX - (px + w / 2)|) →
      (applySnapping true [w, h] px py [rect]).x = px) ∧
    (min |rect.top - py| (min |rect.bottom - (py + h)| |rect.centerY - (py + h / 2)|) = 8 →
      ((applySnapping true [w, h] px py [rect]).y = rect.top ∨
       (applySnapping true [w, h] px py [rect]).y + h = rect.bottom ∨
       (applySnapping true [w, h] px py [rect]).y + h / 2 = rect.centerY) ∧
      (applySnapping true [w, h] px py [rect]).y ≠ py) ∧
    (9 ≤ min |rect.top - py| (min |rect.bottom - (py + h)| |rect.centerY - (py + h / 2)|) →
      (applySnapping true [w, h] px py [rect]).y = py) :=
  ⟨fun hm => snap_x_part w h px py rect hm,
   fun hm => snap_x_none w h px py rect hm,
   fun hm => snap_y_part w h px py rect hm,
   fun hm => snap_y_none w h px py rect hm⟩

/-- Witness for C6: a 50×50 box proposed at x = 8 next to a candidate with
left edge 0 (distance exactly 8) snaps; proposed at x = 9 (distance 9,
nothing else within threshold) it stays put. -/
theorem snap_threshold_boundary_witness :
    (min |(0 : ℚ) - 8| (min |(100 : ℚ) - (8 + 50)| |(50 : ℚ) - (8 + 50 / 2)|) = 8 ∧
      (((applySnapping true [50, 50] 8 500 [⟨0, 0, 100, 40, 100, 40, 50, 20⟩]).x = 0 ∨
        (applySnapping true [50, 50] 8 500 [⟨0, 0, 100, 40, 100, 40, 50, 20⟩]).x + 50 = 100 ∨
        (applySnapping true [50, 50] 8 500 [⟨0, 0, 100, 40, 100, 40, 50, 20⟩]).x + 50 / 2 = 50) ∧
       (applySnapping true [50, 50] 8 500 [⟨0, 0, 100, 40, 100, 40, 50, 20⟩]).x ≠ 8)) ∧
    ((9 : ℚ) ≤ min |(0 : ℚ) - 9| (min |(100 : ℚ) - (9 + 50)| |(50 : ℚ) - (9 + 50 / 2)|) ∧
      (applySnapping true [50, 50] 9 500 [⟨0, 0, 100, 40, 100, 40, 50, 20⟩]).x = 9) :=
  ⟨⟨by norm_num,
    (snap_threshold_boundary 50 50 8 500 ⟨0, 0, 100, 40, 100, 40, 50, 20⟩).1 (by norm_num)⟩,
   ⟨by norm_num,
    (snap_threshold_boundary 50 50 9 500 ⟨0, 0, 100, 40, 100, 40, 50, 20⟩).2.1 (by norm_num)⟩⟩

/-- Counterexample to C7 as stated: two sibling boxes spanning x ∈ [0,100]
(one above, one below), a 50-wide box proposed at x = 104 with threshold 8.
The claim predicts snapped x = 100 (left edge to the sibling's right edge);
the computation returns x = 104. -/
theorem snap_example_counterexample :
    (applySnapping true [50, 50] 104 500
      [⟨0, 0, 100, 40, 100, 40, 50, 20⟩, ⟨0, 300, 100, 340, 100, 40, 50, 320⟩]).x = 104 ∧
    (104 : ℚ) ≠ 100 := by
  constructor
  · norm_num [applySnapping, snapStep, snapLeft, snapRight, snapCenterX, snapTop, snapBottom,
      snapCenterY, snapThreshold]
  · norm_num

/-- **C7 (amended).** With sibling candidate boxes occupying x ∈ [0,100] and
a 50-unit-wide moving box proposed at x = 104 (threshold 8), the snapping
computation returns the proposal unmodified — x = 104 with no guides —
because each check compares like lines only (left↔left, right↔right,
center↔center) and no such pair lies within the threshold; it does not align
the moving box's left edge to the sibling's right edge at 100. -/
theorem snap_example_no_cross_edge_snap :
    applySnapping true [50, 50] 104 500
      [⟨0, 0, 100, 40, 100, 40, 50, 20⟩, ⟨0, 300, 100, 340, 100, 40, 50, 320⟩] =
      ⟨104, 500, none, none⟩ := by
  norm_num [applySnapping, snapStep, snapLeft, snapRight, snapCenterX, snapTop, snapBottom,
    snapCenterY, snapThreshold]


/-! ## Decimal printing (`Number.prototype.toString` / `toFixed` on the
values the serializer emits) -/

/-- The decimal digit character for `n < 10`. -/
def digitChar (n : ℕ) : Char := Char.ofNat (48 + n)

/-- Decimal digits of `n`, least significant first. -/
def natDigitsRev (n : ℕ) : List Char :=
  if h : n < 10 then [digitChar n]
  else digitChar (n % 10) :: natDigitsRev (n / 10)
decreasing_by exact Nat.div_lt_self (by omega) (by omega)

/-- Decimal digits of `n`, most significant first. -/
def natDecChars (n : ℕ) : List Char := (natDigitsRev n).reverse

/-- `i.toString()` for an integer-valued JS number. -/
def intDecChars (i : ℤ) : List Char :=
  if i < 0 then '-' :: natDecChars i.natAbs else natDecChars i.natAbs

/-- `f` as exactly four decimal digits (leading zeros kept). -/
def natPad4Chars (f : ℕ) : List Char :=
  let ds := natDecChars f
  List.replicate (4 - ds.length) '0' ++ ds

/-- Drop trailing `'0'` characters. -/
def dropTrailingZeros (xs : List Char) : List Char :=
  (xs.reverse.dropWhile (fun c => c == '0')).reverse

/-- The shortest decimal string denoting `n / 10^4` — the result of
`Number(value.toFixed(4)).toString()` with `n` the scaled rounded value. -/
def scaledDecChars (n : ℤ) : List Char :=
  let a := n.natAbs
  if a % 10000 = 0 then
    (if n < 0 then ['-'] else []) ++ natDecChars (a / 10000)
  else
    (if n < 0 then ['-'] else []) ++ natDecChars (a / 10000)
      ++ '.' :: dropTrailingZeros (natPad4Chars (a % 10000))

/-- `formatNumber` (ui-builder.service.ts): integers print bare, other
finite values as `Number(value.toFixed(4)).toString()`.  `toFixed(4)` is
modelled as rounding `q·10⁴` to the nearest integer (ties away from zero
toward +∞); on the 4-decimal values the claims exercise the rounding is
exact.  The `null`/`undefined`/non-finite fallback `'0'` has no
counterpart: `ℚ` arguments are always finite numbers. -/
def formatNumber (q : ℚ) : String :=
  if q.den = 1 then String.mk (intDecChars q.num)
  else String.mk (scaledDecChars ⌊q * 10000 + 1 / 2⌋)

/-! ## String quoting (`JSON.stringify` of a string) -/

/-- The lowercase hex digit for `n < 16`. -/
def hexDigit (n : ℕ) : Char := if n < 10 then digitChar n else Char.ofNat (87 + n)

/-- How `JSON.stringify` escapes one character. -/
def jsonEscapeChar (c : Char) : List Char :=
  if c = '\x22' then ['\x5c', '\x22']
  else if c = '\x5c' then ['\x5c', '\x5c']
  else if c = '\n' then ['\x5c', 'n']
  else if c = '\r' then ['\x5c', 'r']
  else if c = '\t' then ['\x5c', 't']
  else if c = '\x08' then ['\x5c', 'b']
  else if c = '\x0c' then ['\x5c', 'f']
  else if c.toNat < 32 then
    ['\x5c', 'u', '0', '0', hexDigit (c.toNat / 16), hexDigit (c.toNat % 16)]
  else [c]

/-- `JSON.stringify` of a string: double quotes around the escaped body. -/
def jsonQuoteChars (s : List Char) : List Char :=
  '\x22' :: (s.map jsonEscapeChar).flatten ++ ['\x22']

/-- `formatString` (ui-builder.service.ts): `JSON.stringify(value ?? '')`. -/
def formatString (s : String) : String := String.mk (jsonQuoteChars s.data)

/-- `formatBoolean` (ui-builder.service.ts). -/
def formatBoolean (b : Bool) : String := if b then "true" else "false"

/-- `formatNumberArray` (ui-builder.service.ts). -/
def formatNumberArray (vs : List ℚ) : String :=
  if vs.length = 0 then "[]"
  else "[" ++ String.intercalate ", " (vs.map formatNumber) ++ "]"

/-! ## Enum ordinal ↔ name tables (the TS `enum` reverse/forward mappings) -/

/-- `UIAnchor[value]`: ordinal → member name. -/
def uiAnchorName : ℕ → Option String
  | 0 => some "BottomCenter"
  | 1 => some "BottomLeft"
  | 2 => some "BottomRight"
  | 3 => some "Center"
  | 4 => some "CenterLeft"
  | 5 => some "CenterRight"
  | 6 => some "TopCenter"
  | 7 => some "TopLeft"
  | 8 => some "TopRight"
  | _ => none

/-- `UIBgFill[value]`: ordinal → member name. -/
def uiBgFillName : ℕ → Option String
  | 0 => some "Blur"
  | 1 => some "GradientBottom"
  | 2 => some "GradientLeft"
  | 3 => some "GradientRight"
  | 4 => some "GradientTop"
  | 5 => some "None"
  | 6 => some "OutlineThick"
  | 7 => some "OutlineThin"
  | 8 => some "Solid"
  | _ => none

/-- `UIImageType[value]`: ordinal → member name. -/
def uiImageTypeName : ℕ → Option String
  | 0 => some "CrownOutline"
  | 1 => some "CrownSolid"
  | 2 => some "None"
  | 3 => some "QuestionMark"
  | 4 => some "RifleAmmo"
  | 5 => some "SelfHeal"
  | 6 => some "SpawnBeacon"
  | 7 => some "TEMP_PortalIcon"
  | _ => none

/-- `formatEnumValue` (ui-builder.service.ts): a mapped ordinal prints as
`mod.<EnumName>.<MemberName>`, an unmapped one as the raw integer. -/
def formatEnumValue (enumName : String) (enumRev : ℕ → Option String) (value : ℕ) : String :=
  match enumRev value with
  | some key => "mod." ++ enumName ++ "." ++ key
  | none => String.mk (natDecChars value)

/-- The whitespace class of JS `String.prototype.trim` restricted to the
characters this development exercises (space, tab, newline, carriage
return). -/
def jsWhitespaceB (c : Char) : Bool :=
  c == ' ' || c == '\t' || c == '\n' || c == '\r'

/-- JS `String.prototype.trim` on character lists. -/
def jsTrimChars (xs : List Char) : List Char :=
  (((xs.dropWhile jsWhitespaceB).reverse).dropWhile jsWhitespaceB).reverse

/-- JS `String.prototype.trim`. -/
def jsTrim (s : String) : String := String.mk (jsTrimChars s.data)

/-! ## The export string table -/

/-- The flat `Record<string, string>` string table, in insertion order. -/
abbrev StrTable := List (String × String)

/-- `Object.prototype.hasOwnProperty.call(strings, key)`. -/
def StrTable.hasKey (tbl : StrTable) (key : String) : Bool :=
  (List.find? (fun e => e.1 == key) tbl).isSome

/-- `collectTextStrings` (ui-builder.service.ts): depth-first pass recording
every Text node whose trimmed label is non-empty under the node's name (or
id when the name is empty); first writer wins. -/
def collectTextStringsAux (acc : StrTable) : List UIElement → StrTable
  | [] => acc
  | UIElement.node i _ f cs :: rest =>
    let acc1 :=
      if f.type = ElemType.Text then
        let text := jsTrim f.textLabel
        if text.length ≠ 0 then
          let key := if f.name = "" then i else f.name
          if StrTable.hasKey acc key then acc else acc ++ [(key, text)]
        else acc
      else acc
    let acc2 := collectTextStringsAux acc1 cs
    collectTextStringsAux acc2 rest

/-- `collectTextStrings` entry point. -/
def collectTextStrings (roots : List UIElement) : StrTable :=
  collectTextStringsAux [] roots

/-- Replace the first occurrence of `a` by `b` (JS
`String.prototype.replace` with a string pattern). -/
def replaceFirstChar (a b : Char) : List Char → List Char
  | [] => []
  | c :: cs => if c = a then b :: cs else c :: replaceFirstChar a b cs

/-- String wrapper for `replaceFirstChar`. -/
def replaceFirst (s : String) (a b : Char) : String :=
  String.mk (replaceFirstChar a b s.data)

/-- `getLocalizationKey` (ui-builder.service.ts): the trimmed node name when
it is non-empty and has an entry in the table. -/
def getLocalizationKey (f : UIFields) (strings : StrTable) : Option String :=
  let candidate := jsTrim f.name
  if candidate ≠ "" ∧ StrTable.hasKey strings candidate then some candidate else none

/-- `formatTextLabel` (ui-builder.service.ts): a resolved key renders as
`mod.stringkeys.<key.replace(' ', '_')>` (JS `replace` with a string
pattern replaces only the first occurrence); otherwise the literal label is
emitted as a JSON string. -/
def formatTextLabel (f : UIFields) (strings : StrTable) : String :=
  match getLocalizationKey f strings with
  | some key => "mod.stringkeys." ++ replaceFirst key ' ' '_'
  | none => formatString f.textLabel

mutual

/-- `serializeElement` (ui-builder.service.ts): strip `id`, `locked` (and
the pass-through `advancedMetadata`) recursively. -/
def serializeElement : UIElement → UIParams
  | .node _ _ f cs => .node f (serializeElementList cs)

/-- `children.map(child => this.serializeElement(child))`. -/
def serializeElementList : List UIElement → List UIParams
  | [] => []
  | e :: rest => serializeElement e :: serializeElementList rest

end

/-- `'  '.repeat(n)`. -/
def indentStr (n : ℕ) : String := String.mk (List.replicate (2 * n) ' ')

/-- Append a comma to the last line of a block. -/
def addComma : List String → List String
  | [] => []
  | [l] => [l ++ ","]
  | l :: rest => l :: addComma rest

/-- Join property blocks, appending `','` to the last line of every
non-final block (`serializeParamToTypescript`'s assembly loop — the same
shape serves the children list). -/
def joinCommaBlocks : List (List String) → List String
  | [] => []
  | [b] => b
  | b :: rest => addComma b ++ joinCommaBlocks rest

mutual

/-- `serializeParamToTypescript` (ui-builder.service.ts lines 1917–1994),
producing the emitted lines (the source builds one string joined with
`'\n'` and re-splits child strings on `'\n'`; no emitted line contains a
raw newline — string values are JSON-escaped — so the line list is the
faithful unit).  Every always-present property is its own single-line block
(`pushLine`), the type-gated properties follow, and a non-empty children
list contributes one multi-line block. -/
def serializeParamLines (p : UIParams) (indentLevel : ℕ) (strings : StrTable) :
    List String :=
  match p with
  | .node f children =>
    let indent := indentStr indentLevel
    let propIndent := indentStr (indentLevel + 1)
    let basicBlocks : List (List String) :=
      [[propIndent ++ "name: " ++ formatString f.name],
       [propIndent ++ "type: " ++ formatString f.type.str],
       [propIndent ++ "position: " ++ formatNumberArray f.position],
       [propIndent ++ "size: " ++ formatNumberArray f.size],
       [propIndent ++ "anchor: " ++ formatEnumValue "UIAnchor" uiAnchorName f.anchor],
       [propIndent ++ "visible: " ++ formatBoolean f.visible],
       [propIndent ++ "padding: " ++ formatNumber f.padding],
       [propIndent ++ "bgColor: " ++ formatNumberArray f.bgColor],
       [propIndent ++ "bgAlpha: " ++ formatNumber f.bgAlpha],
       [propIndent ++ "bgFill: " ++ formatEnumValue "UIBgFill" uiBgFillName f.bgFill]]
    let textBlocks : List (List String) :=
      if f.type = ElemType.Text then
        [[propIndent ++ "textLabel: " ++ formatTextLabel f strings],
         [propIndent ++ "textColor: " ++ formatNumberArray f.textColor],
         [propIndent ++ "textAlpha: " ++ formatNumber f.textAlpha],
         [propIndent ++ "textSize: " ++ formatNumber f.textSize],
         [propIndent ++ "textAnchor: " ++ formatEnumValue "UIAnchor" uiAnchorName f.textAnchor]]
      else []
    let imageBlocks : List (List String) :=
      if f.type = ElemType.Image then
        [[propIndent ++ "imageType: " ++ formatEnumValue "UIImageType" uiImageTypeName f.imageType],
         [propIndent ++ "imageColor: " ++ formatNumberArray f.imageColor],
         [propIndent ++ "imageAlpha: " ++ formatNumber f.imageAlpha]]
      else []
    let buttonBlocks : List (List String) :=
      if f.type = ElemType.Button then
        [[propIndent ++ "buttonEnabled: true"],
         [propIndent ++ "buttonColorBase: " ++ formatNumberArray f.buttonColorBase],
         [propIndent ++ "buttonAlphaBase: " ++ formatNumber f.buttonAlphaBase],
         [propIndent ++ "buttonColorDisabled: " ++ formatNumberArray f.buttonColorDisabled],
         [propIndent ++ "buttonAlphaDisabled: " ++ formatNumber f.buttonAlphaDisabled],
         [propIndent ++ "buttonColorPressed: " ++ formatNumberArray f.buttonColorPressed],
         [propIndent ++ "buttonAlphaPressed: " ++ formatNumber f.buttonAlphaPressed],
         [propIndent ++ "buttonColorHover: " ++ formatNumberArray f.buttonColorHover],
         [propIndent ++ "buttonAlphaHover: " ++ formatNumber f.buttonAlphaHover],
         [propIndent ++ "buttonColorFocused: " ++ formatNumberArray f.buttonColorFocused],
         [propIndent ++ "buttonAlphaFocused: " ++ formatNumber f.buttonAlphaFocused]]
      else []
    let childBlocks : List (List String) :=
      if children.length ≠ 0 then
        [[propIndent ++ "children: ["]
          ++ joinCommaBlocks (serializeChildLines children (indentLevel + 2) strings)
          ++ [propIndent ++ "]"]]
      else []
    let propertyBlocks := basicBlocks ++ textBlocks ++ imageBlocks ++ buttonBlocks ++ childBlocks
    (indent ++ "\x7b") :: joinCommaBlocks propertyBlocks ++ [indent ++ "\x7d"]

/-- The per-child recursion of the `children` block. -/
def serializeChildLines : List UIParams → ℕ → StrTable → List (List String)
  | [], _, _ => []
  | c :: rest, lvl, strings =>
    serializeParamLines c lvl strings :: serializeChildLines rest lvl strings

end

/-- `serializeParamToTypescript`: the joined string. -/
def serializeParamToTypescript (p : UIParams) (indentLevel : ℕ) (strings : StrTable) : String :=
  String.intercalate "\n" (serializeParamLines p indentLevel strings)


/-- **C4.** For every Button node, the serialized record contains the line
`buttonEnabled: true` (with its separating comma), regardless of the stored
`buttonEnabled` value. -/
theorem button_serializes_enabled_true (f : UIFields) (children : List UIParams)
    (indentLevel : ℕ) (strings : StrTable) (h : f.type = ElemType.Button) :
    (indentStr (indentLevel + 1) ++ "buttonEnabled: true,")
      ∈ serializeParamLines (UIParams.node f children) indentLevel strings := by
  by_cases hc : children.length = 0
  · simp [serializeParamLines, joinCommaBlocks, addComma, h, hc, String.append_assoc]
  · simp [serializeParamLines, joinCommaBlocks, addComma, h, hc, String.append_assoc]

/-- Witness for C4: a Button whose stored `buttonEnabled` is `false` still
serializes the line `buttonEnabled: true,`. -/
theorem button_serializes_enabled_true_witness :
    ({ DEFAULT_UI_PARAMS with buttonEnabled := false, type := ElemType.Button } : UIFields).type = ElemType.Button ∧
    (indentStr 1 ++ "buttonEnabled: true,")
      ∈ serializeParamLines
          (UIParams.node { DEFAULT_UI_PARAMS with buttonEnabled := false, type := ElemType.Button } []) 0 [] :=
  ⟨rfl, button_serializes_enabled_true _ [] 0 [] rfl⟩

/-- Counterexample to C5 as stated: a Text node named `"a b"` with label
`"hi"`.  The string table built by `collectTextStrings` is keyed by the raw
name `"a b"`; the claim's "resolved localization key" `"a_b"` (interior
spaces replaced by underscores) has no entry there, so the claim predicts
the literal label `"hi"` — but the serializer emits the symbolic reference
`mod.stringkeys.a_b`.  Moreover for a name with two spaces only the first
space is replaced (`mod.stringkeys.a_b c`), not all of them. -/
theorem text_label_counterexample :
    StrTable.hasKey
        (collectTextStrings
          [UIElement.node "element_1" false
            { DEFAULT_UI_PARAMS with name := "a b", textLabel := "hi", type := ElemType.Text }
            []])
        "a_b" = false ∧
    formatTextLabel
        { DEFAULT_UI_PARAMS with name := "a b", textLabel := "hi", type := ElemType.Text }
        (collectTextStrings
          [UIElement.node "element_1" false
            { DEFAULT_UI_PARAMS with name := "a b", textLabel := "hi", type := ElemType.Text }
            []]) = "mod.stringkeys.a_b" ∧
    ("mod.stringkeys.a_b" : String) ≠ formatString "hi" ∧
    formatTextLabel
        { DEFAULT_UI_PARAMS with name := "a b c", textLabel := "hey", type := ElemType.Text }
        [("a b c", "hey")] = "mod.stringkeys.a_b c" := by
  refine ⟨?_, ?_, ?_, ?_⟩ <;>
    simp [collectTextStrings, collectTextStringsAux, StrTable.hasKey, jsTrim, jsTrimChars,
      jsWhitespaceB, formatTextLabel, getLocalizationKey, replaceFirst, replaceFirstChar,
      formatString, jsonQuoteChars, jsonEscapeChar, DEFAULT_UI_PARAMS, String.length]

/-- **C5 (amended).** The serializer's lookup key is the node's *trimmed
name itself* (interior spaces intact): when it is non-empty and has an entry
in the string table the label renders as `mod.stringkeys.<key>` with only
the *first* space of the key replaced by an underscore; otherwise the
literal label text is emitted as a JSON string literal. -/
theorem text_label_lookup_and_rendering (f : UIFields) (strings : StrTable) :
    (jsTrim f.name ≠ "" ∧ StrTable.hasKey strings (jsTrim f.name) = true →
      formatTextLabel f strings =
        "mod.stringkeys." ++ replaceFirst (jsTrim f.name) ' ' '_') ∧
    (jsTrim f.name = "" ∨ StrTable.hasKey strings (jsTrim f.name) = false →
      formatTextLabel f strings = formatString f.textLabel) := by
  constructor
  · intro ⟨h1, h2⟩
    simp [formatTextLabel, getLocalizationKey, h1, h2]
  · intro h
    rcases h with h | h
    · simp [formatTextLabel, getLocalizationKey, h]
    · simp [formatTextLabel, getLocalizationKey, h]

/-- Witness for the amended C5: name `"Score Label"` with a table entry
renders as `mod.stringkeys.Score_Label`; name `"Missing"` with no entry
renders the literal label. -/
theorem text_label_lookup_and_rendering_witness :
    (jsTrim ("Score Label" : String) ≠ "" ∧
        StrTable.hasKey [("Score Label", "0 pts")] (jsTrim ("Score Label" : String)) = true) ∧
    formatTextLabel
        { DEFAULT_UI_PARAMS with name := "Score Label", textLabel := "0 pts", type := ElemType.Text }
        [("Score Label", "0 pts")] =
      "mod.stringkeys." ++ replaceFirst (jsTrim ("Score Label" : String)) ' ' '_' ∧
    formatTextLabel
        { DEFAULT_UI_PARAMS with name := "Missing", textLabel := "0 pts", type := ElemType.Text }
        [] = formatString "0 pts" :=
  ⟨⟨by simp [jsTrim, jsTrimChars, jsWhitespaceB],
    by simp [jsTrim, jsTrimChars, jsWhitespaceB, StrTable.hasKey]⟩,
   (text_label_lookup_and_rendering
      { DEFAULT_UI_PARAMS with name := "Score Label", textLabel := "0 pts", type := ElemType.Text } [("Score Label", "0 pts")]).1
     ⟨by simp [jsTrim, jsTrimChars, jsWhitespaceB],
      by simp [jsTrim, jsTrimChars, jsWhitespaceB, StrTable.hasKey]⟩,
   (text_label_lookup_and_rendering
      { DEFAULT_UI_PARAMS with name := "Missing", textLabel := "0 pts", type := ElemType.Text } []).2
     (Or.inr (by simp [StrTable.hasKey]))⟩

/-! ## The import tokenizer (`tokenizeParseUiPayload`) -/

/-- `ParseUiToken` without the `position`/`raw` bookkeeping fields: token
positions feed only error-message text, which this embedding abbreviates. -/
inductive ParseUiToken where
  | braceOpen
  | braceClose
  | bracketOpen
  | bracketClose
  | colon
  | comma
  | str (value : String)
  | num (value : ℚ)
  | ident (value : String)
deriving Repr, DecidableEq

/-- The tokenizer's digit test. -/
def isDigitB (c : Char) : Bool := '0' ≤ c && c ≤ '9'

/-- The tokenizer's identifier-start class `[A-Za-z_]`. -/
def isIdentStartB (c : Char) : Bool :=
  ('A' ≤ c && c ≤ 'Z') || ('a' ≤ c && c ≤ 'z') || c == '_'

/-- The tokenizer's identifier-part class `[A-Za-z0-9_.]` (dots included, so
dotted qualified names are one token). -/
def isIdentPartB (c : Char) : Bool :=
  ('A' ≤ c && c ≤ 'Z') || ('a' ≤ c && c ≤ 'z') || isDigitB c || c == '_' || c == '.'

/-- The `switch` over escaped characters in `readString` (unknown escapes
pass the character through). -/
def unescapeChar (c : Char) : Char :=
  if c = 'n' then '\n'
  else if c = 'r' then '\r'
  else if c = 't' then '\t'
  else if c = '\x5c' then '\x5c'
  else if c = '\x22' then '\x22'
  else if c = '\x27' then '\x27'
  else c

/-- `readString`'s scan loop: unescape until the un-escaped closing quote;
running off the end is a lexical failure. -/
def readStringAux (quote : Char) (escaped : Bool) (acc : List Char) :
    List Char → Except String (List Char × List Char)
  | [] => .error "Unterminated string literal."
  | c :: cs =>
    if escaped then readStringAux quote false (acc ++ [unescapeChar c]) cs
    else if c = '\x5c' then readStringAux quote true acc cs
    else if c = quote then .ok (acc, cs)
    else readStringAux quote false (acc ++ [c]) cs

theorem readStringAux_rest_length (quote : Char) :
    ∀ (xs : List Char) (escaped : Bool) (acc val rest : List Char),
    readStringAux quote escaped acc xs = .ok (val, rest) → rest.length < xs.length := by
  intro xs
  induction xs with
  | nil => intro escaped acc val rest h; simp [readStringAux] at h
  | cons c cs ih =>
    intro escaped acc val rest h
    rw [readStringAux] at h
    split_ifs at h with h1 h2 h3
    · exact Nat.lt_trans (ih _ _ _ _ h) (by simp)
    · exact Nat.lt_trans (ih _ _ _ _ h) (by simp)
    · simp only [Except.ok.injEq, Prod.mk.injEq] at h
      simp [← h.2]
    · exact Nat.lt_trans (ih _ _ _ _ h) (by simp)

/-- Digit-list value, most significant first. -/
def digitsVal (ds : List Char) : ℕ :=
  ds.foldl (fun acc c => acc * 10 + (c.toNat - 48)) 0

/-- The rational a scanned number literal denotes (`Number(rawValue)` on the
exact `[-]digits[.digits]` syntax `readNumber` accepts). -/
def numValue (neg : Bool) (intDs fracDs : List Char) : ℚ :=
  (if neg then -1 else 1) *
    ((digitsVal intDs : ℚ) + (digitsVal fracDs : ℚ) / ((10 : ℚ) ^ fracDs.length))

theorem dropWhileLengthLe (p : Char → Bool) (xs : List Char) :
    (xs.dropWhile p).length ≤ xs.length := by
  induction xs with
  | nil => simp
  | cons c cs ih =>
    rw [List.dropWhile_cons]
    split
    · simp; omega
    · simp

/-- The digit scan of `readNumber` after the optional minus sign: integer
digits, optional `.` plus fraction digits; at least one digit somewhere. -/
def readNumberAfterSign (neg : Bool) (rest1 : List Char) : Except String (ℚ × List Char) :=
  match rest1.dropWhile isDigitB with
  | '.' :: t =>
    if (rest1.takeWhile isDigitB).length = 0 ∧ (t.takeWhile isDigitB).length = 0 then
      .error "Invalid number literal."
    else
      .ok (numValue neg (rest1.takeWhile isDigitB) (t.takeWhile isDigitB), t.dropWhile isDigitB)
  | _ =>
    if (rest1.takeWhile isDigitB).length = 0 then .error "Invalid number literal."
    else .ok (numValue neg (rest1.takeWhile isDigitB) [], rest1.dropWhile isDigitB)

/-- `readNumber` (ui-builder.service.ts): optional leading minus, then the
digit scan. -/
def readNumber (xs : List Char) : Except String (ℚ × List Char) :=
  match xs with
  | '-' :: t => readNumberAfterSign true t
  | _ => readNumberAfterSign false xs

theorem takeWhileAddDropWhile (p : Char → Bool) (xs : List Char) :
    (xs.takeWhile p).length + (xs.dropWhile p).length = xs.length := by
  rw [← List.length_append, List.takeWhile_append_dropWhile]

theorem readNumberAfterSign_rest_length (neg : Bool) (rest1 : List Char) (q : ℚ)
    (rest : List Char) (h : readNumberAfterSign neg rest1 = .ok (q, rest)) :
    rest.length < rest1.length := by
  have htw := takeWhileAddDropWhile isDigitB rest1
  unfold readNumberAfterSign at h
  split at h
  · next t heq =>
    split_ifs at h with hd
    simp only [Except.ok.injEq, Prod.mk.injEq] at h
    obtain ⟨-, h2⟩ := h
    subst h2
    have h5 := takeWhileAddDropWhile isDigitB t
    have h4 : t.length + 1 = (rest1.dropWhile isDigitB).length := by rw [heq]; simp
    omega
  · split_ifs at h with hd
    simp only [Except.ok.injEq, Prod.mk.injEq] at h
    obtain ⟨-, h2⟩ := h
    subst h2
    omega

theorem readNumber_rest_length (xs : List Char) (q : ℚ) (rest : List Char)
    (h : readNumber xs = .ok (q, rest)) : rest.length < xs.length := by
  unfold readNumber at h
  split at h
  · next t => exact Nat.lt_trans (readNumberAfterSign_rest_length _ _ _ _ h) (by simp)
  · exact readNumberAfterSign_rest_length _ _ _ _ h

/-- The single-pass scanner `tokenizeParseUiPayload` (ui-builder.service.ts
lines 2261–2438) over one isolated argument text.  Note the scanner itself
skips no comments: the extractor has already removed them. -/
def tokenize (xs : List Char) : Except String (List ParseUiToken) :=
  match xs with
  | [] => .ok []
  | c :: cs =>
    if jsWhitespaceB c then tokenize cs
    else if c = '\x7b' then (tokenize cs).map (ParseUiToken.braceOpen :: ·)
    else if c = '\x7d' then (tokenize cs).map (ParseUiToken.braceClose :: ·)
    else if c = '[' then (tokenize cs).map (ParseUiToken.bracketOpen :: ·)
    else if c = ']' then (tokenize cs).map (ParseUiToken.bracketClose :: ·)
    else if c = ':' then (tokenize cs).map (ParseUiToken.colon :: ·)
    else if c = ',' then (tokenize cs).map (ParseUiToken.comma :: ·)
    else if c = '\x22' ∨ c = '\x27' then
      match hs : readStringAux c false [] cs with
      | .error e => .error e
      | .ok (val, rest) => (tokenize rest).map (ParseUiToken.str (String.mk val) :: ·)
    else if c = '-' ∨ isDigitB c then
      match hn : readNumber (c :: cs) with
      | .error e => .error e
      | .ok (q, rest) => (tokenize rest).map (ParseUiToken.num q :: ·)
    else if isIdentStartB c then
      (tokenize ((c :: cs).dropWhile isIdentPartB)).map
        (ParseUiToken.ident (String.mk ((c :: cs).takeWhile isIdentPartB)) :: ·)
    else .error "Unexpected character while parsing modlib.ParseUI payload."
termination_by xs.length
decreasing_by
  · simp
  · simp
  · simp
  · simp
  · simp
  · simp
  · simp
  · exact Nat.lt_trans (readStringAux_rest_length c cs false [] val rest hs) (by simp)
  · exact readNumber_rest_length (c :: cs) q rest hn
  · have hstart : isIdentStartB c = true := by assumption
    have hpart : isIdentPartB c = true := by
      simp only [isIdentPartB]
      simp only [isIdentStartB] at hstart
      simp_all [Bool.or_eq_true]
    rw [List.dropWhile_cons]
    simp only [hpart, if_true]
    exact Nat.lt_succ_of_le (by simpa using dropWhileLengthLe isIdentPartB cs)


/-! ## Payload extraction (`extractParseUiPayloads`) -/

/-- The fixed two-part call marker. -/
def parseUiMarker : List Char := "modlib.ParseUI".data

/-- `source.indexOf(marker)`: drop up to and past the first occurrence of
the marker, or `none`. -/
def dropThroughMarker : List Char → Option (List Char)
  | [] => none
  | x :: xs =>
    if parseUiMarker.isPrefixOf (x :: xs) then some ((x :: xs).drop parseUiMarker.length)
    else dropThroughMarker xs

/-- `source.indexOf('(', ...)`: drop up to and past the next opening
parenthesis, or `none`. -/
def dropThroughOpenParen : List Char → Option (List Char)
  | [] => none
  | c :: cs => if c = '(' then some cs else dropThroughOpenParen cs

/-- Skip a `//` comment body: stop before the newline (the newline itself is
re-examined by the balance scanner). -/
def skipLineComment (xs : List Char) : List Char :=
  xs.dropWhile (fun c => ¬(c = '\n' ∨ c = '\r'))

/-- Skip a `/* */` comment body past the closing `*/`; an unterminated
comment swallows the rest of the input (the scanner then reports unmatched
parentheses, as the source does). -/
def skipBlockComment : List Char → List Char
  | [] => []
  | c :: cs => if c = '*' ∧ cs.head? = some '/' then cs.drop 1 else skipBlockComment cs

theorem skipLineComment_length (xs : List Char) :
    (skipLineComment xs).length ≤ xs.length := dropWhileLengthLe _ xs

theorem skipBlockComment_length (xs : List Char) :
    (skipBlockComment xs).length ≤ xs.length := by
  induction xs with
  | nil => simp [skipBlockComment]
  | cons c cs ih =>
    rw [skipBlockComment]
    split_ifs
    · calc (cs.drop 1).length ≤ cs.length := by simp
        _ ≤ (c :: cs).length := by simp
    · calc (skipBlockComment cs).length ≤ cs.length := ih
        _ ≤ (c :: cs).length := by simp

/-- The parenthesis-balancing scan of `extractNextParseUiPayload`
(ui-builder.service.ts lines 2159–2259): track string-literal state and
comment spans so that parentheses inside them do not affect depth; return
the trimmed payload and the text after the closing parenthesis. -/
def extractBalanced (depth : ℕ) (inString : Bool) (stringQuote : Char) (escaped : Bool)
    (payload : List Char) : List Char → Except String (List Char × List Char)
  | [] => .error "The modlib.ParseUI call appears to have unmatched parentheses."
  | c :: cs =>
    if inString = false ∧ c = '/' ∧ cs.head? = some '/' then
      extractBalanced depth inString stringQuote false payload (skipLineComment (cs.drop 1))
    else if inString = false ∧ c = '/' ∧ cs.head? = some '*' then
      extractBalanced depth inString stringQuote false payload (skipBlockComment (cs.drop 1))
    else if inString = false ∧ (c = '\x22' ∨ c = '\x27') then
      extractBalanced depth true c false (payload ++ [c]) cs
    else if inString then
      (if escaped then extractBalanced depth true stringQuote false (payload ++ [c]) cs
       else if c = '\x5c' then extractBalanced depth true stringQuote true (payload ++ [c]) cs
       else if c = stringQuote then extractBalanced depth false stringQuote false (payload ++ [c]) cs
       else extractBalanced depth true stringQuote false (payload ++ [c]) cs)
    else if c = '(' then extractBalanced (depth + 1) inString stringQuote false (payload ++ [c]) cs
    else if c = ')' then
      (if depth = 1 then .ok (jsTrimChars payload, cs)
       else extractBalanced (depth - 1) inString stringQuote false (payload ++ [c]) cs)
    else extractBalanced depth inString stringQuote false (payload ++ [c]) cs
termination_by xs => xs.length
decreasing_by
  · exact Nat.lt_succ_of_le (le_trans (skipLineComment_length _) (by simp))
  · exact Nat.lt_succ_of_le (le_trans (skipBlockComment_length _) (by simp))
  all_goals simp


theorem dropThroughMarker_length (xs rest : List Char)
    (h : dropThroughMarker xs = some rest) : rest.length < xs.length := by
  induction xs with
  | nil => simp [dropThroughMarker] at h
  | cons c cs ih =>
    rw [dropThroughMarker] at h
    split_ifs at h with hp
    · simp only [Option.some.injEq] at h
      subst h
      simp [parseUiMarker]
      omega
    · exact Nat.lt_trans (ih h) (by simp)

theorem dropThroughOpenParen_length (xs rest : List Char)
    (h : dropThroughOpenParen xs = some rest) : rest.length < xs.length := by
  induction xs with
  | nil => simp [dropThroughOpenParen] at h
  | cons c cs ih =>
    rw [dropThroughOpenParen] at h
    split_ifs at h with hp
    · simp only [Option.some.injEq] at h
      subst h
      simp
    · exact Nat.lt_trans (ih h) (by simp)

theorem extractBalanced_rest_length :
    ∀ (n : ℕ) (xs : List Char), xs.length ≤ n →
    ∀ (depth : ℕ) (inString : Bool) (stringQuote : Char) (escaped : Bool)
      (payload out rest : List Char),
    extractBalanced depth inString stringQuote escaped payload xs = .ok (out, rest) →
    rest.length < xs.length := by
  intro n
  induction n with
  | zero =>
    intro xs hlen depth inString sq esc payload out rest h
    have : xs = [] := List.length_eq_zero.mp (Nat.le_zero.mp hlen)
    subst this
    simp [extractBalanced] at h
  | succ n ih =>
    intro xs hlen depth inString sq esc payload out rest h
    cases xs with
    | nil => simp [extractBalanced] at h
    | cons c cs =>
      have hcs : cs.length ≤ n := by simp at hlen; omega
      have hdrop : (List.drop 1 cs).length ≤ cs.length := by
        simp only [List.length_drop]; omega
      have hline : (skipLineComment (cs.drop 1)).length ≤ cs.length :=
        le_trans (skipLineComment_length _) hdrop
      have hblock : (skipBlockComment (cs.drop 1)).length ≤ cs.length :=
        le_trans (skipBlockComment_length _) hdrop
      rw [extractBalanced] at h
      split_ifs at h
      all_goals first
        | (simp only [Except.ok.injEq, Prod.mk.injEq] at h
           obtain ⟨-, h2⟩ := h
           subst h2
           simp)
        | (exact lt_of_lt_of_le (ih _ (le_trans hline hcs) _ _ _ _ _ _ _ h)
            (le_trans hline (by simp)))
        | (exact lt_of_lt_of_le (ih _ (le_trans hblock hcs) _ _ _ _ _ _ _ h)
            (le_trans hblock (by simp)))
        | exact Nat.lt_trans (ih _ hcs _ _ _ _ _ _ _ h) (by simp)


/-- `extractNextParseUiPayload` (ui-builder.service.ts): `none` when no
further marker occurs; the next isolated payload and the remaining text
otherwise. -/
def extractNextParseUiPayload (xs : List Char) :
    Except String (Option (List Char × List Char)) :=
  match dropThroughMarker xs with
  | none => .ok none
  | some afterMarker =>
    match dropThroughOpenParen afterMarker with
    | none => .error "The modlib.ParseUI call is missing its opening parenthesis."
    | some afterParen =>
      match extractBalanced 1 false ' ' false [] afterParen with
      | .error e => .error e
      | .ok (payload, rest) => .ok (some (payload, rest))

theorem extractNextParseUiPayload_rest_length (xs payload rest : List Char)
    (h : extractNextParseUiPayload xs = .ok (some (payload, rest))) :
    rest.length < xs.length := by
  unfold extractNextParseUiPayload at h
  split at h
  · simp at h
  · next afterMarker hm =>
    split at h
    · simp at h
    · next afterParen hp =>
      split at h
      · simp at h
      · next out rest' hb =>
        simp only [Except.ok.injEq, Option.some.injEq, Prod.mk.injEq] at h
        obtain ⟨-, h2⟩ := h
        subst h2
        exact lt_trans
          (lt_trans (extractBalanced_rest_length afterParen.length _ le_rfl _ _ _ _ _ _ _ hb)
            (dropThroughOpenParen_length _ _ hp))
          (dropThroughMarker_length _ _ hm)

/-- The `while` loop of `extractParseUiPayloads`: collect payloads until no
marker remains. -/
def extractAllPayloads (xs : List Char) : Except String (List (List Char)) :=
  match h : extractNextParseUiPayload xs with
  | .error e => .error e
  | .ok none => .ok []
  | .ok (some (payload, rest)) => (extractAllPayloads rest).map (payload :: ·)
termination_by xs.length
decreasing_by
  exact extractNextParseUiPayload_rest_length _ _ _ h

/-- `extractParseUiPayloads` (ui-builder.service.ts): zero occurrences of
the call marker is a hard failure. -/
def extractParseUiPayloads (xs : List Char) : Except String (List (List Char)) :=
  match extractAllPayloads xs with
  | .error e => .error e
  | .ok [] => .error "Could not find a modlib.ParseUI call in the provided code."
  | .ok ps => .ok ps

/-- `tokenizeParseUiPayload` is the scanner `tokenize` above, under the
source's name. -/
def tokenizeParseUiPayload (payload : List Char) : Except String (List ParseUiToken) :=
  tokenize payload


/-! ## Recursive-descent parsing (`parseTokensToParams`) and identifier
resolution -/

/-- The JavaScript values the parser produces (`unknown` in the source):
strings, numbers, booleans, `null`, `undefined`, arrays, and plain objects
(assoc lists in insertion order with unique keys). -/
inductive JValue where
  | str (s : String)
  | num (q : ℚ)
  | bool (b : Bool)
  | null
  | undef
  | arr (items : List JValue)
  | obj (fields : List (String × JValue))

/-- `result[key] = value` on a JS object: overwrite in place or append. -/
def setKey (fields : List (String × JValue)) (key : String) (v : JValue) :
    List (String × JValue) :=
  match fields with
  | [] => [(key, v)]
  | (k, w) :: rest => if k = key then (k, v) :: rest else (k, w) :: setKey rest key v

/-- `node['k']` on a parsed object (keys are unique by construction). -/
def jsGet (fields : List (String × JValue)) (key : String) : Option JValue :=
  (fields.find? (fun e => e.1 == key)).map (·.2)

/-- `s.startsWith(p)`. -/
def strStartsWith (s p : String) : Bool := p.data.isPrefixOf s.data

/-- `s.substring(n)` for ASCII content. -/
def strDrop (s : String) (n : ℕ) : String := String.mk (s.data.drop n)

/-- `UIAnchor[key]`: member name → ordinal. -/
def uiAnchorOfName : String → Option ℕ
  | "BottomCenter" => some 0
  | "BottomLeft" => some 1
  | "BottomRight" => some 2
  | "Center" => some 3
  | "CenterLeft" => some 4
  | "CenterRight" => some 5
  | "TopCenter" => some 6
  | "TopLeft" => some 7
  | "TopRight" => some 8
  | _ => none

/-- `UIBgFill[key]`: member name → ordinal. -/
def uiBgFillOfName : String → Option ℕ
  | "Blur" => some 0
  | "GradientBottom" => some 1
  | "GradientLeft" => some 2
  | "GradientRight" => some 3
  | "GradientTop" => some 4
  | "None" => some 5
  | "OutlineThick" => some 6
  | "OutlineThin" => some 7
  | "Solid" => some 8
  | _ => none

/-- `UIImageType[key]`: member name → ordinal. -/
def uiImageTypeOfName : String → Option ℕ
  | "CrownOutline" => some 0
  | "CrownSolid" => some 1
  | "None" => some 2
  | "QuestionMark" => some 3
  | "RifleAmmo" => some 4
  | "SelfHeal" => some 5
  | "SpawnBeacon" => some 6
  | "TEMP_PortalIcon" => some 7
  | _ => none

/-- `lookupEnumValue` (ui-builder.service.ts): empty member name and unknown
member name are semantic failures. -/
def lookupEnumValue (enumName : String) (fwd : String → Option ℕ) (key : String) :
    Except String ℕ :=
  if key = "" then .error ("Missing " ++ enumName ++ " member name in ParseUI import.")
  else
    match fwd key with
    | some v => .ok v
    | none => .error ("Unknown " ++ enumName ++ " member in ParseUI import.")

/-- `resolveIdentifierToken` (ui-builder.service.ts lines 2567–2607). -/
def resolveIdentifierToken (identifier : String) : Except String JValue :=
  if identifier = "true" then .ok (.bool true)
  else if identifier = "false" then .ok (.bool false)
  else if identifier = "null" then .ok .null
  else if strStartsWith identifier "mod.UIAnchor." then
    (lookupEnumValue "UIAnchor" uiAnchorOfName
      (strDrop identifier "mod.UIAnchor.".length)).map (fun n => .num n)
  else if strStartsWith identifier "mod.UIBgFill." then
    (lookupEnumValue "UIBgFill" uiBgFillOfName
      (strDrop identifier "mod.UIBgFill.".length)).map (fun n => .num n)
  else if strStartsWith identifier "mod.UIImageType." then
    (lookupEnumValue "UIImageType" uiImageTypeOfName
      (strDrop identifier "mod.UIImageType.".length)).map (fun n => .num n)
  else if strStartsWith identifier "mod.stringkeys." then .ok (.str identifier)
  else if identifier = "undefined" then .ok .undef
  else if strStartsWith identifier "mod." then
    .error "Unsupported identifier encountered during ParseUI import."
  else .ok (.str identifier)

mutual

/-- `parseValue` (ui-builder.service.ts): dispatch on the next token.  The
fuel argument makes the mutual recursion obviously terminating; every
nesting level consumes at least one token, so `tokens.length + 1` fuel
always suffices (`parseTokensToParams` below supplies it). -/
def parseValueF : ℕ → List ParseUiToken → Except String (JValue × List ParseUiToken)
  | 0, _ => .error "ParseUI parser fuel exhausted."
  | fuel + 1, tokens =>
    match tokens with
    | [] => .error "Unexpected end of ParseUI payload."
    | .braceOpen :: rest => parseObjectFieldsF fuel [] false rest
    | .bracketOpen :: rest => parseArrayItemsF fuel [] false rest
    | .str s :: rest => .ok (.str s, rest)
    | .num q :: rest => .ok (.num q, rest)
    | .ident s :: rest =>
      match resolveIdentifierToken s with
      | .error e => .error e
      | .ok v => .ok (v, rest)
    | _ :: _ => .error "Unsupported token type encountered."

/-- `parseObject`'s property loop (the `braceOpen` has been consumed):
`identifier : value` pairs, comma-separated, no trailing comma, empty
object allowed. -/
def parseObjectFieldsF (fuel : ℕ) (acc : List (String × JValue)) (expectComma : Bool) :
    List ParseUiToken → Except String (JValue × List ParseUiToken)
  | [] => .error "Unterminated object literal in ParseUI payload."
  | .braceClose :: rest => .ok (.obj acc, rest)
  | t :: rest =>
    match fuel with
    | 0 => .error "ParseUI parser fuel exhausted."
    | fuel + 1 =>
      if expectComma then
        match t with
        | .comma => parseObjectPairF fuel acc rest
        | _ => .error "Missing comma between object properties in ParseUI payload."
      else parseObjectPairF fuel acc (t :: rest)

/-- One `identifier : value` pair followed by the rest of the loop. -/
def parseObjectPairF (fuel : ℕ) (acc : List (String × JValue)) :
    List ParseUiToken → Except String (JValue × List ParseUiToken)
  | .ident key :: .colon :: rest =>
    (match fuel with
     | 0 => .error "ParseUI parser fuel exhausted."
     | fuel + 1 =>
       match parseValueF (fuel + 1) rest with
       | .error e => .error e
       | .ok (v, rest2) => parseObjectFieldsF fuel (setKey acc key v) true rest2)
  | .ident _ :: _ => .error "Unexpected token while parsing ParseUI payload. Expected colon."
  | _ => .error "Unexpected token while parsing ParseUI payload. Expected identifier."

/-- `parseArray`'s item loop (the `bracketOpen` has been consumed). -/
def parseArrayItemsF (fuel : ℕ) (acc : List JValue) (expectComma : Bool) :
    List ParseUiToken → Except String (JValue × List ParseUiToken)
  | [] => .error "Unterminated array literal in ParseUI payload."
  | .bracketClose :: rest => .ok (.arr acc, rest)
  | t :: rest =>
    match fuel with
    | 0 => .error "ParseUI parser fuel exhausted."
    | fuel + 1 =>
      if expectComma then
        match t with
        | .comma => parseArrayItemF fuel acc rest
        | _ => .error "Missing comma between array items in ParseUI payload."
      else parseArrayItemF fuel acc (t :: rest)

/-- One array item followed by the rest of the loop. -/
def parseArrayItemF (fuel : ℕ) (acc : List JValue) :
    List ParseUiToken → Except String (JValue × List ParseUiToken)
  | tokens =>
    match fuel with
    | 0 => .error "ParseUI parser fuel exhausted."
    | fuel + 1 =>
      match parseValueF (fuel + 1) tokens with
      | .error e => .error e
      | .ok (v, rest) => parseArrayItemsF fuel (acc ++ [v]) true rest

end


/-- Is the value a plain (non-array) object?  This is exactly the class the
top-level check `!value || typeof value !== 'object' || Array.isArray(value)`
accepts: `null`, `undefined`, strings, numbers, booleans and arrays are all
rejected. -/
def JValue.isObj : JValue → Bool
  | .obj _ => true
  | _ => false

/-- The top-level `while` loop of `parseTokensToParams`: one or more
comma-separated object values; each iteration hands the whole remaining
stream to `parseValue` with the running budget. -/
def parseArgsF : ℕ → List ParseUiToken → Except String (List (List (String × JValue)))
  | 0, _ => .error "ParseUI parser fuel exhausted."
  | _ + 1, [] => .ok []
  | f + 1, t :: ts =>
    match parseValueF (f + 1) (t :: ts) with
    | .error e => .error e
    | .ok (v, rest) =>
      match v with
      | .obj fields =>
        (match rest with
         | [] => .ok [fields]
         | .comma :: rest2 => (parseArgsF f rest2).map (fields :: ·)
         | _ => .error "Expected a comma between modlib.ParseUI arguments.")
      | _ => .error "modlib.ParseUI arguments must be object literals."

/-- `parseTokensToParams` (ui-builder.service.ts lines 2440–2565), at the
always-sufficient budget `tokens.length + 1` (every nesting level and loop
iteration of the parser consumes at least one token). -/
def parseTokensToParams (tokens : List ParseUiToken) :
    Except String (List (List (String × JValue))) :=
  parseArgsF (tokens.length + 1) tokens

/-- **C9.** Whenever the top-level loop's `parseValue` call returns a
non-object value (an array literal, string, number, boolean, `null` or
`undefined`) for the call argument at the head of the remaining stream, the
whole parse is rejected with an error — the value is never coerced into a
node.  Quantifying over the remaining stream and budget covers every loop
iteration, i.e. every argument position; in particular (second conjunct) a
whole input whose first argument is a non-object makes
`parseTokensToParams` fail. -/
theorem nonobject_argument_rejected (f : ℕ) (tokens : List ParseUiToken) (v : JValue)
    (rest : List ParseUiToken) (h : parseValueF (f + 1) tokens = .ok (v, rest))
    (hv : v.isObj = false) :
    (∃ e, parseArgsF (f + 1) tokens = .error e) ∧
    (f = tokens.length → ∃ e, parseTokensToParams tokens = .error e) := by
  have key : ∃ e, parseArgsF (f + 1) tokens = .error e := by
    cases tokens with
    | nil => rw [parseValueF] at h; simp at h
    | cons t ts =>
      rw [parseArgsF, h]
      cases v <;> simp_all [JValue.isObj]
  refine ⟨key, fun hf => ?_⟩
  subst hf
  exact key

/-- Witness for C9: the stream of `[1, 2]` parses to an array value and
`parseTokensToParams` rejects it. -/
theorem nonobject_argument_rejected_witness :
    parseValueF 6 [ParseUiToken.bracketOpen, ParseUiToken.num 1, ParseUiToken.comma,
        ParseUiToken.num 2, ParseUiToken.bracketClose] =
      .ok (JValue.arr [JValue.num 1, JValue.num 2], []) ∧
    (JValue.arr [JValue.num 1, JValue.num 2]).isObj = false ∧
    (∃ e, parseTokensToParams [ParseUiToken.bracketOpen, ParseUiToken.num 1, ParseUiToken.comma,
        ParseUiToken.num 2, ParseUiToken.bracketClose] = .error e) :=
  ⟨by simp [parseValueF, parseArrayItemsF, parseArrayItemF],
   rfl,
   (nonobject_argument_rejected 5
      [ParseUiToken.bracketOpen, ParseUiToken.num 1, ParseUiToken.comma,
        ParseUiToken.num 2, ParseUiToken.bracketClose]
      (JValue.arr [JValue.num 1, JValue.num 2]) []
      (by simp [parseValueF, parseArrayItemsF, parseArrayItemF]) rfl).2 rfl⟩


/-! ## Normalization (`normalizeParsedParam`) -/

/-- `ensureString` (ui-builder.service.ts): non-empty strings pass through,
everything else becomes `"ImportedElement"`. -/
def ensureString (v : Option JValue) : String :=
  match v with
  | some (.str s) => if s.length > 0 then s else "ImportedElement"
  | _ => "ImportedElement"

/-- `ensureElementType` (ui-builder.service.ts). -/
def ensureElementType (v : Option JValue) : ElemType :=
  match v with
  | some (.str "Container") => .Container
  | some (.str "Text") => .Text
  | some (.str "Image") => .Image
  | some (.str "Button") => .Button
  | _ => .Container

/-- `ensureNumber` (ui-builder.service.ts) on parsed values; every `ℚ` is a
finite number and the defaults passed as fallbacks are finite, so the final
`0` fallback is unreachable here. -/
def ensureNumberJ (v : Option JValue) (fallback : ℚ) : ℚ :=
  match v with
  | some (.num q) => q
  | _ => fallback

/-- `ensureEnumNumber` (ui-builder.service.ts): a numeric value is kept when
the enum's reverse mapping knows it; a string value resolves through the
forward mapping; anything else falls back. -/
def ensureEnumNumberJ (v : Option JValue) (rev : ℕ → Option String)
    (fwd : String → Option ℕ) (fallback : ℕ) : ℕ :=
  match v with
  | some (.num q) =>
    if 0 ≤ q.num ∧ q.den = 1 ∧ (rev q.num.toNat).isSome then q.num.toNat else fallback
  | some (.str s) =>
    (match fwd s with
     | some n => n
     | none => fallback)
  | _ => fallback

/-- `cloneVectorWithFallback` (ui-builder.service.ts) on parsed values.
Non-numeric array entries — which no claim's input produces — are
represented as `0`. -/
def cloneVectorWithFallbackJ (v : Option JValue) (fallback : List ℚ) : List ℚ :=
  match v with
  | some (.arr items) =>
    if items.length ≠ 0 then
      items.map (fun item => match item with | .num q => q | _ => 0)
    else if fallback.length ≠ 0 then fallback else []
  | _ => if fallback.length ≠ 0 then fallback else []

/-- The field list of a parsed object; JS property access on any other
value yields `undefined` for every key, modelled as the empty field list. -/
def objFieldsOf : JValue → List (String × JValue)
  | .obj fs => fs
  | _ => []

theorem jsGet_sizeOf (raw : List (String × JValue)) (key : String) (w : JValue)
    (h : jsGet raw key = some w) : sizeOf w < sizeOf raw := by
  unfold jsGet at h
  cases hf : raw.find? (fun e => e.1 == key) with
  | none => rw [hf] at h; simp at h
  | some a =>
    rw [hf] at h
    simp only [Option.map_some', Option.some.injEq] at h
    subst h
    have hmem := List.mem_of_find?_eq_some hf
    have h1 : sizeOf a < sizeOf raw := List.sizeOf_lt_of_mem hmem
    obtain ⟨k, v⟩ := a
    simp at h1
    show sizeOf v < sizeOf raw
    omega

theorem objFieldsOf_sizeOf (v : JValue) : sizeOf (objFieldsOf v) ≤ sizeOf v := by
  cases v <;>
    first
      | (simp [objFieldsOf]; omega)
      | simp [objFieldsOf]
      | (unfold objFieldsOf; omega)

/-- `Array.isArray(node['children']) ? node['children'] : []`. -/
def normalizeChildrenInput : Option JValue → List JValue
  | some (.arr items) => items
  | _ => []

theorem normalizeChildrenInput_sizeOf (v : Option JValue) (c : JValue)
    (hc : c ∈ normalizeChildrenInput v) :
    ∀ (w : JValue), v = some w → sizeOf c < sizeOf w := by
  intro w hw
  subst hw
  cases hv : w with
  | arr items =>
    subst hv
    have := List.sizeOf_lt_of_mem (by simpa [normalizeChildrenInput] using hc)
    simp
    omega
  | _ => subst hv <;> simp [normalizeChildrenInput] at hc

/-- `normalizeParsedParam` (ui-builder.service.ts lines 2622–2665): convert
one raw parsed record into a fully-populated node against
`DEFAULT_UI_PARAMS`, recursing into `children`. -/
def normalizeParsedParam (raw : List (String × JValue)) : UIParams :=
  UIParams.node
    { name := ensureString (jsGet raw "name")
      type := ensureElementType (jsGet raw "type")
      position := cloneVectorWithFallbackJ (jsGet raw "position") DEFAULT_UI_PARAMS.position
      size := cloneVectorWithFallbackJ (jsGet raw "size") DEFAULT_UI_PARAMS.size
      anchor := ensureEnumNumberJ (jsGet raw "anchor") uiAnchorName uiAnchorOfName
        DEFAULT_UI_PARAMS.anchor
      visible :=
        match jsGet raw "visible" with
        | some (.bool b) => b
        | _ => DEFAULT_UI_PARAMS.visible
      textLabel :=
        match jsGet raw "textLabel" with
        | some (.str s) => s
        | _ => DEFAULT_UI_PARAMS.textLabel
      textColor := cloneVectorWithFallbackJ (jsGet raw "textColor") DEFAULT_UI_PARAMS.textColor
      textAlpha := ensureNumberJ (jsGet raw "textAlpha") DEFAULT_UI_PARAMS.textAlpha
      textSize := ensureNumberJ (jsGet raw "textSize") DEFAULT_UI_PARAMS.textSize
      textAnchor := ensureEnumNumberJ (jsGet raw "textAnchor") uiAnchorName uiAnchorOfName
        DEFAULT_UI_PARAMS.textAnchor
      padding := ensureNumberJ (jsGet raw "padding") DEFAULT_UI_PARAMS.padding
      bgColor := cloneVectorWithFallbackJ (jsGet raw "bgColor") DEFAULT_UI_PARAMS.bgColor
      bgAlpha := ensureNumberJ (jsGet raw "bgAlpha") DEFAULT_UI_PARAMS.bgAlpha
      bgFill := ensureEnumNumberJ (jsGet raw "bgFill") uiBgFillName uiBgFillOfName
        DEFAULT_UI_PARAMS.bgFill
      imageType := ensureEnumNumberJ (jsGet raw "imageType") uiImageTypeName uiImageTypeOfName
        DEFAULT_UI_PARAMS.imageType
      imageColor := cloneVectorWithFallbackJ (jsGet raw "imageColor") DEFAULT_UI_PARAMS.imageColor
      imageAlpha := ensureNumberJ (jsGet raw "imageAlpha") DEFAULT_UI_PARAMS.imageAlpha
      buttonEnabled :=
        match jsGet raw "buttonEnabled" with
        | some (.bool b) => b
        | _ => false
      buttonColorBase := cloneVectorWithFallbackJ (jsGet raw "buttonColorBase")
        DEFAULT_UI_PARAMS.buttonColorBase
      buttonAlphaBase := ensureNumberJ (jsGet raw "buttonAlphaBase")
        DEFAULT_UI_PARAMS.buttonAlphaBase
      buttonColorDisabled := cloneVectorWithFallbackJ (jsGet raw "buttonColorDisabled")
        DEFAULT_UI_PARAMS.buttonColorDisabled
      buttonAlphaDisabled := ensureNumberJ (jsGet raw "buttonAlphaDisabled")
        DEFAULT_UI_PARAMS.buttonAlphaDisabled
      buttonColorPressed := cloneVectorWithFallbackJ (jsGet raw "buttonColorPressed")
        DEFAULT_UI_PARAMS.buttonColorPressed
      buttonAlphaPressed := ensureNumberJ (jsGet raw "buttonAlphaPressed")
        DEFAULT_UI_PARAMS.buttonAlphaPressed
      buttonColorHover := cloneVectorWithFallbackJ (jsGet raw "buttonColorHover")
        DEFAULT_UI_PARAMS.buttonColorHover
      buttonAlphaHover := ensureNumberJ (jsGet raw "buttonAlphaHover")
        DEFAULT_UI_PARAMS.buttonAlphaHover
      buttonColorFocused := cloneVectorWithFallbackJ (jsGet raw "buttonColorFocused")
        DEFAULT_UI_PARAMS.buttonColorFocused
      buttonAlphaFocused := ensureNumberJ (jsGet raw "buttonAlphaFocused")
        DEFAULT_UI_PARAMS.buttonAlphaFocused }
    ((normalizeChildrenInput (jsGet raw "children")).attach.map
      (fun ⟨c, hc⟩ => normalizeParsedParam (objFieldsOf c)))
termination_by sizeOf raw
decreasing_by
  have h5 := objFieldsOf_sizeOf c
  cases hg : jsGet raw "children" with
  | none => rw [hg] at hc; simp [normalizeChildrenInput] at hc
  | some w =>
    have h2 : sizeOf c < sizeOf w := normalizeChildrenInput_sizeOf _ c (hg ▸ hc) w rfl
    have h3 : sizeOf w < sizeOf raw := jsGet_sizeOf raw "children" w hg
    omega


/-- The `for (const payload of payloads)` loop of `parseParseUiTypescript`:
tokenize each payload (empty token lists are skipped with `continue`),
parse, normalize, and concatenate in order. -/
def parsePayloadsLoop : List (List Char) → Except String (List UIParams)
  | [] => .ok []
  | p :: rest =>
    match tokenizeParseUiPayload p with
    | .error e => .error e
    | .ok [] => parsePayloadsLoop rest
    | .ok (t :: ts) =>
      match parseTokensToParams (t :: ts) with
      | .error e => .error e
      | .ok raws =>
        (parsePayloadsLoop rest).map (fun tail => raws.map normalizeParsedParam ++ tail)

/-- `parseParseUiTypescript` (ui-builder.service.ts lines 2117–2136): the
whole import pipeline — extraction, tokenization, parsing, normalization —
as one pure function. -/
def parseParseUiTypescript (source : String) : Except String (List UIParams) :=
  match extractParseUiPayloads source.data with
  | .error e => .error e
  | .ok payloads => parsePayloadsLoop payloads

/-! ## The owning store (`UiBuilderService` state) and `importFromTypescript` -/

/-- The copied-element clipboard record (`_copiedElement`). -/
structure CopiedElement where
  snapshot : UIElement
  parentId : Option String
  index : ℕ
  sourceId : String

/-- The service state the import path touches: the element tree signal, the
selection signal, the id counter, the autosave signature and the clipboard. -/
structure BuilderState where
  elements : List UIElement
  selectedElementId : Option String
  nextId : ℕ
  lastSavedSignature : Option String
  copiedElement : Option CopiedElement

/-- `clear()` (ui-builder.service.ts lines 1481–1485). -/
def clearState (st : BuilderState) : BuilderState :=
  { st with elements := [], selectedElementId := none, nextId := 1 }

/-- `cloneVectorWithFallback` on plain vectors (the restore path). -/
def cloneVectorQ (values fallback : List ℚ) : List ℚ :=
  if values.length ≠ 0 then values
  else if fallback.length ≠ 0 then fallback
  else []

/-- `createUIElement` (ui-builder.service.ts lines 864–874): a fresh id from
the counter and all property fields from `DEFAULT_UI_PARAMS` (which carries
no `name`/`type` entries, so the given ones stay).  `suffix` stands for the
`generateRandomSuffix()` draw used when the name is empty — randomness is
modelled as an oracle the import entry point receives. -/
def createUIElement (typ : ElemType) (name : String) (suffix : String) (nextId : ℕ) :
    UIElement × ℕ :=
  (UIElement.node ("element_" ++ String.mk (natDecChars nextId)) false
    { DEFAULT_UI_PARAMS with
        name := if name = "" then typ.str ++ "_" ++ suffix else name, type := typ }
    [], nextId + 1)

mutual

/-- `buildElementFromParams` (ui-builder.service.ts lines 1641–1686): a
default-seeded element overridden by the present param fields.  Every
`UIParams` field in this model is present, so `?? base.x` keeps the param
value; vectors and numbers go through the same fallbacks as the source. -/
def buildElementFromParams (oracle : ℕ → String) (param : UIParams)
    (parentId : Option String) (nextId : ℕ) : UIElement × ℕ :=
  match param with
  | .node f children =>
    let (base, n1) := createUIElement f.type f.name (oracle nextId) nextId
    let element : UIFields :=
      { f with
          position := cloneVectorQ f.position base.fields.position
          size := cloneVectorQ f.size base.fields.size
          textColor := cloneVectorQ f.textColor base.fields.textColor
          bgColor := cloneVectorQ f.bgColor base.fields.bgColor
          imageColor := cloneVectorQ f.imageColor base.fields.imageColor
          buttonColorBase := cloneVectorQ f.buttonColorBase base.fields.buttonColorBase
          buttonColorDisabled := cloneVectorQ f.buttonColorDisabled base.fields.buttonColorDisabled
          buttonColorPressed := cloneVectorQ f.buttonColorPressed base.fields.buttonColorPressed
          buttonColorHover := cloneVectorQ f.buttonColorHover base.fields.buttonColorHover
          buttonColorFocused := cloneVectorQ f.buttonColorFocused base.fields.buttonColorFocused }
    let (children', n2) := buildElementListFromParams oracle children (some base.id) n1
    (UIElement.node base.id false element children', n2)

/-- `childParams.map(child => buildElementFromParams(child, element.id))`
with the id counter threaded. -/
def buildElementListFromParams (oracle : ℕ → String) (params : List UIParams)
    (parentId : Option String) (nextId : ℕ) : List UIElement × ℕ :=
  match params with
  | [] => ([], nextId)
  | p :: rest =>
    let (e, n1) := buildElementFromParams oracle p parentId nextId
    let (es, n2) := buildElementListFromParams oracle rest parentId n1
    (e :: es, n2)

end

/-- `restoreElementsFromParams` (ui-builder.service.ts line 1579). -/
def restoreElementsFromParams (oracle : ℕ → String) (params : List UIParams)
    (nextId : ℕ) : List UIElement × ℕ :=
  buildElementListFromParams oracle params none nextId

/-- What `importFromTypescript` returns. -/
structure ImportResult where
  success : Bool
  importedCount : ℕ
  error : Option String
deriving Repr, DecidableEq

/-- `importFromTypescript` (ui-builder.service.ts lines 1438–1478).  The
parse runs before any mutation; the `catch` path returns the state
untouched.  `modeAppend` is `options?.mode === 'append'`; `oracle` models
the `Math.random()` name-suffix draws. -/
def importFromTypescript (source : String) (modeAppend : Bool) (oracle : ℕ → String)
    (st : BuilderState) : ImportResult × BuilderState :=
  if jsTrim source = "" then
    ({ success := false, importedCount := 0,
       error := some "No TypeScript content provided." }, st)
  else
    match parseParseUiTypescript source with
    | .error e => ({ success := false, importedCount := 0, error := some e }, st)
    | .ok params =>
      let st1 := if modeAppend then st else { clearState st with copiedElement := none }
      let st2 := { st1 with lastSavedSignature := none }
      if params.length = 0 then
        ({ success := true, importedCount := 0, error := none }, st2)
      else
        let (restored, n') := restoreElementsFromParams oracle params st2.nextId
        let st3 :=
          if modeAppend then { st2 with elements := st2.elements ++ restored, nextId := n' }
          else { st2 with elements := restored, nextId := n' }
        let st4 := { st3 with selectedElementId := none }
        ({ success := true, importedCount := restored.length, error := none }, st4)

/-- **C3.** On every input text on which any stage of the import pipeline —
payload extraction, tokenization, recursive-descent parsing or
normalization, i.e. `parseParseUiTypescript` — fails, `importFromTypescript`
returns a failure result and leaves the whole service state (in particular
the element tree) exactly as it was: the tree is mutated only after the
entire pipeline has succeeded. -/
theorem import_failure_leaves_tree_unchanged (source : String) (modeAppend : Bool)
    (oracle : ℕ → String) (st : BuilderState) (e : String)
    (h : parseParseUiTypescript source = .error e) :
    (importFromTypescript source modeAppend oracle st).1.success = false ∧
    (importFromTypescript source modeAppend oracle st).2 = st := by
  unfold importFromTypescript
  split_ifs with h1
  · exact ⟨rfl, rfl⟩
  all_goals rw [h]
  all_goals exact ⟨rfl, rfl⟩

/-- Witness for C3: importing the text `"hello"` (which contains no
`modlib.ParseUI` call) fails and leaves an arbitrary concrete state — here
one holding a single default Container — untouched. -/
theorem import_failure_leaves_tree_unchanged_witness :
    parseParseUiTypescript "hello" =
      .error "Could not find a modlib.ParseUI call in the provided code." ∧
    (importFromTypescript "hello" false (fun _ => "ABCDE")
        { elements := [UIElement.node "element_1" false DEFAULT_UI_PARAMS []],
          selectedElementId := some "element_1", nextId := 2,
          lastSavedSignature := none, copiedElement := none }).1.success = false ∧
    (importFromTypescript "hello" false (fun _ => "ABCDE")
        { elements := [UIElement.node "element_1" false DEFAULT_UI_PARAMS []],
          selectedElementId := some "element_1", nextId := 2,
          lastSavedSignature := none, copiedElement := none }).2 =
      { elements := [UIElement.node "element_1" false DEFAULT_UI_PARAMS []],
        selectedElementId := some "element_1", nextId := 2,
        lastSavedSignature := none, copiedElement := none } := by
  have hparse : parseParseUiTypescript "hello" =
      .error "Could not find a modlib.ParseUI call in the provided code." := by
    simp [parseParseUiTypescript, extractParseUiPayloads, extractAllPayloads,
      extractNextParseUiPayload, dropThroughMarker, parseUiMarker]
  refine ⟨hparse, ?_, ?_⟩
  · exact (import_failure_leaves_tree_unchanged "hello" false (fun _ => "ABCDE") _ _ hparse).1
  · exact (import_failure_leaves_tree_unchanged "hello" false (fun _ => "ABCDE") _ _ hparse).2

/-! ## Round-trip groundwork: list scanning helpers -/

/-- The head of `xs` (if any) does not satisfy `p`. -/
def headNotP (p : Char → Bool) : List Char → Prop
  | [] => True
  | c :: _ => p c = false

theorem takeWhile_append_all (p : Char → Bool) (xs ys : List Char)
    (h : ∀ c ∈ xs, p c = true) : (xs ++ ys).takeWhile p = xs ++ ys.takeWhile p := by
  induction xs with
  | nil => simp
  | cons a as ih =>
    simp only [List.cons_append, List.takeWhile_cons, h a (by simp)]
    simp only [if_pos trivial]
    rw [ih (fun c hc => h c (by simp [hc]))]

theorem dropWhile_append_all (p : Char → Bool) (xs ys : List Char)
    (h : ∀ c ∈ xs, p c = true) : (xs ++ ys).dropWhile p = ys.dropWhile p := by
  induction xs with
  | nil => simp
  | cons a as ih =>
    simp only [List.cons_append, List.dropWhile_cons, h a (by simp)]
    simp only [if_pos trivial]
    exact ih (fun c hc => h c (by simp [hc]))

theorem takeWhile_eq_nil_of_headNot (p : Char → Bool) (ys : List Char)
    (h : headNotP p ys) : ys.takeWhile p = [] := by
  cases ys with
  | nil => simp
  | cons c cs =>
    have hc : p c = false := h
    simp [List.takeWhile_cons, hc]

theorem dropWhile_eq_self_of_headNot (p : Char → Bool) (ys : List Char)
    (h : headNotP p ys) : ys.dropWhile p = ys := by
  cases ys with
  | nil => simp
  | cons c cs =>
    have hc : p c = false := h
    simp [List.dropWhile_cons, hc]

theorem takeWhile_append_boundary (p : Char → Bool) (xs ys : List Char)
    (h : ∀ c ∈ xs, p c = true) (hy : headNotP p ys) :
    (xs ++ ys).takeWhile p = xs ∧ (xs ++ ys).dropWhile p = ys := by
  rw [takeWhile_append_all p xs ys h, dropWhile_append_all p xs ys h,
    takeWhile_eq_nil_of_headNot p ys hy, dropWhile_eq_self_of_headNot p ys hy]
  simp

/-! ## Decimal digit facts -/

theorem digitChar_toNat (n : ℕ) (h : n < 10) : (digitChar n).toNat = 48 + n := by
  have hv : Nat.isValidChar (48 + n) := by left; omega
  rw [digitChar, Char.ofNat, dif_pos hv]
  rfl

theorem isDigitB_digitChar (n : ℕ) (h : n < 10) : isDigitB (digitChar n) = true := by
  interval_cases n <;> decide

theorem isDigitB_ne_minus (c : Char) (h : isDigitB c = true) : c ≠ '-' := by
  intro he; subst he; simp [isDigitB] at h

theorem natDecChars_small (n : ℕ) (h : n < 10) : natDecChars n = [digitChar n] := by
  rw [natDecChars, natDigitsRev, dif_pos h]
  rfl

theorem natDecChars_step (n : ℕ) (h : ¬ n < 10) :
    natDecChars n = natDecChars (n / 10) ++ [digitChar (n % 10)] := by
  rw [natDecChars, natDigitsRev, dif_neg h]
  simp [natDecChars]

theorem natDecChars_digits (n : ℕ) : ∀ c ∈ natDecChars n, isDigitB c = true := by
  induction n using Nat.strong_induction_on with
  | _ n ih =>
    by_cases h : n < 10
    · rw [natDecChars_small n h]
      intro c hc
      simp at hc
      subst hc
      exact isDigitB_digitChar n h
    · rw [natDecChars_step n h]
      intro c hc
      rcases List.mem_append.mp hc with h1 | h2
      · exact ih (n / 10) (Nat.div_lt_self (by omega) (by omega)) c h1
      · simp at h2
        subst h2
        exact isDigitB_digitChar _ (Nat.mod_lt _ (by omega))

theorem natDecChars_ne_nil (n : ℕ) : natDecChars n ≠ [] := by
  by_cases h : n < 10
  · rw [natDecChars_small n h]; simp
  · rw [natDecChars_step n h]; simp

theorem digitsVal_append_single (xs : List Char) (d : Char) :
    digitsVal (xs ++ [d]) = 10 * digitsVal xs + (d.toNat - 48) := by
  rw [digitsVal, List.foldl_append]
  simp [digitsVal]
  ring

theorem digitsVal_natDecChars (n : ℕ) : digitsVal (natDecChars n) = n := by
  induction n using Nat.strong_induction_on with
  | _ n ih =>
    by_cases h : n < 10
    · rw [natDecChars_small n h]
      simp [digitsVal, digitChar_toNat n h]
    · rw [natDecChars_step n h, digitsVal_append_single,
        ih (n / 10) (Nat.div_lt_self (by omega) (by omega)),
        digitChar_toNat _ (Nat.mod_lt _ (by omega))]
      omega

theorem natDecChars_length_le : ∀ (k : ℕ), 1 ≤ k → ∀ (n : ℕ), n < 10 ^ k →
    (natDecChars n).length ≤ k := by
  intro k
  induction k with
  | zero => omega
  | succ k ih =>
    intro _ n h
    by_cases hs : n < 10
    · rw [natDecChars_small n hs]; simp
    · rw [natDecChars_step n hs]
      have hk1 : 1 ≤ k := by
        by_contra hc
        have hz : k = 0 := by omega
        subst hz
        simp at h
        omega
      have hdiv : n / 10 < 10 ^ k := by
        rw [pow_succ] at h
        omega
      have := ih hk1 (n / 10) hdiv
      simp
      omega

theorem digitsVal_leading_zeros (k : ℕ) (ds : List Char) :
    digitsVal (List.replicate k '0' ++ ds) = digitsVal ds := by
  induction k with
  | zero => simp
  | succ k ih =>
    rw [List.replicate_succ]
    show digitsVal ('0' :: (List.replicate k '0' ++ ds)) = digitsVal ds
    rw [digitsVal] at ih ⊢
    simpa using ih

theorem natPad4Chars_length (f : ℕ) (hf : f < 10000) : (natPad4Chars f).length = 4 := by
  have := natDecChars_length_le 4 (by omega) f (lt_of_lt_of_le hf (by norm_num))
  rw [natPad4Chars]
  simp
  omega

theorem natPad4Chars_digitsVal (f : ℕ) : digitsVal (natPad4Chars f) = f := by
  rw [natPad4Chars]
  simp only [digitsVal_leading_zeros]
  exact digitsVal_natDecChars f

theorem natPad4Chars_digits (f : ℕ) : ∀ c ∈ natPad4Chars f, isDigitB c = true := by
  rw [natPad4Chars]
  intro c hc
  simp only [List.mem_append] at hc
  rcases hc with h | h
  · have := List.eq_of_mem_replicate h
    subst this
    decide
  · exact natDecChars_digits f c h

theorem digitsVal_trailing_zeros (ys : List Char) (k : ℕ) :
    digitsVal (ys ++ List.replicate k '0') = digitsVal ys * 10 ^ k := by
  induction k with
  | zero => simp
  | succ k ih =>
    rw [List.replicate_succ', ← List.append_assoc, digitsVal_append_single, ih]
    have h0 : ('0').toNat - 48 = 0 := by decide
    rw [h0]
    ring

theorem dropTrailingZeros_spec (xs : List Char) :
    ∃ k, xs = dropTrailingZeros xs ++ List.replicate k '0' := by
  refine ⟨(xs.reverse.takeWhile (fun c => c == '0')).length, ?_⟩
  have hsplit : xs.reverse.takeWhile (fun c => c == '0') ++
      xs.reverse.dropWhile (fun c => c == '0') = xs.reverse :=
    List.takeWhile_append_dropWhile (fun c => c == '0') xs.reverse
  have hrep : xs.reverse.takeWhile (fun c => c == '0') =
      List.replicate (xs.reverse.takeWhile (fun c => c == '0')).length '0' := by
    rw [List.eq_replicate_iff]
    refine ⟨rfl, ?_⟩
    intro b hb
    have := List.mem_takeWhile_imp hb
    simpa using this
  rw [dropTrailingZeros]
  conv_lhs => rw [← List.reverse_reverse xs, ← hsplit]
  rw [List.reverse_append]
  congr 1
  rw [← List.reverse_replicate, ← hrep]

theorem dropTrailingZeros_val (xs : List Char) :
    ∃ k, digitsVal xs = digitsVal (dropTrailingZeros xs) * 10 ^ k ∧
      xs.length = (dropTrailingZeros xs).length + k := by
  obtain ⟨k, hk⟩ := dropTrailingZeros_spec xs
  refine ⟨k, ?_, ?_⟩
  · conv_lhs => rw [hk]
    exact digitsVal_trailing_zeros _ k
  · conv_lhs => rw [hk]
    simp

theorem dropTrailingZeros_sub (xs : List Char) (h : ∀ c ∈ xs, isDigitB c = true) :
    ∀ c ∈ dropTrailingZeros xs, isDigitB c = true := by
  obtain ⟨k, hk⟩ := dropTrailingZeros_spec xs
  intro c hc
  exact h c (hk ▸ List.mem_append.mpr (Or.inl hc))

/-- The rational value denoted by the printed fraction block of `toFixed(4)`
output. -/
theorem scaled_frac_val (f : ℕ) (hf : f < 10000) :
    (digitsVal (dropTrailingZeros (natPad4Chars f)) : ℚ) /
      (10 : ℚ) ^ (dropTrailingZeros (natPad4Chars f)).length = (f : ℚ) / 10 ^ 4 := by
  obtain ⟨k, hv, hl⟩ := dropTrailingZeros_val (natPad4Chars f)
  rw [natPad4Chars_digitsVal] at hv
  rw [natPad4Chars_length f hf] at hl
  generalize hgen : dropTrailingZeros (natPad4Chars f) = ds at hv hl ⊢
  have hk4 : k ≤ 4 := by omega
  have hlen : ds.length = 4 - k := by omega
  subst hv
  rw [hlen]
  push_cast
  rw [div_eq_div_iff (by positivity) (by positivity)]
  have hexp : (10 : ℚ) ^ (4 : ℕ) = 10 ^ (4 - k) * 10 ^ k := by
    rw [← pow_add]
    congr 1
    omega
  rw [hexp]
  ring

/-! ## `readNumber` inverts the decimal printer -/

/-- No digit and no dot may follow: the boundary after a printed number in
the emitted text. -/
def numBoundary : List Char → Prop
  | [] => True
  | c :: _ => isDigitB c = false ∧ c ≠ '.'

theorem numBoundary_headNot (rest : List Char) (h : numBoundary rest) :
    headNotP isDigitB rest := by
  cases rest with
  | nil => trivial
  | cons c cs =>
    have hc : isDigitB c = false ∧ c ≠ '.' := h
    exact hc.1

theorem numValue_int (neg : Bool) (ds : List Char) :
    numValue neg ds [] = (if neg then -1 else 1) * (digitsVal ds : ℚ) := by
  rw [numValue]
  norm_num [digitsVal]

theorem readNumberAfterSign_natDec (neg : Bool) (n : ℕ) (rest : List Char)
    (h : numBoundary rest) :
    readNumberAfterSign neg (natDecChars n ++ rest) =
      .ok ((if neg then -1 else 1) * (n : ℚ), rest) := by
  obtain ⟨ht, hd⟩ := takeWhile_append_boundary isDigitB (natDecChars n) rest
    (natDecChars_digits n) (numBoundary_headNot rest h)
  rw [readNumberAfterSign, hd, ht]
  cases rest with
  | nil =>
    rw [if_neg (by simp [natDecChars_ne_nil n])]
    rw [numValue_int, digitsVal_natDecChars]
  | cons c cs =>
    have hcne : c ≠ '.' := (show isDigitB c = false ∧ c ≠ '.' from h).2
    split
    all_goals first
      | (rename_i t heq
         exfalso
         rw [List.cons.injEq] at heq
         exact hcne heq.1)
      | (rw [if_neg (by simp [natDecChars_ne_nil n])]
         rw [numValue_int, digitsVal_natDecChars])

theorem readNumber_eq_afterSign (n : ℕ) (suffix : List Char) :
    readNumber (natDecChars n ++ suffix) =
      readNumberAfterSign false (natDecChars n ++ suffix) := by
  obtain ⟨a, as, hnc⟩ : ∃ a as, natDecChars n = a :: as := by
    cases hnc : natDecChars n with
    | nil => exact absurd hnc (natDecChars_ne_nil n)
    | cons a as => exact ⟨a, as, rfl⟩
  have hadig : isDigitB a = true := natDecChars_digits n a (by rw [hnc]; simp)
  rw [hnc]
  show readNumber (a :: (as ++ suffix)) = readNumberAfterSign false (a :: (as ++ suffix))
  rw [readNumber]
  all_goals try rfl
  all_goals intro t heq
  all_goals rw [List.cons.injEq] at heq
  all_goals exact isDigitB_ne_minus a hadig heq.1

theorem readNumber_natDec (n : ℕ) (rest : List Char) (h : numBoundary rest) :
    readNumber (natDecChars n ++ rest) = .ok ((n : ℚ), rest) := by
  rw [readNumber_eq_afterSign, readNumberAfterSign_natDec false n rest h]
  simp

theorem readNumber_intDec (i : ℤ) (rest : List Char) (h : numBoundary rest) :
    readNumber (intDecChars i ++ rest) = .ok ((i : ℚ), rest) := by
  rw [intDecChars]
  by_cases hi : i < 0
  · rw [if_pos hi]
    show readNumber ('-' :: (natDecChars i.natAbs ++ rest)) = _
    rw [readNumber]
    rw [readNumberAfterSign_natDec true i.natAbs rest h]
    have habs : ((i.natAbs : ℕ) : ℚ) = -(i : ℚ) := by
      rw [Int.cast_natAbs, abs_of_neg hi]
      all_goals push_cast
      all_goals ring
    simp [habs]
  · rw [if_neg hi]
    rw [readNumber_natDec i.natAbs rest h]
    have habs : ((i.natAbs : ℕ) : ℚ) = (i : ℚ) := by
      rw [Int.cast_natAbs, abs_of_nonneg (not_lt.mp hi)]
      all_goals push_cast
      all_goals ring
    rw [habs]

theorem readNumberAfterSign_scaled (neg : Bool) (intN f : ℕ) (hf : f < 10000)
    (rest : List Char) (h : numBoundary rest) :
    readNumberAfterSign neg
        (natDecChars intN ++ '.' :: (dropTrailingZeros (natPad4Chars f) ++ rest)) =
      .ok ((if neg then -1 else 1) * ((intN : ℚ) + (f : ℚ) / 10 ^ 4), rest) := by
  have hfr : ∀ c ∈ dropTrailingZeros (natPad4Chars f), isDigitB c = true :=
    dropTrailingZeros_sub _ (natPad4Chars_digits f)
  obtain ⟨htf, hdf⟩ := takeWhile_append_boundary isDigitB
    (dropTrailingZeros (natPad4Chars f)) rest hfr (numBoundary_headNot rest h)
  have hdrop : List.dropWhile isDigitB
      (natDecChars intN ++ '.' :: (dropTrailingZeros (natPad4Chars f) ++ rest)) =
      '.' :: (dropTrailingZeros (natPad4Chars f) ++ rest) := by
    rw [dropWhile_append_all isDigitB _ _ (natDecChars_digits intN)]
    rw [List.dropWhile_cons]
    rw [if_neg (by decide)]
  have htake : List.takeWhile isDigitB
      (natDecChars intN ++ '.' :: (dropTrailingZeros (natPad4Chars f) ++ rest)) =
      natDecChars intN := by
    rw [takeWhile_append_all isDigitB _ _ (natDecChars_digits intN)]
    rw [List.takeWhile_cons]
    rw [if_neg (by decide)]
    simp
  rw [readNumberAfterSign, hdrop]
  simp only
  rw [htake, htf, hdf]
  rw [if_neg (by simp [natDecChars_ne_nil intN])]
  congr 2
  rw [numValue, digitsVal_natDecChars, scaled_frac_val f hf]

theorem readNumber_scaledDec (m : ℤ) (hm : ¬ ((10000 : ℤ) ∣ m)) (rest : List Char)
    (h : numBoundary rest) :
    readNumber (scaledDecChars m ++ rest) = .ok ((m : ℚ) / 10 ^ 4, rest) := by
  have hfne : m.natAbs % 10000 ≠ 0 := by
    intro hc
    apply hm
    apply Int.natAbs_dvd_natAbs.mp
    have h4 : (10000 : ℤ).natAbs = 10000 := by decide
    rw [h4]
    exact Nat.dvd_of_mod_eq_zero hc
  have hflt : m.natAbs % 10000 < 10000 := Nat.mod_lt _ (by omega)
  have hsplit : ((m.natAbs / 10000 : ℕ) : ℚ) + ((m.natAbs % 10000 : ℕ) : ℚ) / 10 ^ 4 =
      (m.natAbs : ℚ) / 10 ^ 4 := by
    have hmod : (10000 : ℕ) * (m.natAbs / 10000) + m.natAbs % 10000 = m.natAbs :=
      Nat.div_add_mod _ _
    have hq : ((10000 : ℚ)) * ((m.natAbs / 10000 : ℕ) : ℚ) + ((m.natAbs % 10000 : ℕ) : ℚ) =
        (m.natAbs : ℚ) := by
      exact_mod_cast hmod
    field_simp
    linarith
  rw [scaledDecChars]
  simp only [if_neg hfne]
  by_cases hneg : m < 0
  · rw [if_pos hneg]
    simp only [List.append_assoc, List.cons_append, List.nil_append]
    rw [readNumber, readNumberAfterSign_scaled true _ _ hflt rest h]
    have habs : ((m.natAbs : ℚ)) = -(m : ℚ) := by
      rw [Int.cast_natAbs, abs_of_neg hneg]
      all_goals push_cast
      all_goals ring
    rw [hsplit, habs]
    norm_num
    all_goals ring
  · rw [if_neg hneg]
    simp only [List.append_assoc, List.cons_append, List.nil_append]
    rw [readNumber_eq_afterSign, readNumberAfterSign_scaled false _ _ hflt rest h]
    have habs : ((m.natAbs : ℚ)) = (m : ℚ) := by
      rw [Int.cast_natAbs, abs_of_nonneg (not_lt.mp hneg)]
      all_goals push_cast
      all_goals ring
    rw [hsplit, habs]
    norm_num
    all_goals ring

/-- `(String.mk cs).data = cs`. -/
theorem String.mk_data (cs : List Char) : (String.mk cs).data = cs := rfl

/-- A rational is four-decimal exact when `q·10⁴` is an integer. -/
def fourDec (q : ℚ) : Bool := (q * 10000).den == 1

/-- `readNumber` inverts `formatNumber` on four-decimal-exact rationals. -/
theorem readNumber_formatNumber (q : ℚ) (hq : fourDec q = true) (rest : List Char)
    (h : numBoundary rest) :
    readNumber ((formatNumber q).data ++ rest) = .ok (q, rest) := by
  have hden : (q * 10000).den = 1 := by
    simpa [fourDec] using hq
  have hqm : (((q * 10000).num : ℚ)) = q * 10000 :=
    Rat.coe_int_num_of_den_eq_one hden
  rw [formatNumber]
  by_cases h1 : q.den = 1
  · rw [if_pos h1]
    rw [String.mk_data, readNumber_intDec q.num rest h,
      Rat.coe_int_num_of_den_eq_one h1]
  · rw [if_neg h1]
    have hfloor : ⌊q * 10000 + 1 / 2⌋ = (q * 10000).num := by
      rw [← hqm]
      rw [add_comm, Int.floor_add_int]
      norm_num
    rw [String.mk_data, hfloor]
    have hnd : ¬ ((10000 : ℤ) ∣ (q * 10000).num) := by
      intro hdvd
      obtain ⟨t, ht⟩ := hdvd
      apply h1
      have hqt : q = (t : ℚ) := by
        have : ((q * 10000).num : ℚ) = ((10000 * t : ℤ) : ℚ) := by exact_mod_cast ht
        rw [hqm] at this
        push_cast at this
        linarith
      rw [hqt]
      exact Rat.den_intCast t
    rw [readNumber_scaledDec (q * 10000).num hnd rest h]
    have hval : (((q * 10000).num : ℚ)) / 10 ^ 4 = q := by
      rw [hqm]
      rw [show ((10 : ℚ) ^ (4 : ℕ)) = 10000 by norm_num]
      field_simp
    rw [hval]

/-! ## `readString` inverts the JSON escaper on safe characters -/

/-- Characters whose `JSON.stringify` escape is inverted exactly by the
importer's `readString` switch: printable characters plus `\n`, `\r`, `\t`.
(`\b`, `\f` and `\u00XX` escapes are emitted by the serializer but are NOT
understood by `readString`, so control characters other than the three above
are outside the canonical class.) -/
def jsonSafeB (c : Char) : Bool :=
  c == '\n' || c == '\r' || c == '\t' || decide (32 ≤ c.toNat)

theorem readStringAux_esc_step (quote e : Char) (acc rest' : List Char) :
    readStringAux quote false acc ('\x5c' :: e :: rest') =
      readStringAux quote false (acc ++ [unescapeChar e]) rest' := by
  rw [readStringAux]
  rw [if_neg (by simp), if_pos rfl]
  rw [readStringAux]
  rw [if_pos rfl]

theorem readStringAux_plain_step (quote c : Char) (h1 : c ≠ '\x5c') (h2 : c ≠ quote)
    (acc rest' : List Char) :
    readStringAux quote false acc (c :: rest') =
      readStringAux quote false (acc ++ [c]) rest' := by
  rw [readStringAux]
  rw [if_neg (by simp), if_neg h1, if_neg h2]

theorem readStringAux_close (quote : Char) (h : quote ≠ '\x5c') (acc rest : List Char) :
    readStringAux quote false acc (quote :: rest) = .ok (acc, rest) := by
  rw [readStringAux]
  rw [if_neg (by simp), if_neg (fun he => h he), if_pos rfl]

/-- Scanning the escaped body back: `readString` returns exactly the
original characters. -/
theorem readStringAux_jsonQuote (s : List Char) (hs : ∀ c ∈ s, jsonSafeB c = true) :
    ∀ (acc rest : List Char),
    readStringAux '\x22' false acc ((s.map jsonEscapeChar).flatten ++ '\x22' :: rest) =
      .ok (acc ++ s, rest) := by
  induction s with
  | nil =>
    intro acc rest
    simp only [List.map_nil, List.flatten_nil, List.nil_append, List.append_nil]
    exact readStringAux_close '\x22' (by decide) acc rest
  | cons c cs ih =>
    intro acc rest
    have hcs : ∀ d ∈ cs, jsonSafeB d = true := fun d hd => hs d (by simp [hd])
    have hc : jsonSafeB c = true := hs c (by simp)
    have step : ∀ (u : List Char), jsonEscapeChar c = u →
        readStringAux '\x22' false acc
          ((u ++ (cs.map jsonEscapeChar).flatten) ++ '\x22' :: rest) =
          .ok (acc ++ (c :: cs), rest) := by
      intro u hu
      by_cases h1 : c = '\x22'
      · subst h1
        rw [show jsonEscapeChar '\x22' = ['\x5c', '\x22'] from rfl] at hu
        subst hu
        rw [show (['\x5c', '\x22'] ++ (cs.map jsonEscapeChar).flatten) ++ '\x22' :: rest =
          '\x5c' :: '\x22' :: ((cs.map jsonEscapeChar).flatten ++ '\x22' :: rest) by simp]
        rw [readStringAux_esc_step, ih hcs]
        simp [unescapeChar]
      · by_cases h2 : c = '\x5c'
        · subst h2
          rw [show jsonEscapeChar '\x5c' = ['\x5c', '\x5c'] from by decide] at hu
          subst hu
          rw [show (['\x5c', '\x5c'] ++ (cs.map jsonEscapeChar).flatten) ++ '\x22' :: rest =
            '\x5c' :: '\x5c' :: ((cs.map jsonEscapeChar).flatten ++ '\x22' :: rest) by simp]
          rw [readStringAux_esc_step, ih hcs]
          simp [unescapeChar]
        · by_cases h3 : c = '\n'
          · subst h3
            rw [show jsonEscapeChar '\n' = ['\x5c', 'n'] from by decide] at hu
            subst hu
            rw [show (['\x5c', 'n'] ++ (cs.map jsonEscapeChar).flatten) ++ '\x22' :: rest =
              '\x5c' :: 'n' :: ((cs.map jsonEscapeChar).flatten ++ '\x22' :: rest) by simp]
            rw [readStringAux_esc_step, ih hcs]
            simp [unescapeChar]
          · by_cases h4 : c = '\r'
            · subst h4
              rw [show jsonEscapeChar '\r' = ['\x5c', 'r'] from by decide] at hu
              subst hu
              rw [show (['\x5c', 'r'] ++ (cs.map jsonEscapeChar).flatten) ++ '\x22' :: rest =
                '\x5c' :: 'r' :: ((cs.map jsonEscapeChar).flatten ++ '\x22' :: rest) by simp]
              rw [readStringAux_esc_step, ih hcs]
              simp [unescapeChar]
            · by_cases h5 : c = '\t'
              · subst h5
                rw [show jsonEscapeChar '\t' = ['\x5c', 't'] from by decide] at hu
                subst hu
                rw [show (['\x5c', 't'] ++ (cs.map jsonEscapeChar).flatten) ++ '\x22' :: rest =
                  '\x5c' :: 't' :: ((cs.map jsonEscapeChar).flatten ++ '\x22' :: rest) by simp]
                rw [readStringAux_esc_step, ih hcs]
                simp [unescapeChar]
              · have h32 : 32 ≤ c.toNat := by
                  have hc2 : c = '\n' ∨ c = '\r' ∨ c = '\t' ∨ 32 ≤ c.toNat := by
                    simpa [jsonSafeB, Bool.or_eq_true, beq_iff_eq, decide_eq_true_eq,
                      or_assoc] using hc
                  rcases hc2 with h | h | h | h
                  · exact absurd h h3
                  · exact absurd h h4
                  · exact absurd h h5
                  · exact h
                have h6 : c ≠ '\x08' := by
                  intro he; subst he; exact absurd h32 (by decide)
                have h7 : c ≠ '\x0c' := by
                  intro he; subst he; exact absurd h32 (by decide)
                have h8 : ¬ (c.toNat < 32) := by omega
                rw [jsonEscapeChar, if_neg h1, if_neg h2, if_neg h3, if_neg h4, if_neg h5,
                  if_neg h6, if_neg h7, if_neg h8] at hu
                subst hu
                rw [show ([c] ++ (cs.map jsonEscapeChar).flatten) ++ '\x22' :: rest =
                  c :: ((cs.map jsonEscapeChar).flatten ++ '\x22' :: rest) by simp]
                rw [readStringAux_plain_step '\x22' c h2 h1, ih hcs]
                simp
    have hflat : ((c :: cs).map jsonEscapeChar).flatten =
        jsonEscapeChar c ++ (cs.map jsonEscapeChar).flatten := by simp
    rw [hflat, List.append_assoc] at *
    have := step (jsonEscapeChar c) rfl
    rw [List.append_assoc] at this
    exact this

/-! ## Single-token stepping lemmas for the scanner -/

theorem char_ne_of_toNat_ne (c d : Char) (h : c.toNat ≠ d.toNat) : c ≠ d :=
  fun he => h (congrArg Char.toNat he)

theorem isDigitB_toNat (c : Char) (h : isDigitB c = true) :
    48 ≤ c.toNat ∧ c.toNat ≤ 57 := by
  rw [isDigitB, Bool.and_eq_true] at h
  obtain ⟨h1, h2⟩ := h
  exact ⟨of_decide_eq_true h1, of_decide_eq_true h2⟩

/-- A digit is not whitespace, punctuation or a quote. -/
theorem isDigitB_not_special (c : Char) (h : isDigitB c = true) :
    jsWhitespaceB c = false ∧ c ≠ '\x7b' ∧ c ≠ '\x7d' ∧ c ≠ '[' ∧ c ≠ ']' ∧
      c ≠ ':' ∧ c ≠ ',' ∧ c ≠ '\x22' ∧ c ≠ '\x27' := by
  obtain ⟨h1, h2⟩ := isDigitB_toNat c h
  have hsp : (' ').toNat = 32 := by decide
  have hta : ('\t').toNat = 9 := by decide
  have hnl : ('\n').toNat = 10 := by decide
  have hcr : ('\r').toNat = 13 := by decide
  have hob : ('\x7b').toNat = 123 := by decide
  have hcb : ('\x7d').toNat = 125 := by decide
  have hlb : ('[').toNat = 91 := by decide
  have hrb : (']').toNat = 93 := by decide
  have hco : (':').toNat = 58 := by decide
  have hcm : (',').toNat = 44 := by decide
  have hdq : ('\x22').toNat = 34 := by decide
  have hsq : ('\x27').toNat = 39 := by decide
  refine ⟨?_, ?_, ?_, ?_, ?_, ?_, ?_, ?_, ?_⟩
  · simp only [jsWhitespaceB, Bool.or_eq_false_iff, beq_eq_false_iff_ne]
    exact ⟨⟨⟨char_ne_of_toNat_ne c ' ' (by omega), char_ne_of_toNat_ne c '\t' (by omega)⟩,
      char_ne_of_toNat_ne c '\n' (by omega)⟩, char_ne_of_toNat_ne c '\r' (by omega)⟩
  · exact char_ne_of_toNat_ne c '\x7b' (by omega)
  · exact char_ne_of_toNat_ne c '\x7d' (by omega)
  · exact char_ne_of_toNat_ne c '[' (by omega)
  · exact char_ne_of_toNat_ne c ']' (by omega)
  · exact char_ne_of_toNat_ne c ':' (by omega)
  · exact char_ne_of_toNat_ne c ',' (by omega)
  · exact char_ne_of_toNat_ne c '\x22' (by omega)
  · exact char_ne_of_toNat_ne c '\x27' (by omega)

theorem isIdentStartB_toNat (c : Char) (h : isIdentStartB c = true) :
    (65 ≤ c.toNat ∧ c.toNat ≤ 90) ∨ (97 ≤ c.toNat ∧ c.toNat ≤ 122) ∨ c.toNat = 95 := by
  obtain h1 | h1 | h1 : ('A' ≤ c ∧ c ≤ 'Z') ∨ ('a' ≤ c ∧ c ≤ 'z') ∨ c = '_' := by
    simpa [isIdentStartB, Bool.or_eq_true, Bool.and_eq_true, decide_eq_true_eq,
      beq_iff_eq, or_assoc] using h
  · exact Or.inl ⟨h1.1, h1.2⟩
  · exact Or.inr (Or.inl ⟨h1.1, h1.2⟩)
  · subst h1; exact Or.inr (Or.inr (by decide))

/-- An identifier-start character reaches the identifier branch: it fails
every earlier guard of the scanner. -/
theorem isIdentStartB_not_special (c : Char) (h : isIdentStartB c = true) :
    jsWhitespaceB c = false ∧ c ≠ '\x7b' ∧ c ≠ '\x7d' ∧ c ≠ '[' ∧ c ≠ ']' ∧
      c ≠ ':' ∧ c ≠ ',' ∧ c ≠ '\x22' ∧ c ≠ '\x27' ∧ c ≠ '-' ∧ isDigitB c = false := by
  have htri := isIdentStartB_toNat c h
  have hmi : ('-').toNat = 45 := by decide
  have hsp : (' ').toNat = 32 := by decide
  have hta : ('\t').toNat = 9 := by decide
  have hnl : ('\n').toNat = 10 := by decide
  have hcr : ('\r').toNat = 13 := by decide
  have hob : ('\x7b').toNat = 123 := by decide
  have hcb : ('\x7d').toNat = 125 := by decide
  have hlb : ('[').toNat = 91 := by decide
  have hrb : (']').toNat = 93 := by decide
  have hco : (':').toNat = 58 := by decide
  have hcm : (',').toNat = 44 := by decide
  have hdq : ('\x22').toNat = 34 := by decide
  have hsq : ('\x27').toNat = 39 := by decide
  refine ⟨?_, ?_, ?_, ?_, ?_, ?_, ?_, ?_, ?_, ?_, ?_⟩
  · simp only [jsWhitespaceB, Bool.or_eq_false_iff, beq_eq_false_iff_ne]
    exact ⟨⟨⟨char_ne_of_toNat_ne c ' ' (by omega), char_ne_of_toNat_ne c '\t' (by omega)⟩,
      char_ne_of_toNat_ne c '\n' (by omega)⟩, char_ne_of_toNat_ne c '\r' (by omega)⟩
  · exact char_ne_of_toNat_ne c '\x7b' (by omega)
  · exact char_ne_of_toNat_ne c '\x7d' (by omega)
  · exact char_ne_of_toNat_ne c '[' (by omega)
  · exact char_ne_of_toNat_ne c ']' (by omega)
  · exact char_ne_of_toNat_ne c ':' (by omega)
  · exact char_ne_of_toNat_ne c ',' (by omega)
  · exact char_ne_of_toNat_ne c '\x22' (by omega)
  · exact char_ne_of_toNat_ne c '\x27' (by omega)
  · exact char_ne_of_toNat_ne c '-' (by omega)
  · simp only [isDigitB, Bool.and_eq_false_iff]
    refine Or.inr ?_
    simp only [decide_eq_false_iff_not]
    intro hle
    have h9 : c.toNat ≤ 57 := hle
    rcases htri with ⟨ha, hb⟩ | ⟨ha, hb⟩ | ha <;> omega

theorem isIdentStartB_isPart (c : Char) (h : isIdentStartB c = true) :
    isIdentPartB c = true := by
  simp only [isIdentPartB, isIdentStartB] at *
  rcases Bool.or_eq_true _ _ |>.mp h with h1 | h1
  · rcases Bool.or_eq_true _ _ |>.mp h1 with h2 | h2
    · simp [h2]
    · simp [h2]
  · simp [h1]

theorem tokenize_ws_char (c : Char) (h : jsWhitespaceB c = true) (xs : List Char) :
    tokenize (c :: xs) = tokenize xs := by
  rw [tokenize]
  rw [if_pos h]

theorem tokenize_ws_list (cs : List Char) (h : ∀ c ∈ cs, jsWhitespaceB c = true)
    (xs : List Char) : tokenize (cs ++ xs) = tokenize xs := by
  induction cs with
  | nil => simp
  | cons c cs ih =>
    rw [List.cons_append, tokenize_ws_char c (h c (by simp)) (cs ++ xs)]
    exact ih (fun d hd => h d (by simp [hd]))

theorem tokenize_lbrace (xs : List Char) :
    tokenize ('\x7b' :: xs) = (tokenize xs).map (ParseUiToken.braceOpen :: ·) := by
  rw [tokenize, if_neg (by decide), if_pos rfl]

theorem tokenize_rbrace (xs : List Char) :
    tokenize ('\x7d' :: xs) = (tokenize xs).map (ParseUiToken.braceClose :: ·) := by
  rw [tokenize, if_neg (by decide), if_neg (by decide), if_pos rfl]

theorem tokenize_lbrack (xs : List Char) :
    tokenize ('[' :: xs) = (tokenize xs).map (ParseUiToken.bracketOpen :: ·) := by
  rw [tokenize, if_neg (by decide), if_neg (by decide), if_neg (by decide), if_pos rfl]

theorem tokenize_rbrack (xs : List Char) :
    tokenize (']' :: xs) = (tokenize xs).map (ParseUiToken.bracketClose :: ·) := by
  rw [tokenize, if_neg (by decide), if_neg (by decide), if_neg (by decide),
    if_neg (by decide), if_pos rfl]

theorem tokenize_colon (xs : List Char) :
    tokenize (':' :: xs) = (tokenize xs).map (ParseUiToken.colon :: ·) := by
  rw [tokenize, if_neg (by decide), if_neg (by decide), if_neg (by decide),
    if_neg (by decide), if_neg (by decide), if_pos rfl]

theorem tokenize_comma (xs : List Char) :
    tokenize (',' :: xs) = (tokenize xs).map (ParseUiToken.comma :: ·) := by
  rw [tokenize, if_neg (by decide), if_neg (by decide), if_neg (by decide),
    if_neg (by decide), if_neg (by decide), if_neg (by decide), if_pos rfl]

theorem tokenize_quoted (s : List Char) (hs : ∀ c ∈ s, jsonSafeB c = true) (xs : List Char) :
    tokenize ('\x22' :: ((s.map jsonEscapeChar).flatten ++ '\x22' :: xs)) =
      (tokenize xs).map (ParseUiToken.str (String.mk s) :: ·) := by
  rw [tokenize, if_neg (by decide), if_neg (by decide), if_neg (by decide),
    if_neg (by decide), if_neg (by decide), if_neg (by decide), if_neg (by decide),
    if_pos (Or.inl rfl)]
  split
  · next e heq =>
    rw [readStringAux_jsonQuote s hs [] xs] at heq
    exact absurd heq (by simp)
  · next val rest heq =>
    rw [readStringAux_jsonQuote s hs [] xs] at heq
    simp only [Except.ok.injEq, Prod.mk.injEq] at heq
    obtain ⟨h1, h2⟩ := heq
    rw [← h1, ← h2]
    simp

/-- Head-character shape of a printed number. -/
theorem formatNumber_head (q : ℚ) :
    ∃ c cs, (formatNumber q).data = c :: cs ∧ (c = '-' ∨ isDigitB c = true) := by
  rw [formatNumber]
  by_cases h1 : q.den = 1
  · rw [if_pos h1, String.mk_data, intDecChars]
    by_cases h2 : q.num < 0
    · rw [if_pos h2]
      exact ⟨'-', _, rfl, Or.inl rfl⟩
    · rw [if_neg h2]
      cases hnc : natDecChars q.num.natAbs with
      | nil => exact absurd hnc (natDecChars_ne_nil _)
      | cons a as =>
        exact ⟨a, as, rfl, Or.inr (natDecChars_digits _ a (by rw [hnc]; simp))⟩
  · rw [if_neg h1, String.mk_data, scaledDecChars]
    by_cases h3 : (⌊q * 10000 + 1 / 2⌋).natAbs % 10000 = 0
    · rw [if_pos h3]
      by_cases h2 : (⌊q * 10000 + 1 / 2⌋ : ℤ) < 0
      · rw [if_pos h2]
        exact ⟨'-', _, rfl, Or.inl rfl⟩
      · rw [if_neg h2]
        simp only [List.nil_append]
        cases hnc : natDecChars ((⌊q * 10000 + 1 / 2⌋).natAbs / 10000) with
        | nil => exact absurd hnc (natDecChars_ne_nil _)
        | cons a as =>
          exact ⟨a, as, rfl, Or.inr (natDecChars_digits _ a (by rw [hnc]; simp))⟩
    · rw [if_neg h3]
      by_cases h2 : (⌊q * 10000 + 1 / 2⌋ : ℤ) < 0
      · rw [if_pos h2]
        exact ⟨'-', _, rfl, Or.inl rfl⟩
      · rw [if_neg h2]
        simp only [List.nil_append]
        cases hnc : natDecChars ((⌊q * 10000 + 1 / 2⌋).natAbs / 10000) with
        | nil => exact absurd hnc (natDecChars_ne_nil _)
        | cons a as =>
          refine ⟨a, as ++ '.' :: dropTrailingZeros
            (natPad4Chars ((⌊q * 10000 + 1 / 2⌋).natAbs % 10000)), ?_,
            Or.inr (natDecChars_digits _ a (by rw [hnc]; simp))⟩
          simp

theorem tokenize_number (q : ℚ) (hq : fourDec q = true) (xs : List Char)
    (hb : numBoundary xs) :
    tokenize ((formatNumber q).data ++ xs) =
      (tokenize xs).map (ParseUiToken.num q :: ·) := by
  obtain ⟨c, cs, hshape, hcls⟩ := formatNumber_head q
  have hspecial : jsWhitespaceB c = false ∧ c ≠ '\x7b' ∧ c ≠ '\x7d' ∧ c ≠ '[' ∧ c ≠ ']' ∧
      c ≠ ':' ∧ c ≠ ',' ∧ c ≠ '\x22' ∧ c ≠ '\x27' := by
    rcases hcls with h | h
    · subst h
      exact ⟨by decide, by decide, by decide, by decide, by decide, by decide, by decide,
        by decide, by decide⟩
    · exact isDigitB_not_special c h
  obtain ⟨hw, hbo, hbc, hko, hkc, hcl, hcm, hdq, hsq⟩ := hspecial
  have hread : readNumber (c :: (cs ++ xs)) = .ok (q, xs) := by
    rw [show c :: (cs ++ xs) = (c :: cs) ++ xs by simp, ← hshape]
    exact readNumber_formatNumber q hq xs hb
  rw [hshape, List.cons_append, tokenize, if_neg (by simp [hw]), if_neg hbo, if_neg hbc,
    if_neg hko, if_neg hkc, if_neg hcl, if_neg hcm,
    if_neg (by simp [hdq, hsq]), if_pos hcls]
  split
  · next e heq =>
    rw [hread] at heq
    exact absurd heq (by simp)
  · next q2 rest heq =>
    rw [hread] at heq
    simp only [Except.ok.injEq, Prod.mk.injEq] at heq
    obtain ⟨h1, h2⟩ := heq
    rw [← h1, ← h2]

theorem tokenize_ident (c : Char) (cs : List Char) (hstart : isIdentStartB c = true)
    (hall : ∀ d ∈ c :: cs, isIdentPartB d = true) (xs : List Char)
    (hb : headNotP isIdentPartB xs) :
    tokenize ((c :: cs) ++ xs) =
      (tokenize xs).map (ParseUiToken.ident (String.mk (c :: cs)) :: ·) := by
  obtain ⟨hw, hbo, hbc, hko, hkc, hcl, hcm, hdq, hsq, hmi, hdig⟩ :=
    isIdentStartB_not_special c hstart
  obtain ⟨ht, hd⟩ := takeWhile_append_boundary isIdentPartB (c :: cs) xs hall hb
  rw [List.cons_append, tokenize, if_neg (by simp [hw]), if_neg hbo, if_neg hbc,
    if_neg hko, if_neg hkc, if_neg hcl, if_neg hcm, if_neg (by simp [hdq, hsq]),
    if_neg (by simp [hmi, hdig]), if_pos hstart]
  rw [List.cons_append] at ht hd
  rw [ht, hd]

/-! ## The lexeme emission framework -/

/-- One lexical unit of the serializer's output text. -/
inductive Lex where
  | ws (cs : List Char)
  | lbrace
  | rbrace
  | lbrack
  | rbrack
  | colonL
  | commaL
  | strL (s : String)
  | numL (q : ℚ)
  | identL (s : String)

/-- The characters a lexeme renders to. -/
def Lex.render : Lex → List Char
  | .ws cs => cs
  | .lbrace => ['\x7b']
  | .rbrace => ['\x7d']
  | .lbrack => ['[']
  | .rbrack => [']']
  | .colonL => [':']
  | .commaL => [',']
  | .strL s => jsonQuoteChars s.data
  | .numL q => (formatNumber q).data
  | .identL s => s.data

/-- The tokens the scanner produces for a lexeme. -/
def Lex.toks : Lex → List ParseUiToken
  | .ws _ => []
  | .lbrace => [.braceOpen]
  | .rbrace => [.braceClose]
  | .lbrack => [.bracketOpen]
  | .rbrack => [.bracketClose]
  | .colonL => [.colon]
  | .commaL => [.comma]
  | .strL s => [.str s]
  | .numL q => [.num q]
  | .identL s => [.ident s]

def renderL (L : List Lex) : List Char := (L.map Lex.render).flatten

def toksL (L : List Lex) : List ParseUiToken := (L.map Lex.toks).flatten

/-- A nonempty identifier over the scanner's identifier alphabet. -/
def identShape (s : String) : Prop :=
  match s.data with
  | [] => False
  | c :: cs => isIdentStartB c = true ∧ ∀ d ∈ c :: cs, isIdentPartB d = true

/-- Well-formedness of an emission against its continuation: whitespace
lexemes hold whitespace, strings hold safe characters, and numbers and
identifiers are followed by characters that cannot extend them. -/
def EmitOk : List Lex → List Char → Prop
  | [], _ => True
  | .ws cs :: L, rest => (∀ c ∈ cs, jsWhitespaceB c = true) ∧ EmitOk L rest
  | .strL s :: L, rest => (∀ c ∈ s.data, jsonSafeB c = true) ∧ EmitOk L rest
  | .numL q :: L, rest => fourDec q = true ∧ numBoundary (renderL L ++ rest) ∧ EmitOk L rest
  | .identL s :: L, rest =>
    identShape s ∧ headNotP isIdentPartB (renderL L ++ rest) ∧ EmitOk L rest
  | _ :: L, rest => EmitOk L rest

theorem renderL_nil : renderL [] = [] := rfl

theorem renderL_cons (l : Lex) (L : List Lex) :
    renderL (l :: L) = l.render ++ renderL L := by simp [renderL]

theorem renderL_append (L1 L2 : List Lex) :
    renderL (L1 ++ L2) = renderL L1 ++ renderL L2 := by simp [renderL]

theorem toksL_nil : toksL [] = [] := rfl

theorem toksL_cons (l : Lex) (L : List Lex) :
    toksL (l :: L) = l.toks ++ toksL L := by simp [toksL]

theorem toksL_append (L1 L2 : List Lex) :
    toksL (L1 ++ L2) = toksL L1 ++ toksL L2 := by simp [toksL]

/-- The scanner turns a well-formed emission into its token list, leaving
the continuation to be scanned separately. -/
theorem tokenize_emission : ∀ (L : List Lex) (rest : List Char), EmitOk L rest →
    tokenize (renderL L ++ rest) = (tokenize rest).map (fun ts => toksL L ++ ts) := by
  intro L
  induction L with
  | nil =>
    intro rest _
    rw [renderL_nil, List.nil_append, toksL_nil]
    cases tokenize rest <;> simp [Except.map]
  | cons l L ih =>
    intro rest hok
    rw [renderL_cons, toksL_cons, List.append_assoc]
    cases l with
    | ws cs =>
      obtain ⟨hws, hok2⟩ := hok
      rw [show Lex.render (.ws cs) = cs from rfl, tokenize_ws_list cs hws, ih rest hok2]
      rfl
    | lbrace =>
      have hok2 : EmitOk L rest := hok
      rw [show Lex.render .lbrace = ['\x7b'] from rfl, List.singleton_append,
        tokenize_lbrace, ih rest hok2]
      cases tokenize rest <;> simp [Except.map, Lex.toks]
    | rbrace =>
      have hok2 : EmitOk L rest := hok
      rw [show Lex.render .rbrace = ['\x7d'] from rfl, List.singleton_append,
        tokenize_rbrace, ih rest hok2]
      cases tokenize rest <;> simp [Except.map, Lex.toks]
    | lbrack =>
      have hok2 : EmitOk L rest := hok
      rw [show Lex.render .lbrack = ['['] from rfl, List.singleton_append,
        tokenize_lbrack, ih rest hok2]
      cases tokenize rest <;> simp [Except.map, Lex.toks]
    | rbrack =>
      have hok2 : EmitOk L rest := hok
      rw [show Lex.render .rbrack = [']'] from rfl, List.singleton_append,
        tokenize_rbrack, ih rest hok2]
      cases tokenize rest <;> simp [Except.map, Lex.toks]
    | colonL =>
      have hok2 : EmitOk L rest := hok
      rw [show Lex.render .colonL = [':'] from rfl, List.singleton_append,
        tokenize_colon, ih rest hok2]
      cases tokenize rest <;> simp [Except.map, Lex.toks]
    | commaL =>
      have hok2 : EmitOk L rest := hok
      rw [show Lex.render .commaL = [','] from rfl, List.singleton_append,
        tokenize_comma, ih rest hok2]
      cases tokenize rest <;> simp [Except.map, Lex.toks]
    | strL s =>
      obtain ⟨hsafe, hok2⟩ := hok
      rw [show Lex.render (.strL s) = jsonQuoteChars s.data from rfl, jsonQuoteChars]
      simp only [List.cons_append, List.append_assoc, List.singleton_append]
      rw [tokenize_quoted s.data hsafe]
      simp only [List.nil_append]
      rw [ih rest hok2]
      have hmk : String.mk s.data = s := by cases s; rfl
      rw [hmk]
      cases tokenize rest <;> simp [Except.map, Lex.toks]
    | numL q =>
      obtain ⟨hq, hb, hok2⟩ := hok
      rw [show Lex.render (.numL q) = (formatNumber q).data from rfl]
      rw [tokenize_number q hq (renderL L ++ rest) hb, ih rest hok2]
      cases tokenize rest <;> simp [Except.map, Lex.toks]
    | identL s =>
      obtain ⟨hid, hb, hok2⟩ := hok
      rw [show Lex.render (.identL s) = s.data from rfl]
      obtain ⟨c, cs, hdata, hstart, hall⟩ :
          ∃ c cs, s.data = c :: cs ∧ isIdentStartB c = true ∧
            ∀ d ∈ c :: cs, isIdentPartB d = true := by
        rcases hsd : s.data with _ | ⟨c, cs⟩
        · rw [identShape, hsd] at hid
          exact absurd hid (by simp)
        · rw [identShape, hsd] at hid
          exact ⟨c, cs, rfl, hid.1, hid.2⟩
      rw [hdata, tokenize_ident c cs hstart hall (renderL L ++ rest) hb, ih rest hok2]
      have hmk : String.mk (c :: cs) = s := by
        rw [← hdata]
      rw [hmk]
      cases tokenize rest <;> simp [Except.map, Lex.toks]

/-- `EmitOk` is compositional: a first emission whose continuation is the
second emission's render, followed by a well-formed second emission. -/
theorem emitOk_append : ∀ (L1 L2 : List Lex) (rest : List Char),
    EmitOk L1 (renderL L2 ++ rest) → EmitOk L2 rest → EmitOk (L1 ++ L2) rest := by
  intro L1
  induction L1 with
  | nil => intro L2 rest _ h2; simpa using h2
  | cons l L ih =>
    intro L2 rest h1 h2
    cases l with
    | ws cs =>
      obtain ⟨ha, hb⟩ := h1
      exact ⟨ha, ih L2 rest hb h2⟩
    | strL s =>
      obtain ⟨ha, hb⟩ := h1
      exact ⟨ha, ih L2 rest hb h2⟩
    | numL q =>
      obtain ⟨ha, hnb, hb⟩ := h1
      refine ⟨ha, ?_, ih L2 rest hb h2⟩
      have hre : renderL (L ++ L2) = renderL L ++ renderL L2 := renderL_append L L2
      show numBoundary (renderL (L ++ L2) ++ rest)
      rw [hre, List.append_assoc]
      exact hnb
    | identL s =>
      obtain ⟨ha, hnb, hb⟩ := h1
      refine ⟨ha, ?_, ih L2 rest hb h2⟩
      have hre : renderL (L ++ L2) = renderL L ++ renderL L2 := renderL_append L L2
      show headNotP isIdentPartB (renderL (L ++ L2) ++ rest)
      rw [hre, List.append_assoc]
      exact hnb
    | lbrace => exact ih L2 rest h1 h2
    | rbrace => exact ih L2 rest h1 h2
    | lbrack => exact ih L2 rest h1 h2
    | rbrack => exact ih L2 rest h1 h2
    | colonL => exact ih L2 rest h1 h2
    | commaL => exact ih L2 rest h1 h2

/-! ## Parser success framework: token sequences and the values they parse to -/

/-- A token sequence paired with the value `parseValue` produces for it. -/
structure TokVal where
  toks : List ParseUiToken
  val : JValue

/-- The sequence is nonempty, does not start with a list closer (so the
array/object loops fall through to their item branches), and `parseValue`
consumes exactly it — with an arbitrary fuel surplus, so call sites can
align budgets exactly. -/
def ValSpec (tv : TokVal) : Prop :=
  (match tv.toks with
   | [] => False
   | t :: _ => t ≠ .braceClose ∧ t ≠ .bracketClose) ∧
  ∀ (g : ℕ) (rest : List ParseUiToken),
    parseValueF (g + tv.toks.length + 1) (tv.toks ++ rest) = .ok (tv.val, rest)

theorem ValSpec.shape (tv : TokVal) (h : ValSpec tv) :
    ∃ t ts, tv.toks = t :: ts ∧ t ≠ .braceClose ∧ t ≠ .bracketClose := by
  obtain ⟨h1, -⟩ := h
  rcases hts : tv.toks with _ | ⟨t, ts⟩
  · rw [hts] at h1; exact absurd h1 (by simp)
  · rw [hts] at h1; exact ⟨t, ts, rfl, h1.1, h1.2⟩

theorem parseValue_num (q : ℚ) (g : ℕ) (rest : List ParseUiToken) :
    parseValueF (g + 1 + 1) (ParseUiToken.num q :: rest) = .ok (.num q, rest) := by
  rw [parseValueF]

theorem valSpec_num (q : ℚ) : ValSpec ⟨[.num q], .num q⟩ := by
  refine ⟨by simp, ?_⟩
  intro g rest
  exact parseValue_num q g rest

theorem parseValue_str (s : String) (g : ℕ) (rest : List ParseUiToken) :
    parseValueF (g + 1 + 1) (ParseUiToken.str s :: rest) = .ok (.str s, rest) := by
  rw [parseValueF]

theorem valSpec_str (s : String) : ValSpec ⟨[.str s], .str s⟩ := by
  refine ⟨by simp, ?_⟩
  intro g rest
  exact parseValue_str s g rest

theorem parseValue_ident (s : String) (v : JValue)
    (h : resolveIdentifierToken s = .ok v) (g : ℕ) (rest : List ParseUiToken) :
    parseValueF (g + 1 + 1) (ParseUiToken.ident s :: rest) = .ok (v, rest) := by
  rw [parseValueF]
  rw [h]

theorem valSpec_ident (s : String) (v : JValue)
    (h : resolveIdentifierToken s = .ok v) : ValSpec ⟨[.ident s], v⟩ := by
  refine ⟨by simp, ?_⟩
  intro g rest
  exact parseValue_ident s v h g rest

/-- The comma-prefixed token run of the remaining object entries. -/
def entryToksT : List (String × TokVal) → List ParseUiToken
  | [] => []
  | e :: tl => .comma :: .ident e.1 :: .colon :: (e.2.toks ++ entryToksT tl)

/-- The object token sequence: `{ k₁ : v₁ , k₂ : v₂ , … }`. -/
def objToks (es : List (String × TokVal)) : List ParseUiToken :=
  .braceOpen ::
    ((match es with
      | [] => []
      | e :: tl => .ident e.1 :: .colon :: (e.2.toks ++ entryToksT tl)) ++ [.braceClose])

/-- The object accumulator update performed by the loop. -/
def applyEntries (acc : List (String × JValue)) :
    List (String × TokVal) → List (String × JValue)
  | [] => acc
  | e :: tl => applyEntries (setKey acc e.1 e.2.val) tl

theorem parseObjectFields_loop : ∀ (es : List (String × TokVal)),
    (∀ e ∈ es, ValSpec e.2) →
    ∀ (g : ℕ) (acc : List (String × JValue)) (rest : List ParseUiToken),
    parseObjectFieldsF (g + (entryToksT es).length + 1) acc true
      (entryToksT es ++ .braceClose :: rest) = .ok (.obj (applyEntries acc es), rest) := by
  intro es
  induction es with
  | nil =>
    intro _ g acc rest
    rw [entryToksT]
    rw [List.nil_append]
    rw [parseObjectFieldsF]
    rfl
  | cons e tl ih =>
    intro hes g acc rest
    have hv : ValSpec e.2 := hes e (by simp)
    have htl : ∀ x ∈ tl, ValSpec x.2 := fun x hx => hes x (by simp [hx])
    set a := e.2.toks.length with ha
    set b := (entryToksT tl).length with hb
    have hlen : (entryToksT (e :: tl)).length = 3 + a + b := by
      rw [entryToksT]; simp [ha, hb]; omega
    rw [hlen]
    rw [show g + (3 + a + b) + 1 = (g + a + b + 3) + 1 by omega]
    rw [entryToksT]
    rw [show (ParseUiToken.comma :: ParseUiToken.ident e.1 :: ParseUiToken.colon ::
      (e.2.toks ++ entryToksT tl)) ++ ParseUiToken.braceClose :: rest =
      ParseUiToken.comma :: ParseUiToken.ident e.1 :: ParseUiToken.colon ::
      (e.2.toks ++ (entryToksT tl ++ ParseUiToken.braceClose :: rest)) by simp]
    rw [parseObjectFieldsF]
    show parseObjectPairF (g + a + b + 3) acc (ParseUiToken.ident e.1 ::
      ParseUiToken.colon :: (e.2.toks ++ (entryToksT tl ++ ParseUiToken.braceClose :: rest))) =
      _
    rw [show g + a + b + 3 = (g + a + b + 2) + 1 by omega]
    rw [parseObjectPairF]
    rw [show g + a + b + 2 + 1 = (g + b + 2) + a + 1 by omega]
    rw [hv.2 (g + b + 2) (entryToksT tl ++ ParseUiToken.braceClose :: rest)]
    show parseObjectFieldsF (g + a + b + 2) (setKey acc e.1 e.2.val) true
      (entryToksT tl ++ ParseUiToken.braceClose :: rest) = _
    rw [show g + a + b + 2 = (g + a + 1) + b + 1 by omega]
    rw [ih htl (g + a + 1) (setKey acc e.1 e.2.val) rest]
    all_goals first | rfl | simp

theorem parseValue_obj (es : List (String × TokVal)) (hes : ∀ e ∈ es, ValSpec e.2)
    (g : ℕ) (rest : List ParseUiToken) :
    parseValueF (g + (objToks es).length + 1) (objToks es ++ rest) =
      .ok (.obj (applyEntries [] es), rest) := by
  cases es with
  | nil =>
    rw [show (objToks []).length = 2 from rfl]
    rw [show objToks [] ++ rest =
      ParseUiToken.braceOpen :: ParseUiToken.braceClose :: rest by simp [objToks]]
    rw [show g + 2 + 1 = (g + 2) + 1 by omega]
    rw [parseValueF]
    rw [parseObjectFieldsF]
    rfl
  | cons e tl =>
    have hv : ValSpec e.2 := hes e (by simp)
    have htl : ∀ x ∈ tl, ValSpec x.2 := fun x hx => hes x (by simp [hx])
    set a := e.2.toks.length with ha
    set b := (entryToksT tl).length with hb
    have hlen : (objToks (e :: tl)).length = a + b + 4 := by
      rw [objToks]; simp [ha, hb]; omega
    rw [hlen]
    rw [show objToks (e :: tl) ++ rest =
      ParseUiToken.braceOpen :: ParseUiToken.ident e.1 :: ParseUiToken.colon ::
      (e.2.toks ++ (entryToksT tl ++ ParseUiToken.braceClose :: rest)) by simp [objToks]]
    rw [show g + (a + b + 4) + 1 = (g + a + b + 4) + 1 by omega]
    rw [parseValueF]
    show parseObjectFieldsF (g + a + b + 4) [] false (ParseUiToken.ident e.1 ::
      ParseUiToken.colon :: (e.2.toks ++ (entryToksT tl ++ ParseUiToken.braceClose :: rest))) =
      _
    rw [show g + a + b + 4 = (g + a + b + 3) + 1 by omega]
    rw [parseObjectFieldsF]
    show parseObjectPairF (g + a + b + 3) [] (ParseUiToken.ident e.1 ::
      ParseUiToken.colon :: (e.2.toks ++ (entryToksT tl ++ ParseUiToken.braceClose :: rest))) =
      _
    rw [show g + a + b + 3 = (g + a + b + 2) + 1 by omega]
    rw [parseObjectPairF]
    rw [show g + a + b + 2 + 1 = (g + b + 2) + a + 1 by omega]
    rw [hv.2 (g + b + 2) (entryToksT tl ++ ParseUiToken.braceClose :: rest)]
    show parseObjectFieldsF (g + a + b + 2) (setKey [] e.1 e.2.val) true
      (entryToksT tl ++ ParseUiToken.braceClose :: rest) = _
    rw [show g + a + b + 2 = (g + a + 1) + b + 1 by omega]
    rw [parseObjectFields_loop tl htl (g + a + 1) (setKey [] e.1 e.2.val) rest]
    all_goals first | rfl | simp

/-- The comma-prefixed token run of the remaining array items. -/
def itemToksT : List TokVal → List ParseUiToken
  | [] => []
  | v :: tl => .comma :: (v.toks ++ itemToksT tl)

/-- The array token sequence: `[ v₁ , v₂ , … ]`. -/
def arrToks (vs : List TokVal) : List ParseUiToken :=
  .bracketOpen ::
    ((match vs with
      | [] => []
      | v :: tl => v.toks ++ itemToksT tl) ++ [.bracketClose])

theorem parseArrayItems_loop : ∀ (vs : List TokVal), (∀ v ∈ vs, ValSpec v) →
    ∀ (g : ℕ) (acc : List JValue) (rest : List ParseUiToken),
    parseArrayItemsF (g + (itemToksT vs).length + 1) acc true
      (itemToksT vs ++ .bracketClose :: rest) =
      .ok (.arr (acc ++ vs.map (fun v => v.val)), rest) := by
  intro vs
  induction vs with
  | nil =>
    intro _ g acc rest
    rw [itemToksT]
    rw [List.nil_append]
    rw [parseArrayItemsF]
    simp
  | cons v tl ih =>
    intro hvs g acc rest
    have hv : ValSpec v := hvs v (by simp)
    have htl : ∀ x ∈ tl, ValSpec x := fun x hx => hvs x (by simp [hx])
    obtain ⟨t0, ts0, hshape, -, -⟩ := ValSpec.shape v hv
    set b := (itemToksT tl).length with hb
    have ha : v.toks.length = ts0.length + 1 := by rw [hshape]; simp
    have hlen : (itemToksT (v :: tl)).length = 1 + (ts0.length + 1) + b := by
      rw [itemToksT]; simp [ha, hb]; omega
    rw [hlen]
    set a1 := ts0.length with ha1
    rw [show g + (1 + (a1 + 1) + b) + 1 = (g + a1 + b + 2) + 1 by omega]
    rw [itemToksT]
    rw [show (ParseUiToken.comma :: (v.toks ++ itemToksT tl)) ++
      ParseUiToken.bracketClose :: rest =
      ParseUiToken.comma :: (v.toks ++ (itemToksT tl ++ ParseUiToken.bracketClose :: rest))
      by simp]
    rw [parseArrayItemsF]
    show parseArrayItemF (g + a1 + b + 2) acc
      (v.toks ++ (itemToksT tl ++ ParseUiToken.bracketClose :: rest)) = _
    rw [show g + a1 + b + 2 = (g + a1 + b + 1) + 1 by omega]
    rw [parseArrayItemF]
    rw [show g + a1 + b + 1 + 1 = (g + b) + (a1 + 1) + 1 by omega]
    rw [← ha]
    rw [hv.2 (g + b) (itemToksT tl ++ ParseUiToken.bracketClose :: rest)]
    show parseArrayItemsF (g + a1 + b + 1) (acc ++ [v.val]) true
      (itemToksT tl ++ ParseUiToken.bracketClose :: rest) = _
    rw [show g + a1 + b + 1 = (g + a1) + b + 1 by omega]
    rw [ih htl (g + a1) (acc ++ [v.val]) rest]
    all_goals simp

theorem parseValue_arr (vs : List TokVal) (hvs : ∀ v ∈ vs, ValSpec v)
    (g : ℕ) (rest : List ParseUiToken) :
    parseValueF (g + (arrToks vs).length + 1) (arrToks vs ++ rest) =
      .ok (.arr (vs.map (fun v => v.val)), rest) := by
  cases vs with
  | nil =>
    rw [show (arrToks []).length = 2 from rfl]
    rw [show arrToks [] ++ rest =
      ParseUiToken.bracketOpen :: ParseUiToken.bracketClose :: rest by simp [arrToks]]
    rw [show g + 2 + 1 = (g + 2) + 1 by omega]
    rw [parseValueF]
    rw [parseArrayItemsF]
    rfl
  | cons v tl =>
    have hv : ValSpec v := hvs v (by simp)
    have htl : ∀ x ∈ tl, ValSpec x := fun x hx => hvs x (by simp [hx])
    obtain ⟨t0, ts0, hshape, -, hnotbk⟩ := ValSpec.shape v hv
    set b := (itemToksT tl).length with hb
    have ha : v.toks.length = ts0.length + 1 := by rw [hshape]; simp
    set a1 := ts0.length with ha1
    have hlen : (arrToks (v :: tl)).length = a1 + b + 3 := by
      rw [arrToks, hshape]; simp [hb]; omega
    rw [hlen]
    have hlist : arrToks (v :: tl) ++ rest =
        ParseUiToken.bracketOpen :: (t0 ::
          (ts0 ++ (itemToksT tl ++ ParseUiToken.bracketClose :: rest))) := by
      rw [arrToks, hshape]
      simp
    rw [hlist]
    rw [show g + (a1 + b + 3) + 1 = (g + a1 + b + 3) + 1 by omega]
    rw [parseValueF]
    show parseArrayItemsF (g + a1 + b + 3) [] false
      (t0 :: (ts0 ++ (itemToksT tl ++ ParseUiToken.bracketClose :: rest))) = _
    rw [show g + a1 + b + 3 = (g + a1 + b + 2) + 1 by omega]
    have hstep : parseArrayItemsF ((g + a1 + b + 2) + 1) [] false
        (t0 :: (ts0 ++ (itemToksT tl ++ ParseUiToken.bracketClose :: rest))) =
        parseArrayItemF (g + a1 + b + 2) []
          (t0 :: (ts0 ++ (itemToksT tl ++ ParseUiToken.bracketClose :: rest))) := by
      cases t0 with
      | bracketClose => exact absurd rfl hnotbk
      | braceOpen => rw [parseArrayItemsF]; all_goals simp
      | braceClose => rw [parseArrayItemsF]; all_goals simp
      | bracketOpen => rw [parseArrayItemsF]; all_goals simp
      | colon => rw [parseArrayItemsF]; all_goals simp
      | comma => rw [parseArrayItemsF]; all_goals simp
      | str s => rw [parseArrayItemsF]; all_goals simp
      | num q => rw [parseArrayItemsF]; all_goals simp
      | ident s => rw [parseArrayItemsF]; all_goals simp
    rw [hstep]
    rw [show g + a1 + b + 2 = (g + a1 + b + 1) + 1 by omega]
    rw [parseArrayItemF]
    rw [show g + a1 + b + 1 + 1 = (g + b) + (a1 + 1) + 1 by omega]
    have htoks : t0 :: (ts0 ++ (itemToksT tl ++ ParseUiToken.bracketClose :: rest)) =
        v.toks ++ (itemToksT tl ++ ParseUiToken.bracketClose :: rest) := by
      rw [hshape]; simp
    rw [htoks, ← ha]
    rw [hv.2 (g + b) (itemToksT tl ++ ParseUiToken.bracketClose :: rest)]
    show parseArrayItemsF (g + a1 + b + 1) [v.val] true
      (itemToksT tl ++ ParseUiToken.bracketClose :: rest) = _
    rw [show g + a1 + b + 1 = (g + a1) + b + 1 by omega]
    rw [parseArrayItems_loop tl htl (g + a1) [v.val] rest]
    all_goals simp

/-- Every object token sequence satisfies `ValSpec` with the looped-up
accumulator as its value. -/
theorem valSpec_obj (es : List (String × TokVal)) (hes : ∀ e ∈ es, ValSpec e.2) :
    ValSpec ⟨objToks es, .obj (applyEntries [] es)⟩ := by
  refine ⟨by simp [objToks], ?_⟩
  intro g rest
  exact parseValue_obj es hes g rest

theorem valSpec_arr (vs : List TokVal) (hvs : ∀ v ∈ vs, ValSpec v) :
    ValSpec ⟨arrToks vs, .arr (vs.map (fun v => v.val))⟩ := by
  refine ⟨by simp [arrToks], ?_⟩
  intro g rest
  exact parseValue_arr vs hvs g rest

/-! ## Distinct keys: the loop builds the plain association list -/

theorem setKey_fresh : ∀ (fields : List (String × JValue)) (key : String) (v : JValue),
    (∀ p ∈ fields, p.1 ≠ key) → setKey fields key v = fields ++ [(key, v)] := by
  intro fields
  induction fields with
  | nil => intro key v _; rfl
  | cons p tl ih =>
    intro key v h
    obtain ⟨k0, v0⟩ := p
    rw [setKey]
    rw [if_neg (h (k0, v0) (by simp))]
    rw [ih key v (fun x hx => h x (by simp [hx]))]
    simp

theorem applyEntries_fresh : ∀ (es : List (String × TokVal)) (acc : List (String × JValue)),
    (acc.map Prod.fst ++ es.map Prod.fst).Nodup →
    applyEntries acc es = acc ++ es.map (fun e => (e.1, e.2.val)) := by
  intro es
  induction es with
  | nil => intro acc _; simp [applyEntries]
  | cons e tl ih =>
    intro acc hnd
    rw [applyEntries]
    have hmid : (acc.map Prod.fst ++ e.1 :: tl.map Prod.fst).Nodup := by
      simpa using hnd
    rw [List.nodup_middle, List.nodup_cons] at hmid
    obtain ⟨hnotin, hnd2⟩ := hmid
    have hfresh : ∀ p ∈ acc, p.1 ≠ e.1 := by
      intro p hp he
      exact hnotin (List.mem_append.mpr (Or.inl (he ▸ List.mem_map_of_mem Prod.fst hp)))
    rw [setKey_fresh acc e.1 e.2.val hfresh]
    have hnd3 : ((acc ++ [(e.1, e.2.val)]).map Prod.fst ++ tl.map Prod.fst).Nodup := by
      simp only [List.map_append, List.map_cons, List.map_nil, List.append_assoc,
        List.singleton_append]
      simpa using hnd
    rw [ih (acc ++ [(e.1, e.2.val)]) hnd3]
    simp

/-! ## Per-property specifications -/

/-- One single-line property of the serialized record: its key, the
formatted value text, the value's lexemes, and the token sequence / parsed
value the importer sees for it. -/
structure PropSpec where
  key : String
  vstr : String
  vlex : List Lex
  tv : TokVal

/-- A string-valued property (`formatString`). -/
def strProp (key : String) (s : String) : PropSpec :=
  ⟨key, formatString s, [.strL s], ⟨[.str s], .str s⟩⟩

/-- A number-valued property (`formatNumber`). -/
def numProp (key : String) (q : ℚ) : PropSpec :=
  ⟨key, formatNumber q, [.numL q], ⟨[.num q], .num q⟩⟩

/-- A boolean property (`formatBoolean`): rendered as the identifier
`true`/`false`, resolved back to a boolean. -/
def boolProp (key : String) (b : Bool) : PropSpec :=
  ⟨key, formatBoolean b, [.identL (formatBoolean b)], ⟨[.ident (formatBoolean b)], .bool b⟩⟩

/-- The lexemes of `formatNumberArray`. -/
def arrLexes (vs : List ℚ) : List Lex :=
  match vs with
  | [] => [.lbrack, .rbrack]
  | v :: tl =>
    .lbrack :: .numL v :: (tl.flatMap (fun q => [.commaL, .ws [' '], .numL q]) ++ [.rbrack])

/-- A number-array property (`formatNumberArray`). -/
def arrProp (key : String) (vs : List ℚ) : PropSpec :=
  ⟨key, formatNumberArray vs, arrLexes vs,
    ⟨arrToks (vs.map (fun q => ⟨[.num q], .num q⟩)), .arr (vs.map (fun q => .num q))⟩⟩

/-- An enum property (`formatEnumValue`): rendered as the qualified member
identifier, resolved back to the ordinal. -/
def enumProp (key enumName : String) (enumRev : ℕ → Option String) (value : ℕ) : PropSpec :=
  ⟨key, formatEnumValue enumName enumRev value,
    [.identL (formatEnumValue enumName enumRev value)],
    ⟨[.ident (formatEnumValue enumName enumRev value)], .num (value : ℚ)⟩⟩

/-- The `textLabel` property (`formatTextLabel`): a table-resolved name
renders as the `mod.stringkeys.…` identifier — which the importer turns
into that identifier STRING, not back into the original label text. -/
def labelProp (f : UIFields) (strings : StrTable) : PropSpec :=
  match getLocalizationKey f strings with
  | some key =>
    ⟨"textLabel", "mod.stringkeys." ++ replaceFirst key ' ' '_',
      [.identL ("mod.stringkeys." ++ replaceFirst key ' ' '_')],
      ⟨[.ident ("mod.stringkeys." ++ replaceFirst key ' ' '_')],
        .str ("mod.stringkeys." ++ replaceFirst key ' ' '_')⟩⟩
  | none => strProp "textLabel" f.textLabel

/-- The always-present properties, in emission order. -/
def baseProps (f : UIFields) : List PropSpec :=
  [strProp "name" f.name,
   strProp "type" f.type.str,
   arrProp "position" f.position,
   arrProp "size" f.size,
   enumProp "anchor" "UIAnchor" uiAnchorName f.anchor,
   boolProp "visible" f.visible,
   numProp "padding" f.padding,
   arrProp "bgColor" f.bgColor,
   numProp "bgAlpha" f.bgAlpha,
   enumProp "bgFill" "UIBgFill" uiBgFillName f.bgFill]

/-- The Text-only properties. -/
def textProps (f : UIFields) (strings : StrTable) : List PropSpec :=
  [labelProp f strings,
   arrProp "textColor" f.textColor,
   numProp "textAlpha" f.textAlpha,
   numProp "textSize" f.textSize,
   enumProp "textAnchor" "UIAnchor" uiAnchorName f.textAnchor]

/-- The Image-only properties. -/
def imageProps (f : UIFields) : List PropSpec :=
  [enumProp "imageType" "UIImageType" uiImageTypeName f.imageType,
   arrProp "imageColor" f.imageColor,
   numProp "imageAlpha" f.imageAlpha]

/-- The Button-only properties; `buttonEnabled` is the hardcoded line
`buttonEnabled: true`. -/
def buttonProps (f : UIFields) : List PropSpec :=
  [⟨"buttonEnabled", "true", [.identL "true"], ⟨[.ident "true"], .bool true⟩⟩,
   arrProp "buttonColorBase" f.buttonColorBase,
   numProp "buttonAlphaBase" f.buttonAlphaBase,
   arrProp "buttonColorDisabled" f.buttonColorDisabled,
   numProp "buttonAlphaDisabled" f.buttonAlphaDisabled,
   arrProp "buttonColorPressed" f.buttonColorPressed,
   numProp "buttonAlphaPressed" f.buttonAlphaPressed,
   arrProp "buttonColorHover" f.buttonColorHover,
   numProp "buttonAlphaHover" f.buttonAlphaHover,
   arrProp "buttonColorFocused" f.buttonColorFocused,
   numProp "buttonAlphaFocused" f.buttonAlphaFocused]

/-- All single-line properties of a node, in emission order. -/
def nodeProps (f : UIFields) (strings : StrTable) : List PropSpec :=
  baseProps f ++
    (if f.type = ElemType.Text then textProps f strings else []) ++
    (if f.type = ElemType.Image then imageProps f else []) ++
    (if f.type = ElemType.Button then buttonProps f else [])

/-- The lexemes of one property line: indent, key, colon, space, value. -/
def propLineLex (ind : ℕ) (pr : PropSpec) : List Lex :=
  .ws (List.replicate (2 * ind) ' ') :: .identL pr.key :: .colonL :: .ws [' '] :: pr.vlex

/-- Lexeme-line mirror of `addComma`. -/
def lexAddComma : List (List Lex) → List (List Lex)
  | [] => []
  | [l] => [l ++ [.commaL]]
  | l :: rest => l :: lexAddComma rest

/-- Lexeme-line mirror of `joinCommaBlocks`. -/
def lexJoinCommaBlocks : List (List (List Lex)) → List (List Lex)
  | [] => []
  | [b] => b
  | b :: rest => lexAddComma b ++ lexJoinCommaBlocks rest

mutual

/-- Lexeme-line mirror of `serializeParamLines`. -/
def emitParamLines (p : UIParams) (lvl : ℕ) (strings : StrTable) : List (List Lex) :=
  match p with
  | .node f children =>
    ([.ws (List.replicate (2 * lvl) ' '), .lbrace]) ::
      lexJoinCommaBlocks
        ((nodeProps f strings).map (fun pr => [propLineLex (lvl + 1) pr]) ++
          (if children.length ≠ 0 then
            [[.ws (List.replicate (2 * (lvl + 1)) ' '), .identL "children", .colonL,
                .ws [' '], .lbrack] ::
              (lexJoinCommaBlocks (emitChildLines children (lvl + 2) strings) ++
                [[.ws (List.replicate (2 * (lvl + 1)) ' '), .rbrack]])]
          else [])) ++
      [[.ws (List.replicate (2 * lvl) ' '), .rbrace]]

/-- Lexeme-line mirror of `serializeChildLines`. -/
def emitChildLines : List UIParams → ℕ → StrTable → List (List (List Lex))
  | [], _, _ => []
  | c :: rest, lvl, strings =>
    emitParamLines c lvl strings :: emitChildLines rest lvl strings

end

/-- Join lexeme lines with newline whitespace (the `'\n'` of the string
join). -/
def interNLex : List (List Lex) → List Lex
  | [] => []
  | [l] => l
  | l :: ls => l ++ (.ws ['\n'] :: interNLex ls)

/-- The object entry a property contributes. -/
def propEntry (pr : PropSpec) : String × TokVal := (pr.key, pr.tv)

mutual

/-- The object entries of a node's record, children entry included. -/
def nodeEntries (f : UIFields) (children : List UIParams) (strings : StrTable) :
    List (String × TokVal) :=
  (nodeProps f strings).map propEntry ++
    (if children.length ≠ 0 then
      [("children", ⟨arrToks (childTokVals children strings),
        .arr ((childTokVals children strings).map (fun v => v.val))⟩)]
    else [])
termination_by (sizeOf children, 1)

/-- The token sequence and parsed value of one whole node. -/
def nodeTokVal : UIParams → StrTable → TokVal
  | .node f children, strings =>
    ⟨objToks (nodeEntries f children strings),
      .obj ((nodeEntries f children strings).map (fun e => (e.1, e.2.val)))⟩
termination_by p _ => (sizeOf p, 2)

/-- The token/value pairs of a children list. -/
def childTokVals : List UIParams → StrTable → List TokVal
  | [], _ => []
  | c :: rest, strings => nodeTokVal c strings :: childTokVals rest strings
termination_by cs _ => (sizeOf cs, 0)

end

/-! ## The canonical class and the round-trip transform -/

/-- A canonical node name: nonempty, over the identifier alphabet
`[A-Za-z0-9_.]` (no spaces, so `trim` and the first-space underscore
replacement leave it unchanged, and the `mod.stringkeys.` reference it may
produce scans as one identifier token). -/
def canonicalName (s : String) : Bool := !s.data.isEmpty && s.data.all isIdentPartB

/-- A canonical vector: nonempty (an empty array would be replaced by the
default on import) with four-decimal-exact entries. -/
def canonicalVec (vs : List ℚ) : Bool := decide (vs ≠ []) && vs.all fourDec

/-- Canonical per-node fields: identifier-like name, canonical vectors and
numbers, in-range enum ordinals, and (for Text) a label whose characters
survive the escape/unescape round trip.  Only fields the serializer emits
for the node's type are constrained. -/
def canonicalFields (f : UIFields) : Bool :=
  canonicalName f.name && canonicalVec f.position && canonicalVec f.size &&
  decide (f.anchor < 9) && fourDec f.padding && canonicalVec f.bgColor &&
  fourDec f.bgAlpha && decide (f.bgFill < 9) &&
  (match f.type with
   | ElemType.Text =>
     f.textLabel.data.all jsonSafeB && canonicalVec f.textColor &&
       fourDec f.textAlpha && fourDec f.textSize && decide (f.textAnchor < 9)
   | ElemType.Image =>
     decide (f.imageType < 8) && canonicalVec f.imageColor && fourDec f.imageAlpha
   | ElemType.Button =>
     canonicalVec f.buttonColorBase && fourDec f.buttonAlphaBase &&
       canonicalVec f.buttonColorDisabled && fourDec f.buttonAlphaDisabled &&
       canonicalVec f.buttonColorPressed && fourDec f.buttonAlphaPressed &&
       canonicalVec f.buttonColorHover && fourDec f.buttonAlphaHover &&
       canonicalVec f.buttonColorFocused && fourDec f.buttonAlphaFocused
   | ElemType.Container => true)

mutual

/-- A canonical tree: canonical fields at every node. -/
def canonicalTree : UIParams → Bool
  | .node f cs => canonicalFields f && canonicalForest cs

def canonicalForest : List UIParams → Bool
  | [] => true
  | p :: ps => canonicalTree p && canonicalForest ps

end

/-- What one round trip does to a node's fields: `name`, `type`,
`position`, `size`, `anchor` and the always-serialized appearance fields
come back unchanged; type-specific fields come back unchanged EXCEPT that a
Button's `buttonEnabled` is forced to `true` and a table-resolved Text
label comes back as the `mod.stringkeys.…` reference (first space of the
key underscored); fields that were not serialized are backfilled from
`DEFAULT_UI_PARAMS` (with `buttonEnabled`'s fallback being `false`). -/
def roundTripFields (f : UIFields) (strings : StrTable) : UIFields where
  name := f.name
  type := f.type
  position := f.position
  size := f.size
  anchor := f.anchor
  visible := f.visible
  textLabel :=
    if f.type = ElemType.Text then
      (match getLocalizationKey f strings with
       | some key => "mod.stringkeys." ++ replaceFirst key ' ' '_'
       | none => f.textLabel)
    else DEFAULT_UI_PARAMS.textLabel
  textColor := if f.type = ElemType.Text then f.textColor else DEFAULT_UI_PARAMS.textColor
  textAlpha := if f.type = ElemType.Text then f.textAlpha else DEFAULT_UI_PARAMS.textAlpha
  textSize := if f.type = ElemType.Text then f.textSize else DEFAULT_UI_PARAMS.textSize
  textAnchor := if f.type = ElemType.Text then f.textAnchor else DEFAULT_UI_PARAMS.textAnchor
  padding := f.padding
  bgColor := f.bgColor
  bgAlpha := f.bgAlpha
  bgFill := f.bgFill
  imageType := if f.type = ElemType.Image then f.imageType else DEFAULT_UI_PARAMS.imageType
  imageColor := if f.type = ElemType.Image then f.imageColor else DEFAULT_UI_PARAMS.imageColor
  imageAlpha := if f.type = ElemType.Image then f.imageAlpha else DEFAULT_UI_PARAMS.imageAlpha
  buttonEnabled := if f.type = ElemType.Button then true else false
  buttonColorBase :=
    if f.type = ElemType.Button then f.buttonColorBase else DEFAULT_UI_PARAMS.buttonColorBase
  buttonAlphaBase :=
    if f.type = ElemType.Button then f.buttonAlphaBase else DEFAULT_UI_PARAMS.buttonAlphaBase
  buttonColorDisabled :=
    if f.type = ElemType.Button then f.buttonColorDisabled
    else DEFAULT_UI_PARAMS.buttonColorDisabled
  buttonAlphaDisabled :=
    if f.type = ElemType.Button then f.buttonAlphaDisabled
    else DEFAULT_UI_PARAMS.buttonAlphaDisabled
  buttonColorPressed :=
    if f.type = ElemType.Button then f.buttonColorPressed
    else DEFAULT_UI_PARAMS.buttonColorPressed
  buttonAlphaPressed :=
    if f.type = ElemType.Button then f.buttonAlphaPressed
    else DEFAULT_UI_PARAMS.buttonAlphaPressed
  buttonColorHover :=
    if f.type = ElemType.Button then f.buttonColorHover else DEFAULT_UI_PARAMS.buttonColorHover
  buttonAlphaHover :=
    if f.type = ElemType.Button then f.buttonAlphaHover else DEFAULT_UI_PARAMS.buttonAlphaHover
  buttonColorFocused :=
    if f.type = ElemType.Button then f.buttonColorFocused
    else DEFAULT_UI_PARAMS.buttonColorFocused
  buttonAlphaFocused :=
    if f.type = ElemType.Button then f.buttonAlphaFocused
    else DEFAULT_UI_PARAMS.buttonAlphaFocused

mutual

/-- The round-trip transform on whole trees. -/
def roundTrip (strings : StrTable) : UIParams → UIParams
  | .node f cs => .node (roundTripFields f strings) (roundTripList strings cs)

def roundTripList (strings : StrTable) : List UIParams → List UIParams
  | [] => []
  | c :: rest => roundTrip strings c :: roundTripList strings rest

end

/-! ## Render correspondence: the lexeme emission spells the serializer's text -/

theorem intercalate_go_data (sep : String) : ∀ (ls : List String) (acc : String),
    (String.intercalate.go acc sep ls).data =
      acc.data ++ (ls.map (fun l => sep.data ++ l.data)).flatten := by
  intro ls
  induction ls with
  | nil => intro acc; simp [String.intercalate.go]
  | cons b bs ih =>
    intro acc
    rw [String.intercalate.go, ih]
    simp [String.data_append]

theorem intercalate_data (sep a : String) (ls : List String) :
    (String.intercalate sep (a :: ls)).data =
      a.data ++ (ls.map (fun l => sep.data ++ l.data)).flatten := by
  rw [String.intercalate, intercalate_go_data]

theorem strProp_render (k s : String) : renderL (strProp k s).vlex = (strProp k s).vstr.data := by
  simp [strProp, renderL, Lex.render, formatString, String.mk_data]

theorem numProp_render (k : String) (q : ℚ) :
    renderL (numProp k q).vlex = (numProp k q).vstr.data := by
  simp [numProp, renderL, Lex.render]

theorem boolProp_render (k : String) (b : Bool) :
    renderL (boolProp k b).vlex = (boolProp k b).vstr.data := by
  simp [boolProp, renderL, Lex.render]

theorem enumProp_render (k en : String) (rev : ℕ → Option String) (v : ℕ) :
    renderL (enumProp k en rev v).vlex = (enumProp k en rev v).vstr.data := by
  simp [enumProp, renderL, Lex.render]

theorem arrLexes_render (vs : List ℚ) :
    renderL (arrLexes vs) = (formatNumberArray vs).data := by
  cases vs with
  | nil =>
    rw [show arrLexes [] = [Lex.lbrack, Lex.rbrack] from rfl]
    rw [show formatNumberArray [] = "[]" from rfl]
    rfl
  | cons v tl =>
    rw [arrLexes]
    rw [formatNumberArray]
    rw [if_neg (by simp)]
    have htail : ∀ (ts : List ℚ),
        renderL (ts.flatMap (fun q => [Lex.commaL, Lex.ws [' '], Lex.numL q])) =
          ((ts.map formatNumber).map (fun l => (", " : String).data ++ l.data)).flatten := by
      intro ts
      induction ts with
      | nil => simp [renderL]
      | cons t ts2 ih =>
        rw [List.flatMap_cons, renderL_append, ih]
        simp [renderL_cons, Lex.render, renderL]
    rw [show (("[" : String) ++ String.intercalate ", " ((v :: tl).map formatNumber) ++ "]").data
      = '[' :: ((String.intercalate ", " ((v :: tl).map formatNumber)).data ++ [']']) by
        simp [String.data_append]]
    rw [List.map_cons, intercalate_data]
    rw [renderL_cons, renderL_cons, renderL_append, htail tl]
    simp [Lex.render, renderL]

theorem arrLexes_render2 (vs : List ℚ) :
    (List.map Lex.render (arrLexes vs)).flatten = (formatNumberArray vs).data :=
  arrLexes_render vs

theorem arrProp_render (k : String) (vs : List ℚ) :
    renderL (arrProp k vs).vlex = (arrProp k vs).vstr.data := by
  simpa [arrProp] using arrLexes_render vs

theorem labelProp_vstr (f : UIFields) (strings : StrTable) :
    (labelProp f strings).vstr = formatTextLabel f strings := by
  rw [labelProp, formatTextLabel]
  cases getLocalizationKey f strings with
  | none => rfl
  | some key => rfl

theorem labelProp_render (f : UIFields) (strings : StrTable) :
    renderL (labelProp f strings).vlex = (labelProp f strings).vstr.data := by
  rw [labelProp]
  cases getLocalizationKey f strings with
  | none => exact strProp_render "textLabel" f.textLabel
  | some key => simp [renderL, Lex.render]

/-- The rendered property line equals the serializer's line text, given the
value correspondence and the `"key: "` literal split. -/
theorem propLine_render_eq (ind : ℕ) (pr : PropSpec) (keylit : String)
    (hk : keylit.data = pr.key.data ++ [':', ' '])
    (h : renderL pr.vlex = pr.vstr.data) :
    renderL (propLineLex ind pr) = (indentStr ind ++ keylit ++ pr.vstr).data := by
  rw [propLineLex, renderL_cons, renderL_cons, renderL_cons, renderL_cons, h]
  simp [Lex.render, indentStr, String.data_append, String.mk_data, hk]

theorem lexAddComma_render : ∀ (lb : List (List Lex)) (sb : List String),
    lb.map renderL = sb.map (fun s => s.data) →
    (lexAddComma lb).map renderL = (addComma sb).map (fun s => s.data) := by
  intro lb
  induction lb with
  | nil =>
    intro sb h
    cases sb with
    | nil => rfl
    | cons s st => exact absurd h (by simp)
  | cons l lt ih =>
    intro sb h
    cases sb with
    | nil => exact absurd h (by simp)
    | cons s st =>
      simp only [List.map_cons, List.cons.injEq] at h
      obtain ⟨h1, h2⟩ := h
      cases lt with
      | nil =>
        cases st with
        | nil =>
          rw [lexAddComma, addComma]
          simp only [List.map_cons, List.map_nil, List.cons.injEq]
          refine ⟨?_, trivial⟩
          rw [renderL_append, h1]
          simp [renderL, Lex.render, String.data_append]
        | cons s2 st2 => exact absurd h2 (by simp)
      | cons l2 lt2 =>
        cases st with
        | nil => exact absurd h2 (by simp)
        | cons s2 st2 =>
          rw [show lexAddComma (l :: l2 :: lt2) = l :: lexAddComma (l2 :: lt2) from rfl,
            show addComma (s :: s2 :: st2) = s :: addComma (s2 :: st2) from rfl]
          simp only [List.map_cons, List.cons.injEq]
          exact ⟨h1, by simpa using ih (s2 :: st2) (by simpa using h2)⟩

theorem lexJoinCommaBlocks_render : ∀ (lbs : List (List (List Lex))) (sbs : List (List String)),
    lbs.map (fun b => b.map renderL) = sbs.map (fun b => b.map (fun s => s.data)) →
    (lexJoinCommaBlocks lbs).map renderL = (joinCommaBlocks sbs).map (fun s => s.data) := by
  intro lbs
  induction lbs with
  | nil =>
    intro sbs h
    cases sbs with
    | nil => rfl
    | cons b bt => exact absurd h (by simp)
  | cons b bt ih =>
    intro sbs h
    cases sbs with
    | nil => exact absurd h (by simp)
    | cons sb sbt =>
      simp only [List.map_cons, List.cons.injEq] at h
      obtain ⟨h1, h2⟩ := h
      cases bt with
      | nil =>
        cases sbt with
        | nil =>
          rw [lexJoinCommaBlocks, joinCommaBlocks]
          exact h1
        | cons sb2 sbt2 => exact absurd h2 (by simp)
      | cons b2 bt2 =>
        cases sbt with
        | nil => exact absurd h2 (by simp)
        | cons sb2 sbt2 =>
          rw [show lexJoinCommaBlocks (b :: b2 :: bt2) =
              lexAddComma b ++ lexJoinCommaBlocks (b2 :: bt2) from rfl,
            show joinCommaBlocks (sb :: sb2 :: sbt2) =
              addComma sb ++ joinCommaBlocks (sb2 :: sbt2) from rfl]
          rw [List.map_append, List.map_append]
          rw [lexAddComma_render b sb h1, ih (sb2 :: sbt2) (by simpa using h2)]

theorem labelProp_key (f : UIFields) (strings : StrTable) :
    (labelProp f strings).key = "textLabel" := by
  rw [labelProp]
  cases getLocalizationKey f strings with
  | none => rfl
  | some key => rfl

theorem childLines_render (strings : StrTable) : ∀ (cs : List UIParams) (lvl : ℕ),
    (∀ c ∈ cs, ∀ lvl2,
      (emitParamLines c lvl2 strings).map renderL =
        (serializeParamLines c lvl2 strings).map (fun s => s.data)) →
    (emitChildLines cs lvl strings).map (fun b => b.map renderL) =
      (serializeChildLines cs lvl strings).map (fun b => b.map (fun s => s.data)) := by
  intro cs
  induction cs with
  | nil => intro lvl _; rfl
  | cons c rest ih =>
    intro lvl hcs
    rw [emitChildLines, serializeChildLines]
    simp only [List.map_cons, List.cons.injEq]
    exact ⟨hcs c (by simp) lvl, ih lvl (fun x hx lvl2 => hcs x (by simp [hx]) lvl2)⟩

theorem renderLines_eq_aux : ∀ (n : ℕ) (p : UIParams), sizeOf p < n →
    ∀ (lvl : ℕ) (strings : StrTable),
    (emitParamLines p lvl strings).map renderL =
      (serializeParamLines p lvl strings).map (fun s => s.data) := by
  intro n
  induction n with
  | zero => intro p hp; exact absurd hp (by omega)
  | succ n ih =>
    intro p hp lvl strings
    obtain ⟨f, children⟩ := p
    have hchild : ∀ c ∈ children, sizeOf c < n := by
      intro c hc
      have h1 := List.sizeOf_lt_of_mem hc
      have h2 : sizeOf (UIParams.node f children) = 1 + sizeOf f + sizeOf children := by
        simp
      omega
    have hkidsBlocks := childLines_render strings children (lvl + 2)
      (fun c hc lvl2 => ih c (hchild c hc) lvl2 strings)
    have hkids := lexJoinCommaBlocks_render _ _ hkidsBlocks
    rw [emitParamLines, serializeParamLines]
    simp only [List.map_cons, List.map_append, List.map_nil, List.cons_append,
      List.nil_append, List.append_nil, List.cons.injEq]
    refine ⟨?_, ?_⟩
    · simp [renderL, Lex.render, indentStr, String.data_append, String.mk_data]
    · rw [show ∀ (a b : List (List Char)), a ++ b = a ++ b from fun a b => rfl]
      have hblocks :
          (((nodeProps f strings).map (fun pr => [propLineLex (lvl + 1) pr]) ++
            (if children.length ≠ 0 then
              [[Lex.ws (List.replicate (2 * (lvl + 1)) ' '), Lex.identL "children",
                  Lex.colonL, Lex.ws [' '], Lex.lbrack] ::
                (lexJoinCommaBlocks (emitChildLines children (lvl + 2) strings) ++
                  [[Lex.ws (List.replicate (2 * (lvl + 1)) ' '), Lex.rbrack]])]
            else [])).map (fun b => b.map renderL)) =
          ((([[indentStr (lvl + 1) ++ "name: " ++ formatString f.name],
             [indentStr (lvl + 1) ++ "type: " ++ formatString f.type.str],
             [indentStr (lvl + 1) ++ "position: " ++ formatNumberArray f.position],
             [indentStr (lvl + 1) ++ "size: " ++ formatNumberArray f.size],
             [indentStr (lvl + 1) ++ "anchor: " ++
               formatEnumValue "UIAnchor" uiAnchorName f.anchor],
             [indentStr (lvl + 1) ++ "visible: " ++ formatBoolean f.visible],
             [indentStr (lvl + 1) ++ "padding: " ++ formatNumber f.padding],
             [indentStr (lvl + 1) ++ "bgColor: " ++ formatNumberArray f.bgColor],
             [indentStr (lvl + 1) ++ "bgAlpha: " ++ formatNumber f.bgAlpha],
             [indentStr (lvl + 1) ++ "bgFill: " ++
               formatEnumValue "UIBgFill" uiBgFillName f.bgFill]] ++
            (if f.type = ElemType.Text then
              [[indentStr (lvl + 1) ++ "textLabel: " ++ formatTextLabel f strings],
               [indentStr (lvl + 1) ++ "textColor: " ++ formatNumberArray f.textColor],
               [indentStr (lvl + 1) ++ "textAlpha: " ++ formatNumber f.textAlpha],
               [indentStr (lvl + 1) ++ "textSize: " ++ formatNumber f.textSize],
               [indentStr (lvl + 1) ++ "textAnchor: " ++
                 formatEnumValue "UIAnchor" uiAnchorName f.textAnchor]]
            else []) ++
            (if f.type = ElemType.Image then
              [[indentStr (lvl + 1) ++ "imageType: " ++
                 formatEnumValue "UIImageType" uiImageTypeName f.imageType],
               [indentStr (lvl + 1) ++ "imageColor: " ++ formatNumberArray f.imageColor],
               [indentStr (lvl + 1) ++ "imageAlpha: " ++ formatNumber f.imageAlpha]]
            else []) ++
            (if f.type = ElemType.Button then
              [[indentStr (lvl + 1) ++ "buttonEnabled: true"],
               [indentStr (lvl + 1) ++ "buttonColorBase: " ++
                 formatNumberArray f.buttonColorBase],
               [indentStr (lvl + 1) ++ "buttonAlphaBase: " ++ formatNumber f.buttonAlphaBase],
               [indentStr (lvl + 1) ++ "buttonColorDisabled: " ++
                 formatNumberArray f.buttonColorDisabled],
               [indentStr (lvl + 1) ++ "buttonAlphaDisabled: " ++
                 formatNumber f.buttonAlphaDisabled],
               [indentStr (lvl + 1) ++ "buttonColorPressed: " ++
                 formatNumberArray f.buttonColorPressed],
               [indentStr (lvl + 1) ++ "buttonAlphaPressed: " ++
                 formatNumber f.buttonAlphaPressed],
               [indentStr (lvl + 1) ++ "buttonColorHover: " ++
                 formatNumberArray f.buttonColorHover],
               [indentStr (lvl + 1) ++ "buttonAlphaHover: " ++
                 formatNumber f.buttonAlphaHover],
               [indentStr (lvl + 1) ++ "buttonColorFocused: " ++
                 formatNumberArray f.buttonColorFocused],
               [indentStr (lvl + 1) ++ "buttonAlphaFocused: " ++
                 formatNumber f.buttonAlphaFocused]]
            else []) ++
            (if children.length ≠ 0 then
              [[indentStr (lvl + 1) ++ "children: ["] ++
                joinCommaBlocks (serializeChildLines children (lvl + 2) strings) ++
                [indentStr (lvl + 1) ++ "]"]]
            else [])).map (fun b => b.map (fun s => s.data)))) := by
        have hlabel : renderL (labelProp f strings).vlex =
            (formatTextLabel f strings).data := by
          rw [labelProp_render, labelProp_vstr]
        have hlabel2 : (List.map Lex.render (labelProp f strings).vlex).flatten =
            (formatTextLabel f strings).data := hlabel
        rw [nodeProps]
        by_cases hch : children.length = 0 <;>
          cases htype : f.type <;>
            simp [hch, htype, baseProps, textProps, imageProps, buttonProps, propLineLex,
              renderL_cons, Lex.render, strProp, numProp, boolProp, enumProp, arrProp,
              hlabel, hlabel2, labelProp_key, arrLexes_render, arrLexes_render2,
              formatString, formatBoolean, indentStr, String.data_append,
              String.mk_data, renderL, hkids, hkidsBlocks]
      rw [lexJoinCommaBlocks_render _ _ hblocks]
      simp [renderL, Lex.render, indentStr, String.data_append, String.mk_data]

/-- The emission's lines render exactly the serializer's lines. -/
theorem renderLines_eq (p : UIParams) (lvl : ℕ) (strings : StrTable) :
    (emitParamLines p lvl strings).map renderL =
      (serializeParamLines p lvl strings).map (fun s => s.data) :=
  renderLines_eq_aux (sizeOf p + 1) p (by omega) lvl strings

/-! ## Token correspondence: the emission's tokens are the expected ones -/

theorem toksL_interNLex : ∀ (ls : List (List Lex)),
    toksL (interNLex ls) = (ls.map toksL).flatten := by
  intro ls
  induction ls with
  | nil => rfl
  | cons l lt ih =>
    cases lt with
    | nil => simp [interNLex, toksL]
    | cons l2 lt2 =>
      rw [show interNLex (l :: l2 :: lt2) = l ++ (Lex.ws ['\n'] :: interNLex (l2 :: lt2))
        from rfl]
      rw [toksL_append, toksL_cons, ih]
      simp [Lex.toks]

theorem lexAddComma_toks : ∀ (b : List (List Lex)), b ≠ [] →
    ((lexAddComma b).map toksL).flatten = (b.map toksL).flatten ++ [ParseUiToken.comma] := by
  intro b
  induction b with
  | nil => intro h; exact absurd rfl h
  | cons l lt ih =>
    intro _
    cases lt with
    | nil => simp [lexAddComma, toksL_append, toksL, Lex.toks]
    | cons l2 lt2 =>
      rw [show lexAddComma (l :: l2 :: lt2) = l :: lexAddComma (l2 :: lt2) from rfl]
      simp only [List.map_cons, List.flatten_cons]
      rw [ih (by simp)]
      simp

theorem joinComma_entry_toks : ∀ (bs : List (List (List Lex)))
    (es : List (String × TokVal)),
    bs.map (fun b => (b.map toksL).flatten) =
      es.map (fun e => ParseUiToken.ident e.1 :: ParseUiToken.colon :: e.2.toks) →
    (∀ b ∈ bs, b ≠ []) →
    ((lexJoinCommaBlocks bs).map toksL).flatten =
      (match es with
       | [] => []
       | e :: tl => ParseUiToken.ident e.1 :: ParseUiToken.colon ::
           (e.2.toks ++ entryToksT tl)) := by
  intro bs
  induction bs with
  | nil =>
    intro es h _
    cases es with
    | nil => rfl
    | cons e et => exact absurd h (by simp)
  | cons b bt ih =>
    intro es h hne
    cases es with
    | nil => exact absurd h (by simp)
    | cons e et =>
      simp only [List.map_cons, List.cons.injEq] at h
      obtain ⟨h1, h2⟩ := h
      cases bt with
      | nil =>
        cases et with
        | nil =>
          rw [lexJoinCommaBlocks]
          rw [h1]
          simp [entryToksT]
        | cons e2 et2 => exact absurd h2 (by simp)
      | cons b2 bt2 =>
        cases et with
        | nil => exact absurd h2 (by simp)
        | cons e2 et2 =>
          rw [show lexJoinCommaBlocks (b :: b2 :: bt2) =
            lexAddComma b ++ lexJoinCommaBlocks (b2 :: bt2) from rfl]
          rw [List.map_append, List.flatten_append]
          rw [lexAddComma_toks b (hne b (by simp))]
          rw [ih (e2 :: et2) h2 (fun x hx => hne x (by simp [hx]))]
          rw [h1]
          simp [entryToksT]

theorem joinComma_item_toks : ∀ (bs : List (List (List Lex))) (vs : List TokVal),
    bs.map (fun b => (b.map toksL).flatten) = vs.map (fun v => v.toks) →
    (∀ b ∈ bs, b ≠ []) →
    ((lexJoinCommaBlocks bs).map toksL).flatten =
      (match vs with
       | [] => []
       | v :: tl => v.toks ++ itemToksT tl) := by
  intro bs
  induction bs with
  | nil =>
    intro vs h _
    cases vs with
    | nil => rfl
    | cons v vt => exact absurd h (by simp)
  | cons b bt ih =>
    intro vs h hne
    cases vs with
    | nil => exact absurd h (by simp)
    | cons v vt =>
      simp only [List.map_cons, List.cons.injEq] at h
      obtain ⟨h1, h2⟩ := h
      cases bt with
      | nil =>
        cases vt with
        | nil =>
          rw [lexJoinCommaBlocks]
          rw [h1]
          simp [itemToksT]
        | cons v2 vt2 => exact absurd h2 (by simp)
      | cons b2 bt2 =>
        cases vt with
        | nil => exact absurd h2 (by simp)
        | cons v2 vt2 =>
          rw [show lexJoinCommaBlocks (b :: b2 :: bt2) =
            lexAddComma b ++ lexJoinCommaBlocks (b2 :: bt2) from rfl]
          rw [List.map_append, List.flatten_append]
          rw [lexAddComma_toks b (hne b (by simp))]
          rw [ih (v2 :: vt2) h2 (fun x hx => hne x (by simp [hx]))]
          rw [h1]
          simp [itemToksT]

theorem arrLexes_flatMap_toks (tl : List ℚ) :
    toksL (tl.flatMap (fun q => [Lex.commaL, Lex.ws [' '], Lex.numL q])) =
      itemToksT (tl.map (fun q => (⟨[.num q], .num q⟩ : TokVal))) := by
  induction tl with
  | nil => rfl
  | cons t ts ih =>
    rw [List.flatMap_cons, toksL_append, ih]
    simp [toksL_cons, Lex.toks, itemToksT, toksL]

theorem arrLexes_toks (vs : List ℚ) :
    toksL (arrLexes vs) =
      arrToks (vs.map (fun q => (⟨[.num q], .num q⟩ : TokVal))) := by
  cases vs with
  | nil => rfl
  | cons v tl =>
    rw [arrLexes]
    rw [toksL_cons, toksL_cons, toksL_append, arrLexes_flatMap_toks]
    rw [show arrToks ((v :: tl).map (fun q => (⟨[.num q], .num q⟩ : TokVal))) =
      ParseUiToken.bracketOpen ::
        (([ParseUiToken.num v] ++ itemToksT (tl.map (fun q => (⟨[.num q], .num q⟩ : TokVal))))
          ++ [ParseUiToken.bracketClose]) from rfl]
    simp [Lex.toks, toksL]

/-- Every node property's value lexemes scan to its token sequence. -/
theorem nodeProps_toksOk (f : UIFields) (strings : StrTable) :
    ∀ pr ∈ nodeProps f strings, toksL pr.vlex = pr.tv.toks := by
  have hstr : ∀ k s, toksL (strProp k s).vlex = (strProp k s).tv.toks := by
    intro k s; rfl
  have hlabel : toksL (labelProp f strings).vlex = (labelProp f strings).tv.toks := by
    rw [labelProp]
    cases getLocalizationKey f strings with
    | none => exact hstr "textLabel" f.textLabel
    | some key => rfl
  have harr : ∀ k vs, toksL (arrProp k vs).vlex = (arrProp k vs).tv.toks := by
    intro k vs
    rw [arrProp]
    exact arrLexes_toks vs
  intro pr hpr
  rw [nodeProps] at hpr
  simp only [List.mem_append] at hpr
  rcases hpr with ((hb | ht) | hi) | hbu
  · rw [baseProps] at hb
    simp only [List.mem_cons, List.not_mem_nil, or_false] at hb
    rcases hb with h | h | h | h | h | h | h | h | h | h <;> subst h <;>
      first | rfl | exact harr _ _
  · by_cases hT : f.type = ElemType.Text
    · rw [if_pos hT, textProps] at ht
      simp only [List.mem_cons, List.not_mem_nil, or_false] at ht
      rcases ht with h | h | h | h | h <;> subst h <;>
        first | exact hlabel | exact harr _ _ | rfl
    · rw [if_neg hT] at ht
      exact absurd ht (by simp)
  · by_cases hI : f.type = ElemType.Image
    · rw [if_pos hI, imageProps] at hi
      simp only [List.mem_cons, List.not_mem_nil, or_false] at hi
      rcases hi with h | h | h <;> subst h <;>
        first | exact harr _ _ | rfl
    · rw [if_neg hI] at hi
      exact absurd hi (by simp)
  · by_cases hB : f.type = ElemType.Button
    · rw [if_pos hB, buttonProps] at hbu
      simp only [List.mem_cons, List.not_mem_nil, or_false] at hbu
      rcases hbu with h | h | h | h | h | h | h | h | h | h | h <;> subst h <;>
        first | exact harr _ _ | rfl
    · rw [if_neg hB] at hbu
      exact absurd hbu (by simp)

theorem childToks_corr (strings : StrTable) : ∀ (cs : List UIParams) (lvl : ℕ),
    (∀ c ∈ cs, ∀ lvl2,
      ((emitParamLines c lvl2 strings).map toksL).flatten = (nodeTokVal c strings).toks) →
    (emitChildLines cs lvl strings).map (fun b => (b.map toksL).flatten) =
      (childTokVals cs strings).map (fun v => v.toks) := by
  intro cs
  induction cs with
  | nil => intro lvl _; simp [emitChildLines, childTokVals]
  | cons c rest ih =>
    intro lvl hcs
    rw [emitChildLines, childTokVals]
    simp only [List.map_cons, List.cons.injEq]
    exact ⟨hcs c (by simp) lvl, ih lvl (fun x hx lvl2 => hcs x (by simp [hx]) lvl2)⟩

theorem propLine_toks (lvl : ℕ) (pr : PropSpec) (h : toksL pr.vlex = pr.tv.toks) :
    toksL (propLineLex lvl pr) =
      ParseUiToken.ident pr.key :: ParseUiToken.colon :: pr.tv.toks := by
  rw [propLineLex, toksL_cons, toksL_cons, toksL_cons, toksL_cons, h]
  simp [Lex.toks]

theorem nodeToks_eq_aux : ∀ (n : ℕ) (p : UIParams), sizeOf p < n →
    ∀ (lvl : ℕ) (strings : StrTable),
    ((emitParamLines p lvl strings).map toksL).flatten = (nodeTokVal p strings).toks := by
  intro n
  induction n with
  | zero => intro p hp; exact absurd hp (by omega)
  | succ n ih =>
    intro p hp lvl strings
    obtain ⟨f, children⟩ := p
    have hchild : ∀ c ∈ children, sizeOf c < n := by
      intro c hc
      have h1 := List.sizeOf_lt_of_mem hc
      have h2 : sizeOf (UIParams.node f children) = 1 + sizeOf f + sizeOf children := by
        simp
      omega
    have hkidcorr := childToks_corr strings children (lvl + 2)
      (fun c hc lvl2 => ih c (hchild c hc) lvl2 strings)
    have hpropcorr : ((nodeProps f strings).map
        (fun pr => [propLineLex (lvl + 1) pr])).map (fun b => (b.map toksL).flatten) =
        ((nodeProps f strings).map propEntry).map
          (fun e => ParseUiToken.ident e.1 :: ParseUiToken.colon :: e.2.toks) := by
      rw [List.map_map, List.map_map]
      apply List.map_congr_left
      intro pr hpr
      have htk := nodeProps_toksOk f strings pr hpr
      show ([propLineLex (lvl + 1) pr].map toksL).flatten = _
      rw [show ([propLineLex (lvl + 1) pr].map toksL).flatten =
        toksL (propLineLex (lvl + 1) pr) by simp]
      exact propLine_toks (lvl + 1) pr htk
    have hchtoks : ∀ hch : children.length ≠ 0,
        (([[Lex.ws (List.replicate (2 * (lvl + 1)) ' '), Lex.identL "children", Lex.colonL,
            Lex.ws [' '], Lex.lbrack] ::
          (lexJoinCommaBlocks (emitChildLines children (lvl + 2) strings) ++
            [[Lex.ws (List.replicate (2 * (lvl + 1)) ' '), Lex.rbrack]])] :
            List (List (List Lex))).map (fun b => (b.map toksL).flatten)) =
        ([("children", (⟨arrToks (childTokVals children strings),
            .arr ((childTokVals children strings).map (fun v => v.val))⟩ : TokVal))].map
          (fun e => ParseUiToken.ident e.1 :: ParseUiToken.colon :: e.2.toks)) := by
      intro _
      simp only [List.map_cons, List.map_nil, List.map_append, List.flatten_cons,
        List.flatten_append, List.flatten_nil, List.cons.injEq]
      refine ⟨?_, trivial⟩
      have hitems := joinComma_item_toks (emitChildLines children (lvl + 2) strings)
        (childTokVals children strings) hkidcorr
        (by
          intro b hb
          have : ∀ cs lvl0, b ∈ emitChildLines cs lvl0 strings → b ≠ [] := by
            intro cs
            induction cs with
            | nil => intro lvl0 hb2; simp [emitChildLines] at hb2
            | cons c ct ihc =>
              intro lvl0 hb2
              rw [emitChildLines] at hb2
              rcases List.mem_cons.mp hb2 with h | h
              · subst h
                obtain ⟨fc, cc⟩ := c
                rw [emitParamLines]
                simp
              · exact ihc lvl0 h
          exact this children (lvl + 2) hb)
      rw [hitems]
      cases hkv : childTokVals children strings with
      | nil =>
        rw [show arrToks [] = [ParseUiToken.bracketOpen, ParseUiToken.bracketClose]
          from rfl]
        simp [toksL_cons, toksL, Lex.toks]
      | cons k kt =>
        rw [show arrToks (k :: kt) = ParseUiToken.bracketOpen ::
          ((k.toks ++ itemToksT kt) ++ [ParseUiToken.bracketClose]) from rfl]
        simp [toksL_cons, toksL, Lex.toks]
    rw [emitParamLines]
    rw [nodeTokVal]
    show ((([Lex.ws (List.replicate (2 * lvl) ' '), Lex.lbrace]) ::
      lexJoinCommaBlocks
        ((nodeProps f strings).map (fun pr => [propLineLex (lvl + 1) pr]) ++
          (if children.length ≠ 0 then
            [[Lex.ws (List.replicate (2 * (lvl + 1)) ' '), Lex.identL "children", Lex.colonL,
                Lex.ws [' '], Lex.lbrack] ::
              (lexJoinCommaBlocks (emitChildLines children (lvl + 2) strings) ++
                [[Lex.ws (List.replicate (2 * (lvl + 1)) ' '), Lex.rbrack]])]
          else [])) ++
      [[Lex.ws (List.replicate (2 * lvl) ' '), Lex.rbrace]]).map toksL).flatten =
      objToks (nodeEntries f children strings)
    have hne : ∀ b ∈ (nodeProps f strings).map (fun pr => [propLineLex (lvl + 1) pr]) ++
        (if children.length ≠ 0 then
          [[Lex.ws (List.replicate (2 * (lvl + 1)) ' '), Lex.identL "children", Lex.colonL,
              Lex.ws [' '], Lex.lbrack] ::
            (lexJoinCommaBlocks (emitChildLines children (lvl + 2) strings) ++
              [[Lex.ws (List.replicate (2 * (lvl + 1)) ' '), Lex.rbrack]])]
        else []), b ≠ [] := by
      intro b hb
      rcases List.mem_append.mp hb with h | h
      · obtain ⟨pr, -, hpr2⟩ := List.mem_map.mp h
        rw [← hpr2]
        simp
      · by_cases hch : children.length = 0
        · rw [if_neg (show ¬ children.length ≠ 0 by simp [hch])] at h
          simp at h
        · rw [if_pos hch] at h
          simp only [List.mem_singleton] at h
          subst h
          simp
    have hcorr : ((nodeProps f strings).map (fun pr => [propLineLex (lvl + 1) pr]) ++
        (if children.length ≠ 0 then
          [[Lex.ws (List.replicate (2 * (lvl + 1)) ' '), Lex.identL "children", Lex.colonL,
              Lex.ws [' '], Lex.lbrack] ::
            (lexJoinCommaBlocks (emitChildLines children (lvl + 2) strings) ++
              [[Lex.ws (List.replicate (2 * (lvl + 1)) ' '), Lex.rbrack]])]
        else [])).map (fun b => (b.map toksL).flatten) =
        (nodeEntries f children strings).map
          (fun e => ParseUiToken.ident e.1 :: ParseUiToken.colon :: e.2.toks) := by
      rw [nodeEntries]
      rw [List.map_append, List.map_append, hpropcorr]
      congr 1
      by_cases hch : children.length = 0
      · have hcond : ¬ children.length ≠ 0 := by simp [hch]
        simp only [if_neg hcond]
        simp
      · simp only [if_pos hch]
        exact hchtoks hch
    have hjoin := joinComma_entry_toks _ _ hcorr hne
    simp only [List.map_cons, List.map_append, List.map_nil, List.flatten_cons,
      List.flatten_append, List.flatten_nil, List.cons_append, List.nil_append,
      List.append_nil]
    rw [hjoin]
    cases hes : nodeEntries f children strings with
    | nil => simp [objToks, toksL_cons, toksL, Lex.toks]
    | cons e et => simp [objToks, toksL_cons, toksL, Lex.toks]

theorem nodeToks_eq (p : UIParams) (lvl : ℕ) (strings : StrTable) :
    toksL (interNLex (emitParamLines p lvl strings)) = (nodeTokVal p strings).toks := by
  rw [toksL_interNLex]
  exact nodeToks_eq_aux (sizeOf p + 1) p (by omega) lvl strings

/-! ## Canonicality consequences and identifier resolution facts -/

theorem canonicalTree_node (f : UIFields) (cs : List UIParams)
    (h : canonicalTree (UIParams.node f cs) = true) :
    canonicalFields f = true ∧ canonicalForest cs = true := by
  rw [canonicalTree] at h
  exact Bool.and_eq_true _ _ |>.mp h

theorem canonicalForest_mem : ∀ (cs : List UIParams), canonicalForest cs = true →
    ∀ c ∈ cs, canonicalTree c = true := by
  intro cs
  induction cs with
  | nil => intro _ c hc; simp at hc
  | cons a at2 ih =>
    intro h c hc
    rw [canonicalForest] at h
    obtain ⟨h1, h2⟩ := Bool.and_eq_true _ _ |>.mp h
    rcases List.mem_cons.mp hc with he | he
    · subst he; exact h1
    · exact ih h2 c he

theorem isDigitB_isPart (c : Char) (h : isDigitB c = true) : isIdentPartB c = true := by
  simp [isIdentPartB, h]

theorem isIdentPartB_toNat (c : Char) (h : isIdentPartB c = true) :
    46 ≤ c.toNat ∧ c.toNat ≤ 122 := by
  obtain h1 | h1 | h1 | h1 | h1 :
      ('A' ≤ c ∧ c ≤ 'Z') ∨ ('a' ≤ c ∧ c ≤ 'z') ∨ isDigitB c = true ∨ c = '_' ∨ c = '.' := by
    simpa [isIdentPartB, Bool.or_eq_true, Bool.and_eq_true, decide_eq_true_eq,
      beq_iff_eq, or_assoc] using h
  · have ha : (65 : ℕ) ≤ c.toNat := h1.1
    have hb : c.toNat ≤ (90 : ℕ) := h1.2
    omega
  · have ha : (97 : ℕ) ≤ c.toNat := h1.1
    have hb : c.toNat ≤ (122 : ℕ) := h1.2
    omega
  · obtain ⟨ha, hb⟩ := isDigitB_toNat c h1
    omega
  · subst h1; simp
  · subst h1; simp

theorem identPart_jsonSafe (c : Char) (h : isIdentPartB c = true) : jsonSafeB c = true := by
  obtain ⟨h1, -⟩ := isIdentPartB_toNat c h
  simp [jsonSafeB]
  omega

theorem identPart_not_ws (c : Char) (h : isIdentPartB c = true) : jsWhitespaceB c = false := by
  obtain ⟨h1, h2⟩ := isIdentPartB_toNat c h
  have hsp : (' ').toNat = 32 := by decide
  have hta : ('\t').toNat = 9 := by decide
  have hnl : ('\n').toNat = 10 := by decide
  have hcr : ('\r').toNat = 13 := by decide
  simp only [jsWhitespaceB, Bool.or_eq_false_iff, beq_eq_false_iff_ne]
  exact ⟨⟨⟨char_ne_of_toNat_ne c ' ' (by omega), char_ne_of_toNat_ne c '\t' (by omega)⟩,
    char_ne_of_toNat_ne c '\n' (by omega)⟩, char_ne_of_toNat_ne c '\r' (by omega)⟩

theorem headNot_numBoundary (xs : List Char) (h : headNotP isIdentPartB xs) :
    numBoundary xs := by
  cases xs with
  | nil => trivial
  | cons c cs =>
    have hc : isIdentPartB c = false := h
    refine ⟨?_, ?_⟩
    · by_cases hd : isDigitB c = true
      · rw [isDigitB_isPart c hd] at hc; exact absurd hc (by simp)
      · simpa using hd
    · intro he
      subst he
      simp [isIdentPartB] at hc

theorem dropWhile_all_false (p : Char → Bool) (xs : List Char)
    (h : ∀ c ∈ xs, p c = false) : xs.dropWhile p = xs := by
  cases xs with
  | nil => simp
  | cons c cs => simp [List.dropWhile_cons, h c (by simp)]

theorem jsTrim_of_identParts (s : String) (h : ∀ c ∈ s.data, isIdentPartB c = true) :
    jsTrim s = s := by
  rw [jsTrim, jsTrimChars]
  rw [dropWhile_all_false jsWhitespaceB s.data (fun c hc => identPart_not_ws c (h c hc))]
  rw [dropWhile_all_false jsWhitespaceB s.data.reverse
    (fun c hc => identPart_not_ws c (h c (List.mem_reverse.mp hc)))]
  rw [List.reverse_reverse]

theorem replaceFirst_of_identParts (s : String) (h : ∀ c ∈ s.data, isIdentPartB c = true) :
    replaceFirst s ' ' '_' = s := by
  rw [replaceFirst]
  have hrf : ∀ (xs : List Char), (∀ c ∈ xs, isIdentPartB c = true) →
      replaceFirstChar ' ' '_' xs = xs := by
    intro xs
    induction xs with
    | nil => intro _; rfl
    | cons c cs ih =>
      intro hall
      rw [replaceFirstChar]
      rw [if_neg (by
        intro he
        subst he
        have := identPart_not_ws ' ' (hall ' ' (by simp))
        simp [jsWhitespaceB] at this)]
      rw [ih (fun d hd => hall d (by simp [hd]))]
  rw [hrf s.data h]

/-- Bool form of `identShape`, for deciding literal cases. -/
def identShapeB (s : String) : Bool :=
  match s.data with
  | [] => false
  | c :: cs => isIdentStartB c && (c :: cs).all isIdentPartB

theorem identShapeB_shape (s : String) (h : identShapeB s = true) : identShape s := by
  rw [identShapeB] at h
  rw [identShape]
  rcases hd : s.data with _ | ⟨c, cs⟩
  · rw [hd] at h; simp at h
  · rw [hd] at h
    obtain ⟨h1, h2⟩ := Bool.and_eq_true _ _ |>.mp h
    exact ⟨h1, by simpa [List.all_eq_true] using h2⟩

theorem identShape_stringkeys (suffix : String)
    (h : ∀ c ∈ suffix.data, isIdentPartB c = true) :
    identShape ("mod.stringkeys." ++ suffix) := by
  rw [identShape]
  rw [String.data_append]
  rw [show ("mod.stringkeys." : String).data ++ suffix.data =
    'm' :: ("od.stringkeys." : String).data ++ suffix.data from rfl]
  refine ⟨by decide, ?_⟩
  intro d hd
  rcases List.mem_cons.mp hd with he | he
  · subst he; decide
  · rcases List.mem_append.mp he with hf | hf
    · revert hf
      have : ∀ d2 ∈ ("od.stringkeys." : String).data, isIdentPartB d2 = true := by decide
      exact this d
    · exact h d hf

theorem resolve_true : resolveIdentifierToken "true" = .ok (.bool true) := rfl

theorem resolve_false : resolveIdentifierToken "false" = .ok (.bool false) := rfl

theorem resolve_formatBoolean (b : Bool) :
    resolveIdentifierToken (formatBoolean b) = .ok (.bool b) := by
  cases b with
  | true => exact resolve_true
  | false => exact resolve_false

theorem resolve_anchor (a : ℕ) (h : a < 9) :
    resolveIdentifierToken (formatEnumValue "UIAnchor" uiAnchorName a) =
      .ok (.num (a : ℚ)) := by
  interval_cases a <;> rfl

theorem resolve_bgfill (a : ℕ) (h : a < 9) :
    resolveIdentifierToken (formatEnumValue "UIBgFill" uiBgFillName a) =
      .ok (.num (a : ℚ)) := by
  interval_cases a <;> rfl

theorem resolve_imagetype (a : ℕ) (h : a < 8) :
    resolveIdentifierToken (formatEnumValue "UIImageType" uiImageTypeName a) =
      .ok (.num (a : ℚ)) := by
  interval_cases a <;> rfl

theorem stringkeys_data (suffix : String) :
    ("mod.stringkeys." ++ suffix).data =
      'm' :: 'o' :: 'd' :: '.' :: 's' :: 't' :: 'r' :: 'i' :: 'n' :: 'g' :: 'k' :: 'e' ::
        'y' :: 's' :: '.' :: suffix.data := by
  rw [String.data_append]
  rfl

theorem resolve_stringkeys (suffix : String) :
    resolveIdentifierToken ("mod.stringkeys." ++ suffix) =
      .ok (.str ("mod.stringkeys." ++ suffix)) := by
  have hdata := stringkeys_data suffix
  have hne : ∀ (t : String), t.data.length ≤ 5 → ("mod.stringkeys." ++ suffix) ≠ t := by
    intro t hlen he
    rw [← he, hdata] at hlen
    simp at hlen
  rw [resolveIdentifierToken]
  rw [if_neg (hne "true" (by decide))]
  rw [if_neg (hne "false" (by decide))]
  rw [if_neg (hne "null" (by decide))]
  rw [show strStartsWith ("mod.stringkeys." ++ suffix) "mod.UIAnchor." = false by
    rw [strStartsWith, hdata]
    simp [List.isPrefixOf]]
  rw [show strStartsWith ("mod.stringkeys." ++ suffix) "mod.UIBgFill." = false by
    rw [strStartsWith, hdata]
    simp [List.isPrefixOf]]
  rw [show strStartsWith ("mod.stringkeys." ++ suffix) "mod.UIImageType." = false by
    rw [strStartsWith, hdata]
    simp [List.isPrefixOf]]
  rw [show strStartsWith ("mod.stringkeys." ++ suffix) "mod.stringkeys." = true by
    rw [strStartsWith, hdata]
    simp [List.isPrefixOf]]
  simp

/-! ## Canonical field extraction -/

theorem canonicalFields_base (f : UIFields) (h : canonicalFields f = true) :
    canonicalName f.name = true ∧ canonicalVec f.position = true ∧
    canonicalVec f.size = true ∧ f.anchor < 9 ∧ fourDec f.padding = true ∧
    canonicalVec f.bgColor = true ∧ fourDec f.bgAlpha = true ∧ f.bgFill < 9 := by
  simp only [canonicalFields, Bool.and_eq_true, decide_eq_true_eq] at h
  tauto

theorem canonicalFields_text (f : UIFields) (h : canonicalFields f = true)
    (ht : f.type = ElemType.Text) :
    (∀ c ∈ f.textLabel.data, jsonSafeB c = true) ∧ canonicalVec f.textColor = true ∧
    fourDec f.textAlpha = true ∧ fourDec f.textSize = true ∧ f.textAnchor < 9 := by
  simp only [canonicalFields, ht, Bool.and_eq_true, decide_eq_true_eq,
    List.all_eq_true] at h
  tauto

theorem canonicalFields_image (f : UIFields) (h : canonicalFields f = true)
    (ht : f.type = ElemType.Image) :
    f.imageType < 8 ∧ canonicalVec f.imageColor = true ∧ fourDec f.imageAlpha = true := by
  simp only [canonicalFields, ht, Bool.and_eq_true, decide_eq_true_eq] at h
  tauto

theorem canonicalFields_button (f : UIFields) (h : canonicalFields f = true)
    (ht : f.type = ElemType.Button) :
    canonicalVec f.buttonColorBase = true ∧ fourDec f.buttonAlphaBase = true ∧
    canonicalVec f.buttonColorDisabled = true ∧ fourDec f.buttonAlphaDisabled = true ∧
    canonicalVec f.buttonColorPressed = true ∧ fourDec f.buttonAlphaPressed = true ∧
    canonicalVec f.buttonColorHover = true ∧ fourDec f.buttonAlphaHover = true ∧
    canonicalVec f.buttonColorFocused = true ∧ fourDec f.buttonAlphaFocused = true := by
  simp only [canonicalFields, ht, Bool.and_eq_true, decide_eq_true_eq] at h
  tauto

theorem canonicalName_parts (s : String) (h : canonicalName s = true) :
    s.data ≠ [] ∧ ∀ c ∈ s.data, isIdentPartB c = true := by
  simp only [canonicalName, Bool.and_eq_true, List.all_eq_true,
    Bool.not_eq_eq_eq_not, Bool.not_false, List.isEmpty_iff] at h
  obtain ⟨h1, h2⟩ := h
  exact ⟨by simpa using h1, h2⟩

theorem canonicalVec_parts (vs : List ℚ) (h : canonicalVec vs = true) :
    vs ≠ [] ∧ ∀ q ∈ vs, fourDec q = true := by
  simp only [canonicalVec, Bool.and_eq_true, List.all_eq_true, decide_eq_true_eq] at h
  exact h

theorem getLocalizationKey_eq (f : UIFields) (strings : StrTable) (key : String)
    (h : getLocalizationKey f strings = some key) : key = jsTrim f.name := by
  rw [getLocalizationKey] at h
  split_ifs at h
  injection h with h1
  exact h1.symm

/-! ## Per-property `ValSpec` facts -/

theorem labelProp_valSpec (f : UIFields) (strings : StrTable) :
    ValSpec (labelProp f strings).tv := by
  rw [labelProp]
  cases getLocalizationKey f strings with
  | none => exact valSpec_str f.textLabel
  | some key => exact valSpec_ident _ _ (resolve_stringkeys (replaceFirst key ' ' '_'))

theorem arrProp_valSpec (k : String) (vs : List ℚ) : ValSpec (arrProp k vs).tv := by
  have hall : ∀ v ∈ vs.map (fun q => (⟨[.num q], .num q⟩ : TokVal)), ValSpec v := by
    intro v hv
    obtain ⟨q, -, hq2⟩ := List.mem_map.mp hv
    rw [← hq2]
    exact valSpec_num q
  have := valSpec_arr (vs.map (fun q => (⟨[.num q], .num q⟩ : TokVal))) hall
  simpa [arrProp, List.map_map, Function.comp] using this

theorem nodeProps_valSpec (f : UIFields) (strings : StrTable)
    (hc : canonicalFields f = true) :
    ∀ pr ∈ nodeProps f strings, ValSpec pr.tv := by
  obtain ⟨-, -, -, hanch, -, -, -, hfill⟩ := canonicalFields_base f hc
  intro pr hpr
  rw [nodeProps] at hpr
  simp only [List.mem_append] at hpr
  rcases hpr with ((hb | ht) | hi) | hbu
  · rw [baseProps] at hb
    simp only [List.mem_cons, List.not_mem_nil, or_false] at hb
    rcases hb with h | h | h | h | h | h | h | h | h | h <;> subst h
    · exact valSpec_str f.name
    · exact valSpec_str f.type.str
    · exact arrProp_valSpec _ _
    · exact arrProp_valSpec _ _
    · exact valSpec_ident _ _ (resolve_anchor f.anchor hanch)
    · exact valSpec_ident _ _ (resolve_formatBoolean f.visible)
    · exact valSpec_num f.padding
    · exact arrProp_valSpec _ _
    · exact valSpec_num f.bgAlpha
    · exact valSpec_ident _ _ (resolve_bgfill f.bgFill hfill)
  · by_cases hT : f.type = ElemType.Text
    · obtain ⟨-, -, -, -, htanch⟩ := canonicalFields_text f hc hT
      rw [if_pos hT, textProps] at ht
      simp only [List.mem_cons, List.not_mem_nil, or_false] at ht
      rcases ht with h | h | h | h | h <;> subst h
      · exact labelProp_valSpec f strings
      · exact arrProp_valSpec _ _
      · exact valSpec_num f.textAlpha
      · exact valSpec_num f.textSize
      · exact valSpec_ident _ _ (resolve_anchor f.textAnchor htanch)
    · rw [if_neg hT] at ht
      exact absurd ht (by simp)
  · by_cases hI : f.type = ElemType.Image
    · obtain ⟨himg, -, -⟩ := canonicalFields_image f hc hI
      rw [if_pos hI, imageProps] at hi
      simp only [List.mem_cons, List.not_mem_nil, or_false] at hi
      rcases hi with h | h | h <;> subst h
      · exact valSpec_ident _ _ (resolve_imagetype f.imageType himg)
      · exact arrProp_valSpec _ _
      · exact valSpec_num f.imageAlpha
    · rw [if_neg hI] at hi
      exact absurd hi (by simp)
  · by_cases hB : f.type = ElemType.Button
    · rw [if_pos hB, buttonProps] at hbu
      simp only [List.mem_cons, List.not_mem_nil, or_false] at hbu
      rcases hbu with h | h | h | h | h | h | h | h | h | h | h <;> subst h
      · exact valSpec_ident _ _ resolve_true
      · exact arrProp_valSpec _ _
      · exact valSpec_num f.buttonAlphaBase
      · exact arrProp_valSpec _ _
      · exact valSpec_num f.buttonAlphaDisabled
      · exact arrProp_valSpec _ _
      · exact valSpec_num f.buttonAlphaPressed
      · exact arrProp_valSpec _ _
      · exact valSpec_num f.buttonAlphaHover
      · exact arrProp_valSpec _ _
      · exact valSpec_num f.buttonAlphaFocused
    · rw [if_neg hB] at hbu
      exact absurd hbu (by simp)

/-! ## Distinct keys of a node's record -/

theorem nodeProps_keys (f : UIFields) (strings : StrTable) :
    (nodeProps f strings).map (fun pr => pr.key) =
      ["name", "type", "position", "size", "anchor", "visible", "padding", "bgColor",
        "bgAlpha", "bgFill"] ++
      (if f.type = ElemType.Text then
        ["textLabel", "textColor", "textAlpha", "textSize", "textAnchor"] else []) ++
      (if f.type = ElemType.Image then ["imageType", "imageColor", "imageAlpha"] else []) ++
      (if f.type = ElemType.Button then
        ["buttonEnabled", "buttonColorBase", "buttonAlphaBase", "buttonColorDisabled",
          "buttonAlphaDisabled", "buttonColorPressed", "buttonAlphaPressed",
          "buttonColorHover", "buttonAlphaHover", "buttonColorFocused",
          "buttonAlphaFocused"] else []) := by
  cases htype : f.type <;>
    simp [nodeProps, baseProps, textProps, imageProps, buttonProps, strProp, numProp,
      boolProp, enumProp, arrProp, labelProp_key, htype]

theorem nodeEntries_keys_nodup (f : UIFields) (children : List UIParams)
    (strings : StrTable) : ((nodeEntries f children strings).map Prod.fst).Nodup := by
  rw [nodeEntries]
  rw [List.map_append, List.map_map]
  have hk : (nodeProps f strings).map (Prod.fst ∘ propEntry) =
      (nodeProps f strings).map (fun pr => pr.key) := rfl
  rw [hk, nodeProps_keys]
  by_cases hch : children.length = 0
  · rw [if_neg (show ¬ children.length ≠ 0 by simp [hch])]
    cases htype : f.type <;> simp [htype] <;> decide
  · rw [if_pos hch]
    cases htype : f.type <;> simp [htype] <;> decide

/-! ## The whole node parses to its expected value -/

theorem childTokVals_mem : ∀ (cs : List UIParams) (strings : StrTable) (v : TokVal),
    v ∈ childTokVals cs strings → ∃ c ∈ cs, v = nodeTokVal c strings := by
  intro cs strings v
  induction cs with
  | nil => intro hv; rw [childTokVals] at hv; simp at hv
  | cons c rest ih =>
    intro hv
    rw [childTokVals] at hv
    rcases List.mem_cons.mp hv with h | h
    · exact ⟨c, by simp, h⟩
    · obtain ⟨c2, hc2, he⟩ := ih h
      exact ⟨c2, by simp [hc2], he⟩

theorem nodeValSpec_aux : ∀ (n : ℕ) (p : UIParams), sizeOf p < n →
    canonicalTree p = true → ∀ (strings : StrTable), ValSpec (nodeTokVal p strings) := by
  intro n
  induction n with
  | zero => intro p hp; exact absurd hp (by omega)
  | succ n ih =>
    intro p hp hcan strings
    obtain ⟨f, children⟩ := p
    obtain ⟨hcf, hcfor⟩ := canonicalTree_node f children hcan
    have hchild : ∀ c ∈ children, sizeOf c < n := by
      intro c hc
      have h1 := List.sizeOf_lt_of_mem hc
      have h2 : sizeOf (UIParams.node f children) = 1 + sizeOf f + sizeOf children := by
        simp
      omega
    have hkids : ∀ v ∈ childTokVals children strings, ValSpec v := by
      intro v hv
      obtain ⟨c, hc, he⟩ := childTokVals_mem children strings v hv
      rw [he]
      exact ih c (hchild c hc) (canonicalForest_mem children hcfor c hc) strings
    have hes : ∀ e ∈ nodeEntries f children strings, ValSpec e.2 := by
      intro e he
      rw [nodeEntries] at he
      rcases List.mem_append.mp he with h | h
      · obtain ⟨pr, hpr, hpe⟩ := List.mem_map.mp h
        rw [← hpe]
        exact nodeProps_valSpec f strings hcf pr hpr
      · by_cases hch : children.length = 0
        · rw [if_neg (show ¬ children.length ≠ 0 by simp [hch])] at h
          simp at h
        · rw [if_pos hch] at h
          simp only [List.mem_singleton] at h
          subst h
          exact valSpec_arr (childTokVals children strings) hkids
    rw [nodeTokVal]
    refine ⟨by simp [objToks], ?_⟩
    intro g rest
    have hobj := parseValue_obj (nodeEntries f children strings) hes g rest
    rw [applyEntries_fresh (nodeEntries f children strings) []
      (by simpa using nodeEntries_keys_nodup f children strings)] at hobj
    simpa using hobj

/-- Canonical nodes' token sequences parse back to their expected raw
object value, with fuel slack. -/
theorem nodeValSpec (p : UIParams) (hcan : canonicalTree p = true) (strings : StrTable) :
    ValSpec (nodeTokVal p strings) :=
  nodeValSpec_aux (sizeOf p + 1) p (by omega) hcan strings

/-! ## Line well-formedness of the emission -/

/-- A line whose render is scanned into exactly its tokens before any
continuation that cannot extend an identifier. -/
def LineOk (l : List Lex) : Prop :=
  ∀ cont, headNotP isIdentPartB cont → EmitOk l cont

theorem wsReplicate (n : ℕ) : ∀ c ∈ List.replicate n ' ', jsWhitespaceB c = true := by
  intro c hc
  rw [List.eq_of_mem_replicate hc]
  decide

theorem lineOk_strL (s : String) (hs : ∀ c ∈ s.data, jsonSafeB c = true) :
    LineOk [Lex.strL s] := by
  intro cont _
  exact ⟨hs, trivial⟩

theorem lineOk_numL (q : ℚ) (hq : fourDec q = true) : LineOk [Lex.numL q] := by
  intro cont hcont
  refine ⟨hq, ?_, trivial⟩
  rw [renderL_nil, List.nil_append]
  exact headNot_numBoundary cont hcont

theorem lineOk_identL (s : String) (hs : identShape s) : LineOk [Lex.identL s] := by
  intro cont hcont
  refine ⟨hs, ?_, trivial⟩
  rw [renderL_nil, List.nil_append]
  exact hcont

theorem arrTail_boundary (tl : List ℚ) (cont : List Char) :
    numBoundary (renderL
      (tl.flatMap (fun r => [Lex.commaL, Lex.ws [' '], Lex.numL r]) ++ [Lex.rbrack]) ++
        cont) := by
  cases tl with
  | nil =>
    simp only [List.flatMap_nil, List.nil_append]
    rw [renderL_cons, renderL_nil]
    rw [show Lex.render Lex.rbrack = [']'] from rfl]
    rw [show (([']'] ++ []) ++ cont : List Char) = ']' :: cont by simp]
    exact ⟨by decide, by decide⟩
  | cons q2 tl2 =>
    simp only [List.flatMap_cons, List.cons_append, List.nil_append]
    rw [renderL_cons]
    rw [show Lex.render Lex.commaL = [','] from rfl]
    rw [show (([','] ++ renderL (Lex.ws [' '] :: Lex.numL q2 ::
        (tl2.flatMap (fun r => [Lex.commaL, Lex.ws [' '], Lex.numL r]) ++ [Lex.rbrack]))) ++
          cont : List Char) = ',' :: (renderL (Lex.ws [' '] :: Lex.numL q2 ::
        (tl2.flatMap (fun r => [Lex.commaL, Lex.ws [' '], Lex.numL r]) ++ [Lex.rbrack])) ++
          cont) by simp]
    exact ⟨by decide, by decide⟩

theorem arrLexes_tail_emitOk : ∀ (tl : List ℚ), (∀ q ∈ tl, fourDec q = true) →
    ∀ cont,
      EmitOk (tl.flatMap (fun q => [Lex.commaL, Lex.ws [' '], Lex.numL q]) ++
        [Lex.rbrack]) cont := by
  intro tl
  induction tl with
  | nil => intro _ cont; exact trivial
  | cons q tl ih =>
    intro hall cont
    have hq : fourDec q = true := hall q (by simp)
    have htl : ∀ r ∈ tl, fourDec r = true := fun r hr => hall r (by simp [hr])
    show EmitOk (Lex.commaL :: Lex.ws [' '] :: Lex.numL q ::
      (tl.flatMap (fun r => [Lex.commaL, Lex.ws [' '], Lex.numL r]) ++ [Lex.rbrack])) cont
    refine ⟨?_, hq, arrTail_boundary tl cont, ih htl cont⟩
    intro c hc
    simp only [List.mem_singleton] at hc
    subst hc
    decide

theorem lineOk_arr (vs : List ℚ) (hvs : ∀ q ∈ vs, fourDec q = true) :
    LineOk (arrLexes vs) := by
  intro cont _
  cases vs with
  | nil => exact trivial
  | cons q tl =>
    have hq : fourDec q = true := hvs q (by simp)
    have htl : ∀ r ∈ tl, fourDec r = true := fun r hr => hvs r (by simp [hr])
    rw [arrLexes]
    exact ⟨hq, arrTail_boundary tl cont, arrLexes_tail_emitOk tl htl cont⟩

theorem labelShape (key : String) (hkey : ∀ c ∈ key.data, isIdentPartB c = true) :
    identShape ("mod.stringkeys." ++ replaceFirst key ' ' '_') := by
  rw [replaceFirst_of_identParts key hkey]
  exact identShape_stringkeys key hkey

theorem lineOk_label (f : UIFields) (strings : StrTable)
    (hsafe : ∀ c ∈ f.textLabel.data, jsonSafeB c = true)
    (hname : canonicalName f.name = true) : LineOk (labelProp f strings).vlex := by
  rw [labelProp]
  cases hk : getLocalizationKey f strings with
  | none => exact lineOk_strL f.textLabel hsafe
  | some key =>
    have hkeq : key = jsTrim f.name := getLocalizationKey_eq f strings key hk
    obtain ⟨-, hparts⟩ := canonicalName_parts f.name hname
    have hkparts : ∀ c ∈ key.data, isIdentPartB c = true := by
      rw [hkeq, jsTrim_of_identParts f.name hparts]
      exact hparts
    exact lineOk_identL _ (labelShape key hkparts)

theorem typeStr_jsonSafe (t : ElemType) : ∀ c ∈ (ElemType.str t).data, jsonSafeB c = true := by
  cases t <;> decide

theorem anchorShape (a : ℕ) (h : a < 9) :
    identShape (formatEnumValue "UIAnchor" uiAnchorName a) := by
  interval_cases a <;> exact identShapeB_shape _ (by decide)

theorem bgfillShape (a : ℕ) (h : a < 9) :
    identShape (formatEnumValue "UIBgFill" uiBgFillName a) := by
  interval_cases a <;> exact identShapeB_shape _ (by decide)

theorem imagetypeShape (a : ℕ) (h : a < 8) :
    identShape (formatEnumValue "UIImageType" uiImageTypeName a) := by
  interval_cases a <;> exact identShapeB_shape _ (by decide)

theorem boolShape (b : Bool) : identShape (formatBoolean b) := by
  cases b <;> exact identShapeB_shape _ (by decide)

theorem nodeProps_vlex_lineOk (f : UIFields) (strings : StrTable)
    (hc : canonicalFields f = true) : ∀ pr ∈ nodeProps f strings, LineOk pr.vlex := by
  obtain ⟨hname, hpos, hsize, hanch, hpad, hbg, hbga, hfill⟩ := canonicalFields_base f hc
  intro pr hpr
  rw [nodeProps] at hpr
  simp only [List.mem_append] at hpr
  rcases hpr with ((hb | ht) | hi) | hbu
  · rw [baseProps] at hb
    simp only [List.mem_cons, List.not_mem_nil, or_false] at hb
    rcases hb with h | h | h | h | h | h | h | h | h | h <;> subst h
    · exact lineOk_strL f.name
        (fun c hc2 => identPart_jsonSafe c ((canonicalName_parts f.name hname).2 c hc2))
    · exact lineOk_strL f.type.str (typeStr_jsonSafe f.type)
    · exact lineOk_arr f.position (canonicalVec_parts f.position hpos).2
    · exact lineOk_arr f.size (canonicalVec_parts f.size hsize).2
    · exact lineOk_identL _ (anchorShape f.anchor hanch)
    · exact lineOk_identL _ (boolShape f.visible)
    · exact lineOk_numL f.padding hpad
    · exact lineOk_arr f.bgColor (canonicalVec_parts f.bgColor hbg).2
    · exact lineOk_numL f.bgAlpha hbga
    · exact lineOk_identL _ (bgfillShape f.bgFill hfill)
  · by_cases hT : f.type = ElemType.Text
    · obtain ⟨hsafe, htc, hta, hts, htan⟩ := canonicalFields_text f hc hT
      rw [if_pos hT, textProps] at ht
      simp only [List.mem_cons, List.not_mem_nil, or_false] at ht
      rcases ht with h | h | h | h | h <;> subst h
      · exact lineOk_label f strings hsafe hname
      · exact lineOk_arr f.textColor (canonicalVec_parts f.textColor htc).2
      · exact lineOk_numL f.textAlpha hta
      · exact lineOk_numL f.textSize hts
      · exact lineOk_identL _ (anchorShape f.textAnchor htan)
    · rw [if_neg hT] at ht
      exact absurd ht (by simp)
  · by_cases hI : f.type = ElemType.Image
    · obtain ⟨himg, hic, hia⟩ := canonicalFields_image f hc hI
      rw [if_pos hI, imageProps] at hi
      simp only [List.mem_cons, List.not_mem_nil, or_false] at hi
      rcases hi with h | h | h <;> subst h
      · exact lineOk_identL _ (imagetypeShape f.imageType himg)
      · exact lineOk_arr f.imageColor (canonicalVec_parts f.imageColor hic).2
      · exact lineOk_numL f.imageAlpha hia
    · rw [if_neg hI] at hi
      exact absurd hi (by simp)
  · by_cases hB : f.type = ElemType.Button
    · obtain ⟨hb1, ha1, hb2, ha2, hb3, ha3, hb4, ha4, hb5, ha5⟩ :=
        canonicalFields_button f hc hB
      rw [if_pos hB, buttonProps] at hbu
      simp only [List.mem_cons, List.not_mem_nil, or_false] at hbu
      rcases hbu with h | h | h | h | h | h | h | h | h | h | h <;> subst h
      · exact lineOk_identL _ (identShapeB_shape _ (by decide))
      · exact lineOk_arr f.buttonColorBase (canonicalVec_parts _ hb1).2
      · exact lineOk_numL f.buttonAlphaBase ha1
      · exact lineOk_arr f.buttonColorDisabled (canonicalVec_parts _ hb2).2
      · exact lineOk_numL f.buttonAlphaDisabled ha2
      · exact lineOk_arr f.buttonColorPressed (canonicalVec_parts _ hb3).2
      · exact lineOk_numL f.buttonAlphaPressed ha3
      · exact lineOk_arr f.buttonColorHover (canonicalVec_parts _ hb4).2
      · exact lineOk_numL f.buttonAlphaHover ha4
      · exact lineOk_arr f.buttonColorFocused (canonicalVec_parts _ hb5).2
      · exact lineOk_numL f.buttonAlphaFocused ha5
    · rw [if_neg hB] at hbu
      exact absurd hbu (by simp)

theorem identShapeB_of_mem (L : List String) (hall : L.all identShapeB = true)
    (s : String) (hs : s ∈ L) : identShapeB s = true := by
  rw [List.all_eq_true] at hall
  exact hall s hs

theorem nodeProps_key_shape (f : UIFields) (strings : StrTable) :
    ∀ pr ∈ nodeProps f strings, identShape pr.key := by
  intro pr hpr
  have hk : pr.key ∈ (nodeProps f strings).map (fun pr2 => pr2.key) :=
    List.mem_map.mpr ⟨pr, hpr, rfl⟩
  rw [nodeProps_keys] at hk
  refine identShapeB_shape _ ?_
  cases htype : f.type <;> rw [htype] at hk <;>
    exact identShapeB_of_mem _ (by decide) pr.key hk

theorem propLine_lineOk (ind : ℕ) (pr : PropSpec) (hkey : identShape pr.key)
    (hval : LineOk pr.vlex) : LineOk (propLineLex ind pr) := by
  intro cont hcont
  show EmitOk (Lex.ws (List.replicate (2 * ind) ' ') :: Lex.identL pr.key ::
    Lex.colonL :: Lex.ws [' '] :: pr.vlex) cont
  refine ⟨wsReplicate _, hkey, ?_, ?_, hval cont hcont⟩
  · have hexp : renderL (Lex.colonL :: Lex.ws [' '] :: pr.vlex) ++ cont =
        ':' :: ' ' :: (renderL pr.vlex ++ cont) := by
      rw [renderL_cons, renderL_cons]
      rw [show Lex.render Lex.colonL = [':'] from rfl]
      rw [show Lex.render (Lex.ws [' ']) = [' '] from rfl]
      simp
    rw [hexp]
    exact (by decide : isIdentPartB ':' = false)
  · intro c hc
    simp only [List.mem_singleton] at hc
    subst hc
    decide

theorem lineOk_openBrace (ind : ℕ) :
    LineOk [Lex.ws (List.replicate (2 * ind) ' '), Lex.lbrace] :=
  fun _ _ => ⟨wsReplicate _, True.intro⟩

theorem lineOk_closeBrace (ind : ℕ) :
    LineOk [Lex.ws (List.replicate (2 * ind) ' '), Lex.rbrace] :=
  fun _ _ => ⟨wsReplicate _, True.intro⟩

theorem lineOk_closeBrack (ind : ℕ) :
    LineOk [Lex.ws (List.replicate (2 * ind) ' '), Lex.rbrack] :=
  fun _ _ => ⟨wsReplicate _, True.intro⟩

theorem lineOk_childOpen (ind : ℕ) :
    LineOk [Lex.ws (List.replicate (2 * ind) ' '), Lex.identL "children", Lex.colonL,
      Lex.ws [' '], Lex.lbrack] := by
  intro cont _
  refine ⟨wsReplicate _, identShapeB_shape _ (by decide), ?_, ?_, True.intro⟩
  · have hexp : renderL [Lex.colonL, Lex.ws [' '], Lex.lbrack] ++ cont =
        ':' :: ' ' :: '[' :: cont := by
      rw [renderL_cons, renderL_cons, renderL_cons, renderL_nil]
      rw [show Lex.render Lex.colonL = [':'] from rfl]
      rw [show Lex.render (Lex.ws [' ']) = [' '] from rfl]
      rw [show Lex.render Lex.lbrack = ['['] from rfl]
      simp
    rw [hexp]
    exact (by decide : isIdentPartB ':' = false)
  · intro c hc
    simp only [List.mem_singleton] at hc
    subst hc
    decide

theorem lineOk_comma (l : List Lex) (h : LineOk l) : LineOk (l ++ [Lex.commaL]) := by
  intro cont _
  refine emitOk_append l [Lex.commaL] cont ?_ True.intro
  apply h
  have hexp : renderL [Lex.commaL] ++ cont = ',' :: cont := by
    rw [renderL_cons, renderL_nil]
    rw [show Lex.render Lex.commaL = [','] from rfl]
    simp
  rw [hexp]
  exact (by decide : isIdentPartB ',' = false)

theorem lexAddComma_lineOk : ∀ (ls : List (List Lex)), (∀ l ∈ ls, LineOk l) →
    ∀ l ∈ lexAddComma ls, LineOk l := by
  intro ls
  induction ls with
  | nil => intro _ l hl; rw [lexAddComma] at hl; simp at hl
  | cons a rest ih =>
    intro h l hl
    cases rest with
    | nil =>
      rw [lexAddComma] at hl
      simp only [List.mem_singleton] at hl
      subst hl
      exact lineOk_comma a (h a (by simp))
    | cons b rest2 =>
      rw [show lexAddComma (a :: b :: rest2) = a :: lexAddComma (b :: rest2) from rfl] at hl
      rcases List.mem_cons.mp hl with he | he
      · subst he
        exact h l (by simp)
      · exact ih (fun l2 hl2 => h l2 (by simp [hl2])) l he

theorem lexJoinCommaBlocks_lineOk : ∀ (bs : List (List (List Lex))),
    (∀ b ∈ bs, ∀ l ∈ b, LineOk l) → ∀ l ∈ lexJoinCommaBlocks bs, LineOk l := by
  intro bs
  induction bs with
  | nil => intro _ l hl; rw [lexJoinCommaBlocks] at hl; simp at hl
  | cons b bt ih =>
    intro h l hl
    cases bt with
    | nil =>
      rw [lexJoinCommaBlocks] at hl
      exact h b (by simp) l hl
    | cons b2 bt2 =>
      rw [show lexJoinCommaBlocks (b :: b2 :: bt2) =
        lexAddComma b ++ lexJoinCommaBlocks (b2 :: bt2) from rfl] at hl
      rcases List.mem_append.mp hl with he | he
      · exact lexAddComma_lineOk b (h b (by simp)) l he
      · exact ih (fun b3 hb3 => h b3 (by simp [hb3])) l he

theorem interNLex_emitOk : ∀ (ls : List (List Lex)), (∀ l ∈ ls, LineOk l) →
    ∀ cont, headNotP isIdentPartB cont → EmitOk (interNLex ls) cont := by
  intro ls
  induction ls with
  | nil => intro _ cont _; exact trivial
  | cons a rest ih =>
    intro h cont hcont
    cases rest with
    | nil =>
      rw [interNLex]
      exact h a (by simp) cont hcont
    | cons b rest2 =>
      rw [show interNLex (a :: b :: rest2) =
        a ++ (Lex.ws ['\n'] :: interNLex (b :: rest2)) from rfl]
      refine emitOk_append a (Lex.ws ['\n'] :: interNLex (b :: rest2)) cont ?_ ?_
      · apply h a (by simp)
        have hexp : renderL (Lex.ws ['\n'] :: interNLex (b :: rest2)) ++ cont =
            '\n' :: (renderL (interNLex (b :: rest2)) ++ cont) := by
          rw [renderL_cons]
          rw [show Lex.render (Lex.ws ['\n']) = ['\n'] from rfl]
          simp
        rw [hexp]
        exact (by decide : isIdentPartB '\n' = false)
      · refine ⟨?_, ih (fun l2 hl2 => h l2 (by simp [hl2])) cont hcont⟩
        intro c hc
        simp only [List.mem_singleton] at hc
        subst hc
        decide

theorem emitChildLines_mem : ∀ (cs : List UIParams) (lvl : ℕ) (strings : StrTable)
    (b : List (List Lex)), b ∈ emitChildLines cs lvl strings →
    ∃ c ∈ cs, b = emitParamLines c lvl strings := by
  intro cs lvl strings b
  induction cs with
  | nil => intro hb; simp [emitChildLines] at hb
  | cons c rest ih =>
    intro hb
    rw [show emitChildLines (c :: rest) lvl strings =
      emitParamLines c lvl strings :: emitChildLines rest lvl strings from rfl] at hb
    rcases List.mem_cons.mp hb with he | he
    · exact ⟨c, by simp, he⟩
    · obtain ⟨c2, hc2, heq⟩ := ih he
      exact ⟨c2, by simp [hc2], heq⟩

theorem nodeLines_lineOk_aux : ∀ (n : ℕ) (p : UIParams), sizeOf p < n →
    canonicalTree p = true → ∀ (lvl : ℕ) (strings : StrTable),
    ∀ l ∈ emitParamLines p lvl strings, LineOk l := by
  intro n
  induction n with
  | zero => intro p hp; exact absurd hp (by omega)
  | succ n ih =>
    intro p hp hcan lvl strings l hl
    obtain ⟨f, children⟩ := p
    obtain ⟨hcf, hcfor⟩ := canonicalTree_node f children hcan
    have hchild : ∀ c ∈ children, sizeOf c < n := by
      intro c hc
      have h1 := List.sizeOf_lt_of_mem hc
      have h2 : sizeOf (UIParams.node f children) = 1 + sizeOf f + sizeOf children := by
        simp
      omega
    rw [emitParamLines] at hl
    rcases List.mem_cons.mp hl with he | he
    · subst he
      exact lineOk_openBrace lvl
    · rcases List.mem_append.mp he with hm | hm
      · refine lexJoinCommaBlocks_lineOk _ ?_ l hm
        intro b hb l2 hl2
        rcases List.mem_append.mp hb with hbp | hbc
        · obtain ⟨pr, hpr, hpe⟩ := List.mem_map.mp hbp
          rw [← hpe] at hl2
          simp only [List.mem_singleton] at hl2
          subst hl2
          exact propLine_lineOk (lvl + 1) pr (nodeProps_key_shape f strings pr hpr)
            (nodeProps_vlex_lineOk f strings hcf pr hpr)
        · by_cases hch : children.length = 0
          · rw [if_neg (show ¬ children.length ≠ 0 by simp [hch])] at hbc
            simp at hbc
          · rw [if_pos hch] at hbc
            simp only [List.mem_singleton] at hbc
            subst hbc
            rcases List.mem_cons.mp hl2 with he2 | he2
            · subst he2
              exact lineOk_childOpen (lvl + 1)
            · rcases List.mem_append.mp he2 with hm2 | hm2
              · refine lexJoinCommaBlocks_lineOk _ ?_ l2 hm2
                intro b2 hb2 l3 hl3
                obtain ⟨c, hc, heq⟩ := emitChildLines_mem children (lvl + 2) strings b2 hb2
                rw [heq] at hl3
                exact ih c (hchild c hc) (canonicalForest_mem children hcfor c hc)
                  (lvl + 2) strings l3 hl3
              · simp only [List.mem_singleton] at hm2
                subst hm2
                exact lineOk_closeBrack (lvl + 1)
      · simp only [List.mem_singleton] at hm
        subst hm
        exact lineOk_closeBrace lvl

/-- Every line a canonical node emits is a well-formed emission; the joined
emission is `EmitOk` before any non-identifier continuation. -/
theorem nodeEmitOk (p : UIParams) (hcan : canonicalTree p = true) (lvl : ℕ)
    (strings : StrTable) (cont : List Char) (hcont : headNotP isIdentPartB cont) :
    EmitOk (interNLex (emitParamLines p lvl strings)) cont :=
  interNLex_emitOk (emitParamLines p lvl strings)
    (nodeLines_lineOk_aux (sizeOf p + 1) p (by omega) hcan lvl strings) cont hcont

/-! ## Normalization of the parsed node -/

theorem ensureString_str (s : String) (hs : s.data ≠ []) :
    ensureString (some (.str s)) = s := by
  rw [ensureString]
  rw [if_pos]
  have hlen : s.length = s.data.length := rfl
  rw [hlen]
  cases hd : s.data with
  | nil => exact absurd hd hs
  | cons a t => simp

theorem cloneVec_num (vs : List ℚ) (hne : vs ≠ []) (fb : List ℚ) :
    cloneVectorWithFallbackJ (some (.arr (vs.map JValue.num))) fb = vs := by
  rw [cloneVectorWithFallbackJ]
  rw [if_pos (by simpa using hne)]
  rw [List.map_map]
  rw [show ((fun item => match item with | JValue.num q => q | _ => 0) ∘ JValue.num) =
    id from rfl]
  rw [List.map_id]

theorem ensureEnum_num (a : ℕ) (rev : ℕ → Option String) (fwd : String → Option ℕ)
    (fb : ℕ) (hrev : (rev a).isSome = true) :
    ensureEnumNumberJ (some (.num (a : ℚ))) rev fwd fb = a := by
  rw [ensureEnumNumberJ]
  rw [if_pos ⟨by simp, by simp, by simpa using hrev⟩]
  simp

theorem anchor_rev_some (a : ℕ) (h : a < 9) : (uiAnchorName a).isSome = true := by
  interval_cases a <;> rfl

theorem bgfill_rev_some (a : ℕ) (h : a < 9) : (uiBgFillName a).isSome = true := by
  interval_cases a <;> rfl

theorem imagetype_rev_some (a : ℕ) (h : a < 8) : (uiImageTypeName a).isSome = true := by
  interval_cases a <;> rfl

theorem roundTrip_node (strings : StrTable) (f : UIFields) (cs : List UIParams) :
    roundTrip strings (UIParams.node f cs) =
      UIParams.node (roundTripFields f strings) (roundTripList strings cs) := by
  rw [roundTrip]

theorem roundTripList_eq_map (strings : StrTable) : ∀ cs,
    roundTripList strings cs = cs.map (roundTrip strings) := by
  intro cs
  induction cs with
  | nil => simp [roundTripList]
  | cons c rest ih => simp [roundTripList, ih]

theorem childTokVals_eq_map : ∀ (cs : List UIParams) (strings : StrTable),
    childTokVals cs strings = cs.map (fun c => nodeTokVal c strings) := by
  intro cs strings
  induction cs with
  | nil => simp [childTokVals]
  | cons c rest ih => simp [childTokVals, ih]

theorem norm_children (children : List UIParams) (strings : StrTable)
    (hrec : ∀ c ∈ children,
      normalizeParsedParam (objFieldsOf (nodeTokVal c strings).val) = roundTrip strings c) :
    (normalizeChildrenInput (some (.arr
        (children.map (fun c => (nodeTokVal c strings).val))))).attach.map
      (fun ⟨c, _⟩ => normalizeParsedParam (objFieldsOf c)) =
    roundTripList strings children := by
  have h1 := List.attach_map_coe (children.map (fun c => (nodeTokVal c strings).val))
    (fun c => normalizeParsedParam (objFieldsOf c))
  have h2 : (children.map (fun c => (nodeTokVal c strings).val)).map
      (fun c => normalizeParsedParam (objFieldsOf c)) = roundTripList strings children := by
    rw [List.map_map, roundTripList_eq_map]
    refine List.map_congr_left ?_
    intro c hc
    exact hrec c hc
  exact h1.trans h2

theorem norm_children_opt (v : Option JValue) (children : List UIParams)
    (strings : StrTable)
    (hv : v = some (.arr (children.map (fun c => (nodeTokVal c strings).val))))
    (hrec : ∀ c ∈ children,
      normalizeParsedParam (objFieldsOf (nodeTokVal c strings).val) = roundTrip strings c) :
    (normalizeChildrenInput v).attach.map
      (fun ⟨c, _⟩ => normalizeParsedParam (objFieldsOf c)) =
    roundTripList strings children := by
  subst hv
  exact norm_children children strings hrec

theorem norm_children_none (v : Option JValue) (strings : StrTable) (hv : v = none) :
    (normalizeChildrenInput v).attach.map
      (fun ⟨c, _⟩ => normalizeParsedParam (objFieldsOf c)) =
    roundTripList strings [] := by
  subst hv
  simp [normalizeChildrenInput, roundTripList]

theorem ensureNum_some (q : ℚ) (fb : ℚ) : ensureNumberJ (some (.num q)) fb = q := rfl

theorem ensureNum_none (fb : ℚ) : ensureNumberJ none fb = fb := rfl

theorem ensureEnum_none (rev : ℕ → Option String) (fwd : String → Option ℕ) (fb : ℕ) :
    ensureEnumNumberJ none rev fwd fb = fb := rfl

theorem cloneVec_none (fb : List ℚ) :
    cloneVectorWithFallbackJ none fb = if fb.length ≠ 0 then fb else [] := rfl

theorem ensureElemType_container : ensureElementType (some (.str "Container")) =
    ElemType.Container := rfl

theorem ensureElemType_text : ensureElementType (some (.str "Text")) = ElemType.Text := rfl

theorem ensureElemType_image : ensureElementType (some (.str "Image")) = ElemType.Image := rfl

theorem ensureElemType_button : ensureElementType (some (.str "Button")) =
    ElemType.Button := rfl

theorem nodeRawFields (f : UIFields) (children : List UIParams) (strings : StrTable) :
    objFieldsOf (nodeTokVal (UIParams.node f children) strings).val =
      (nodeProps f strings).map (fun pr => (pr.key, pr.tv.val)) ++
        (if children.length ≠ 0 then
          [("children", JValue.arr (children.map (fun c => (nodeTokVal c strings).val)))]
        else []) := by
  rw [nodeTokVal]
  rw [show objFieldsOf (JValue.obj ((nodeEntries f children strings).map
    (fun e => (e.1, e.2.val)))) =
    (nodeEntries f children strings).map (fun e => (e.1, e.2.val)) from rfl]
  rw [nodeEntries]
  rw [List.map_append, List.map_map]
  congr 1
  by_cases hch : children.length ≠ 0
  · rw [if_pos hch, if_pos hch]
    simp only [List.map_cons, List.map_nil]
    rw [childTokVals_eq_map, List.map_map]
    rfl
  · rw [if_neg hch, if_neg hch]
    rfl

theorem normalize_aux : ∀ (n : ℕ) (p : UIParams), sizeOf p < n →
    canonicalTree p = true → ∀ (strings : StrTable),
    normalizeParsedParam (objFieldsOf (nodeTokVal p strings).val) = roundTrip strings p := by
  intro n
  induction n with
  | zero => intro p hp; exact absurd hp (by omega)
  | succ n ih =>
    intro p hp hcan strings
    obtain ⟨f, children⟩ := p
    obtain ⟨hcf, hcfor⟩ := canonicalTree_node f children hcan
    have hchild : ∀ c ∈ children, sizeOf c < n := by
      intro c hc
      have h1 := List.sizeOf_lt_of_mem hc
      have h2 : sizeOf (UIParams.node f children) = 1 + sizeOf f + sizeOf children := by
        simp
      omega
    have hrec : ∀ c ∈ children,
        normalizeParsedParam (objFieldsOf (nodeTokVal c strings).val) =
          roundTrip strings c := by
      intro c hc
      exact ih c (hchild c hc) (canonicalForest_mem children hcfor c hc) strings
    obtain ⟨hname, hpos, hsize, hanch, hpad, hbg, hbga, hfill⟩ := canonicalFields_base f hcf
    obtain ⟨hnameNe, -⟩ := canonicalName_parts f.name hname
    have hens_name : ensureString (some (.str f.name)) = f.name :=
      ensureString_str f.name hnameNe
    have hens_pos : ∀ fb, cloneVectorWithFallbackJ (some (.arr (f.position.map JValue.num)))
        fb = f.position := fun fb => cloneVec_num _ (canonicalVec_parts _ hpos).1 fb
    have hens_size : ∀ fb, cloneVectorWithFallbackJ (some (.arr (f.size.map JValue.num)))
        fb = f.size := fun fb => cloneVec_num _ (canonicalVec_parts _ hsize).1 fb
    have hens_bg : ∀ fb, cloneVectorWithFallbackJ (some (.arr (f.bgColor.map JValue.num)))
        fb = f.bgColor := fun fb => cloneVec_num _ (canonicalVec_parts _ hbg).1 fb
    have hens_anch : ∀ fb, ensureEnumNumberJ (some (.num (f.anchor : ℚ)))
        uiAnchorName uiAnchorOfName fb = f.anchor :=
      fun fb => ensureEnum_num _ _ _ _ (anchor_rev_some _ hanch)
    have hens_fill : ∀ fb, ensureEnumNumberJ (some (.num (f.bgFill : ℚ)))
        uiBgFillName uiBgFillOfName fb = f.bgFill :=
      fun fb => ensureEnum_num _ _ _ _ (bgfill_rev_some _ hfill)
    rw [nodeRawFields, roundTrip_node, normalizeParsedParam]
    cases htype : f.type
    case Container =>
      by_cases hch : children.length ≠ 0
      · rw [if_pos hch]
        congr 1
        · simp [nodeProps, baseProps, htype, strProp, numProp, boolProp, enumProp, arrProp,
            jsGet, List.find?, hens_name, hens_pos, hens_size, hens_bg, hens_anch, hens_fill,
            ElemType.str, ensureNum_some, ensureNum_none, ensureEnum_none, cloneVec_none,
            ensureElemType_container, ensureElemType_text, ensureElemType_image,
            ensureElemType_button,
            roundTripFields, DEFAULT_UI_PARAMS]
        · have hj : jsGet ((nodeProps f strings).map (fun pr => (pr.key, pr.tv.val)) ++
              [("children", JValue.arr (children.map (fun c => (nodeTokVal c strings).val)))])
              "children" =
              some (JValue.arr (children.map (fun c => (nodeTokVal c strings).val))) := by
            simp [nodeProps, baseProps, htype, strProp, numProp, boolProp, enumProp, arrProp,
              jsGet, List.find?]
          exact norm_children_opt _ children strings hj hrec
      · rw [if_neg hch]
        rw [show children = [] from List.length_eq_zero.mp (by omega)]
        congr 1
        · simp [nodeProps, baseProps, htype, strProp, numProp, boolProp, enumProp, arrProp,
            jsGet, List.find?, hens_name, hens_pos, hens_size, hens_bg, hens_anch, hens_fill,
            ElemType.str, ensureNum_some, ensureNum_none, ensureEnum_none, cloneVec_none,
            ensureElemType_container, ensureElemType_text, ensureElemType_image,
            ensureElemType_button,
            roundTripFields, DEFAULT_UI_PARAMS]
        · have hj : jsGet ((nodeProps f strings).map (fun pr => (pr.key, pr.tv.val)) ++ [])
              "children" = none := by
            simp [nodeProps, baseProps, htype, strProp, numProp, boolProp, enumProp, arrProp,
              jsGet, List.find?]
          exact norm_children_none _ strings hj
    case Text =>
      obtain ⟨-, htc, hta, hts, htan⟩ := canonicalFields_text f hcf htype
      have hens_tc : ∀ fb, cloneVectorWithFallbackJ (some (.arr (f.textColor.map JValue.num)))
          fb = f.textColor := fun fb => cloneVec_num _ (canonicalVec_parts _ htc).1 fb
      have hens_tan : ∀ fb, ensureEnumNumberJ (some (.num (f.textAnchor : ℚ)))
          uiAnchorName uiAnchorOfName fb = f.textAnchor :=
        fun fb => ensureEnum_num _ _ _ _ (anchor_rev_some _ htan)
      cases hloc : getLocalizationKey f strings with
      | some key =>
        by_cases hch : children.length ≠ 0
        · rw [if_pos hch]
          congr 1
          · simp [nodeProps, baseProps, textProps, htype, strProp, numProp, boolProp,
              enumProp, arrProp, labelProp, hloc, jsGet, List.find?, hens_name, hens_pos,
              hens_size, hens_bg, hens_anch, hens_fill, hens_tc, hens_tan,
              ElemType.str, ensureNum_some, ensureNum_none, ensureEnum_none, cloneVec_none,
            ensureElemType_container, ensureElemType_text, ensureElemType_image,
            ensureElemType_button,
              roundTripFields, DEFAULT_UI_PARAMS]
          · have hj : jsGet ((nodeProps f strings).map (fun pr => (pr.key, pr.tv.val)) ++
                [("children", JValue.arr (children.map (fun c => (nodeTokVal c strings).val)))])
                "children" =
                some (JValue.arr (children.map (fun c => (nodeTokVal c strings).val))) := by
              simp [nodeProps, baseProps, textProps, htype, strProp, numProp, boolProp,
                enumProp, arrProp, labelProp, hloc, jsGet, List.find?]
            exact norm_children_opt _ children strings hj hrec
        · rw [if_neg hch]
          rw [show children = [] from List.length_eq_zero.mp (by omega)]
          congr 1
          · simp [nodeProps, baseProps, textProps, htype, strProp, numProp, boolProp,
              enumProp, arrProp, labelProp, hloc, jsGet, List.find?, hens_name, hens_pos,
              hens_size, hens_bg, hens_anch, hens_fill, hens_tc, hens_tan,
              ElemType.str, ensureNum_some, ensureNum_none, ensureEnum_none, cloneVec_none,
            ensureElemType_container, ensureElemType_text, ensureElemType_image,
            ensureElemType_button,
              roundTripFields, DEFAULT_UI_PARAMS]
          · have hj : jsGet ((nodeProps f strings).map (fun pr => (pr.key, pr.tv.val)) ++ [])
                "children" = none := by
              simp [nodeProps, baseProps, textProps, htype, strProp, numProp, boolProp,
                enumProp, arrProp, labelProp, hloc, jsGet, List.find?]
            exact norm_children_none _ strings hj
      | none =>
        by_cases hch : children.length ≠ 0
        · rw [if_pos hch]
          congr 1
          · simp [nodeProps, baseProps, textProps, htype, strProp, numProp, boolProp,
              enumProp, arrProp, labelProp, hloc, jsGet, List.find?, hens_name, hens_pos,
              hens_size, hens_bg, hens_anch, hens_fill, hens_tc, hens_tan,
              ElemType.str, ensureNum_some, ensureNum_none, ensureEnum_none, cloneVec_none,
            ensureElemType_container, ensureElemType_text, ensureElemType_image,
            ensureElemType_button,
              roundTripFields, DEFAULT_UI_PARAMS]
          · have hj : jsGet ((nodeProps f strings).map (fun pr => (pr.key, pr.tv.val)) ++
                [("children", JValue.arr (children.map (fun c => (nodeTokVal c strings).val)))])
                "children" =
                some (JValue.arr (children.map (fun c => (nodeTokVal c strings).val))) := by
              simp [nodeProps, baseProps, textProps, htype, strProp, numProp, boolProp,
                enumProp, arrProp, labelProp, hloc, jsGet, List.find?]
            exact norm_children_opt _ children strings hj hrec
        · rw [if_neg hch]
          rw [show children = [] from List.length_eq_zero.mp (by omega)]
          congr 1
          · simp [nodeProps, baseProps, textProps, htype, strProp, numProp, boolProp,
              enumProp, arrProp, labelProp, hloc, jsGet, List.find?, hens_name, hens_pos,
              hens_size, hens_bg, hens_anch, hens_fill, hens_tc, hens_tan,
              ElemType.str, ensureNum_some, ensureNum_none, ensureEnum_none, cloneVec_none,
            ensureElemType_container, ensureElemType_text, ensureElemType_image,
            ensureElemType_button,
              roundTripFields, DEFAULT_UI_PARAMS]
          · have hj : jsGet ((nodeProps f strings).map (fun pr => (pr.key, pr.tv.val)) ++ [])
                "children" = none := by
              simp [nodeProps, baseProps, textProps, htype, strProp, numProp, boolProp,
                enumProp, arrProp, labelProp, hloc, jsGet, List.find?]
            exact norm_children_none _ strings hj
    case Image =>
      obtain ⟨himg, hic, hia⟩ := canonicalFields_image f hcf htype
      have hens_ic : ∀ fb, cloneVectorWithFallbackJ (some (.arr (f.imageColor.map JValue.num)))
          fb = f.imageColor := fun fb => cloneVec_num _ (canonicalVec_parts _ hic).1 fb
      have hens_it : ∀ fb, ensureEnumNumberJ (some (.num (f.imageType : ℚ)))
          uiImageTypeName uiImageTypeOfName fb = f.imageType :=
        fun fb => ensureEnum_num _ _ _ _ (imagetype_rev_some _ himg)
      by_cases hch : children.length ≠ 0
      · rw [if_pos hch]
        congr 1
        · simp [nodeProps, baseProps, imageProps, htype, strProp, numProp, boolProp,
            enumProp, arrProp, jsGet, List.find?, hens_name, hens_pos, hens_size, hens_bg,
            hens_anch, hens_fill, hens_ic, hens_it, ElemType.str, ensureNum_some,
            ensureNum_none, ensureEnum_none, cloneVec_none, ensureElemType_container,
            ensureElemType_text, ensureElemType_image, ensureElemType_button,
            roundTripFields, DEFAULT_UI_PARAMS]
        · have hj : jsGet ((nodeProps f strings).map (fun pr => (pr.key, pr.tv.val)) ++
              [("children", JValue.arr (children.map (fun c => (nodeTokVal c strings).val)))])
              "children" =
              some (JValue.arr (children.map (fun c => (nodeTokVal c strings).val))) := by
            simp [nodeProps, baseProps, imageProps, htype, strProp, numProp, boolProp,
              enumProp, arrProp, jsGet, List.find?]
          exact norm_children_opt _ children strings hj hrec
      · rw [if_neg hch]
        rw [show children = [] from List.length_eq_zero.mp (by omega)]
        congr 1
        · simp [nodeProps, baseProps, imageProps, htype, strProp, numProp, boolProp,
            enumProp, arrProp, jsGet, List.find?, hens_name, hens_pos, hens_size, hens_bg,
            hens_anch, hens_fill, hens_ic, hens_it, ElemType.str, ensureNum_some,
            ensureNum_none, ensureEnum_none, cloneVec_none, ensureElemType_container,
            ensureElemType_text, ensureElemType_image, ensureElemType_button,
            roundTripFields, DEFAULT_UI_PARAMS]
        · have hj : jsGet ((nodeProps f strings).map (fun pr => (pr.key, pr.tv.val)) ++ [])
              "children" = none := by
            simp [nodeProps, baseProps, imageProps, htype, strProp, numProp, boolProp,
              enumProp, arrProp, jsGet, List.find?]
          exact norm_children_none _ strings hj
    case Button =>
      obtain ⟨hb1, ha1, hb2, ha2, hb3, ha3, hb4, ha4, hb5, ha5⟩ :=
        canonicalFields_button f hcf htype
      have hens_b1 : ∀ fb, cloneVectorWithFallbackJ
          (some (.arr (f.buttonColorBase.map JValue.num))) fb = f.buttonColorBase :=
        fun fb => cloneVec_num _ (canonicalVec_parts _ hb1).1 fb
      have hens_b2 : ∀ fb, cloneVectorWithFallbackJ
          (some (.arr (f.buttonColorDisabled.map JValue.num))) fb = f.buttonColorDisabled :=
        fun fb => cloneVec_num _ (canonicalVec_parts _ hb2).1 fb
      have hens_b3 : ∀ fb, cloneVectorWithFallbackJ
          (some (.arr (f.buttonColorPressed.map JValue.num))) fb = f.buttonColorPressed :=
        fun fb => cloneVec_num _ (canonicalVec_parts _ hb3).1 fb
      have hens_b4 : ∀ fb, cloneVectorWithFallbackJ
          (some (.arr (f.buttonColorHover.map JValue.num))) fb = f.buttonColorHover :=
        fun fb => cloneVec_num _ (canonicalVec_parts _ hb4).1 fb
      have hens_b5 : ∀ fb, cloneVectorWithFallbackJ
          (some (.arr (f.buttonColorFocused.map JValue.num))) fb = f.buttonColorFocused :=
        fun fb => cloneVec_num _ (canonicalVec_parts _ hb5).1 fb
      by_cases hch : children.length ≠ 0
      · rw [if_pos hch]
        congr 1
        · simp [nodeProps, baseProps, buttonProps, htype, strProp, numProp, boolProp,
            enumProp, arrProp, jsGet, List.find?, hens_name, hens_pos, hens_size, hens_bg,
            hens_anch, hens_fill, hens_b1, hens_b2, hens_b3, hens_b4, hens_b5,
            ElemType.str, ensureNum_some, ensureNum_none, ensureEnum_none, cloneVec_none,
            ensureElemType_container, ensureElemType_text, ensureElemType_image,
            ensureElemType_button,
            roundTripFields, DEFAULT_UI_PARAMS]
        · have hj : jsGet ((nodeProps f strings).map (fun pr => (pr.key, pr.tv.val)) ++
              [("children", JValue.arr (children.map (fun c => (nodeTokVal c strings).val)))])
              "children" =
              some (JValue.arr (children.map (fun c => (nodeTokVal c strings).val))) := by
            simp [nodeProps, baseProps, buttonProps, htype, strProp, numProp, boolProp,
              enumProp, arrProp, jsGet, List.find?]
          exact norm_children_opt _ children strings hj hrec
      · rw [if_neg hch]
        rw [show children = [] from List.length_eq_zero.mp (by omega)]
        congr 1
        · simp [nodeProps, baseProps, buttonProps, htype, strProp, numProp, boolProp,
            enumProp, arrProp, jsGet, List.find?, hens_name, hens_pos, hens_size, hens_bg,
            hens_anch, hens_fill, hens_b1, hens_b2, hens_b3, hens_b4, hens_b5,
            ElemType.str, ensureNum_some, ensureNum_none, ensureEnum_none, cloneVec_none,
            ensureElemType_container, ensureElemType_text, ensureElemType_image,
            ensureElemType_button,
            roundTripFields, DEFAULT_UI_PARAMS]
        · have hj : jsGet ((nodeProps f strings).map (fun pr => (pr.key, pr.tv.val)) ++ [])
              "children" = none := by
            simp [nodeProps, baseProps, buttonProps, htype, strProp, numProp, boolProp,
              enumProp, arrProp, jsGet, List.find?]
          exact norm_children_none _ strings hj

/-- Normalizing the value a canonical node's tokens parse to yields exactly
the round-trip transform of the node. -/
theorem normalize_nodeTokVal (p : UIParams) (hcan : canonicalTree p = true)
    (strings : StrTable) :
    normalizeParsedParam (objFieldsOf (nodeTokVal p strings).val) = roundTrip strings p :=
  normalize_aux (sizeOf p + 1) p (by omega) hcan strings

/-! ## The balance scanner walks the emission without changing state -/

/-- A character the extraction scanner copies verbatim in non-string state:
not a slash, parenthesis, quote or backslash. -/
def scanPlainB (c : Char) : Bool :=
  !(c == '/' || c == '(' || c == ')' || c == '\x22' || c == '\x27' || c == '\x5c')

theorem scanPlainB_elim (c : Char) (h : scanPlainB c = true) :
    c ≠ '/' ∧ c ≠ '(' ∧ c ≠ ')' ∧ c ≠ '\x22' ∧ c ≠ '\x27' ∧ c ≠ '\x5c' := by
  simp only [scanPlainB, Bool.not_eq_eq_eq_not, Bool.not_true, Bool.or_eq_false_iff,
    beq_eq_false_iff_ne] at h
  tauto

theorem scanPlainB_of_toNat (c : Char) (h : c.toNat ≠ 47 ∧ c.toNat ≠ 40 ∧ c.toNat ≠ 41 ∧
    c.toNat ≠ 34 ∧ c.toNat ≠ 39 ∧ c.toNat ≠ 92) : scanPlainB c = true := by
  obtain ⟨h1, h2, h3, h4, h5, h6⟩ := h
  simp only [scanPlainB, Bool.not_eq_eq_eq_not, Bool.not_true, Bool.or_eq_false_iff,
    beq_eq_false_iff_ne]
  refine ⟨⟨⟨⟨⟨?_, ?_⟩, ?_⟩, ?_⟩, ?_⟩, ?_⟩ <;>
    first
      | exact char_ne_of_toNat_ne c '/' (by simpa using h1)
      | exact char_ne_of_toNat_ne c '(' (by simpa using h2)
      | exact char_ne_of_toNat_ne c ')' (by simpa using h3)
      | exact char_ne_of_toNat_ne c '\x22' (by simpa using h4)
      | exact char_ne_of_toNat_ne c '\x27' (by simpa using h5)
      | exact char_ne_of_toNat_ne c '\x5c' (by simpa using h6)

theorem scanPlain_ws (c : Char) (h : jsWhitespaceB c = true) : scanPlainB c = true := by
  simp only [jsWhitespaceB, Bool.or_eq_true, beq_iff_eq] at h
  rcases h with ((h | h) | h) | h <;> subst h <;> decide

theorem scanPlain_digit (c : Char) (h : isDigitB c = true) : scanPlainB c = true := by
  obtain ⟨h1, h2⟩ := isDigitB_toNat c h
  exact scanPlainB_of_toNat c (by omega)

theorem isIdentPartB_cases (c : Char) (h : isIdentPartB c = true) :
    (65 ≤ c.toNat ∧ c.toNat ≤ 90) ∨ (97 ≤ c.toNat ∧ c.toNat ≤ 122) ∨
    (48 ≤ c.toNat ∧ c.toNat ≤ 57) ∨ c.toNat = 95 ∨ c.toNat = 46 := by
  obtain h1 | h1 | h1 | h1 | h1 :
      ('A' ≤ c ∧ c ≤ 'Z') ∨ ('a' ≤ c ∧ c ≤ 'z') ∨ isDigitB c = true ∨ c = '_' ∨ c = '.' := by
    simpa [isIdentPartB, Bool.or_eq_true, Bool.and_eq_true, decide_eq_true_eq,
      beq_iff_eq, or_assoc] using h
  · exact Or.inl ⟨h1.1, h1.2⟩
  · exact Or.inr (Or.inl ⟨h1.1, h1.2⟩)
  · exact Or.inr (Or.inr (Or.inl (isDigitB_toNat c h1)))
  · subst h1; exact Or.inr (Or.inr (Or.inr (Or.inl rfl)))
  · subst h1; exact Or.inr (Or.inr (Or.inr (Or.inr rfl)))

theorem scanPlain_identPart (c : Char) (h : isIdentPartB c = true) : scanPlainB c = true := by
  rcases isIdentPartB_cases c h with h1 | h1 | h1 | h1 | h1 <;>
    exact scanPlainB_of_toNat c (by omega)

theorem natDecChars_plain (n : ℕ) : ∀ c ∈ natDecChars n, scanPlainB c = true :=
  fun c hc => scanPlain_digit c (natDecChars_digits n c hc)

theorem dropTrailingZeros_subset (xs : List Char) (c : Char)
    (h : c ∈ dropTrailingZeros xs) : c ∈ xs := by
  rw [dropTrailingZeros] at h
  rw [List.mem_reverse] at h
  have := (List.dropWhile_sublist (fun c2 => c2 == '0')).subset h
  exact List.mem_reverse.mp this

theorem natPad4_plain (f : ℕ) : ∀ c ∈ natPad4Chars f, scanPlainB c = true := by
  intro c hc
  rw [natPad4Chars] at hc
  rcases List.mem_append.mp hc with h | h
  · rw [List.eq_of_mem_replicate h]
    decide
  · exact natDecChars_plain _ c h

theorem natPad4_digits (f : ℕ) : ∀ c ∈ natPad4Chars f, isDigitB c = true := by
  intro c hc
  rw [natPad4Chars] at hc
  rcases List.mem_append.mp hc with h | h
  · rw [List.eq_of_mem_replicate h]
    decide
  · exact natDecChars_digits _ c h

theorem scaledTail_plain (m : ℕ) (c : Char)
    (h : c ∈ '.' :: dropTrailingZeros (natPad4Chars m)) : scanPlainB c = true := by
  rcases List.mem_cons.mp h with h1 | h1
  · subst h1; decide
  · exact scanPlain_digit c (natPad4_digits m c (dropTrailingZeros_subset _ c h1))

theorem scaledDecChars_plain (n : ℤ) : ∀ c ∈ scaledDecChars n, scanPlainB c = true := by
  intro c hc
  rw [scaledDecChars] at hc
  split_ifs at hc
  · rcases List.mem_append.mp hc with h | h
    · rw [List.mem_singleton] at h
      subst h
      decide
    · exact natDecChars_plain _ c h
  · rw [List.nil_append] at hc
    exact natDecChars_plain _ c hc
  · rcases List.mem_append.mp hc with h | h
    · rcases List.mem_append.mp h with h2 | h2
      · rw [List.mem_singleton] at h2
        subst h2
        decide
      · exact natDecChars_plain _ c h2
    · exact scaledTail_plain _ c h
  · rcases List.mem_append.mp hc with h | h
    · rw [List.nil_append] at h
      exact natDecChars_plain _ c h
    · exact scaledTail_plain _ c h

theorem formatNumber_plain (q : ℚ) : ∀ c ∈ (formatNumber q).data, scanPlainB c = true := by
  intro c hc
  rw [formatNumber] at hc
  split_ifs at hc
  · rw [show (String.mk (intDecChars q.num)).data = intDecChars q.num from rfl] at hc
    rw [intDecChars] at hc
    split_ifs at hc
    · rcases List.mem_cons.mp hc with h | h
      · subst h; decide
      · exact natDecChars_plain _ c h
    · exact natDecChars_plain _ c hc
  · rw [show (String.mk (scaledDecChars ⌊q * 10000 + 1 / 2⌋)).data =
      scaledDecChars ⌊q * 10000 + 1 / 2⌋ from rfl] at hc
    exact scaledDecChars_plain _ c hc

theorem extractBalanced_plain (sq : Char) (payload : List Char) (c : Char)
    (hc : scanPlainB c = true) (cs : List Char) :
    extractBalanced 1 false sq false payload (c :: cs) =
      extractBalanced 1 false sq false (payload ++ [c]) cs := by
  obtain ⟨h1, h2, h3, h4, h5, h6⟩ := scanPlainB_elim c hc
  rw [extractBalanced]
  rw [if_neg (by simp [h1]), if_neg (by simp [h1]), if_neg (by simp [h4, h5]),
    if_neg (by simp), if_neg h2, if_neg h3]

theorem extractBalanced_plains (sq : Char) : ∀ (xs : List Char),
    (∀ c ∈ xs, scanPlainB c = true) → ∀ (payload cs : List Char),
    extractBalanced 1 false sq false payload (xs ++ cs) =
      extractBalanced 1 false sq false (payload ++ xs) cs := by
  intro xs
  induction xs with
  | nil => intro _ payload cs; simp
  | cons c cst ih =>
    intro h payload cs
    rw [List.cons_append, extractBalanced_plain sq payload c (h c (by simp)) (cst ++ cs)]
    rw [ih (fun d hd => h d (by simp [hd])) (payload ++ [c]) cs]
    simp

theorem extractBalanced_instring_plain (q : Char) (payload : List Char) (c : Char)
    (h1 : c ≠ '\x5c') (h2 : c ≠ q) (cs : List Char) :
    extractBalanced 1 true q false payload (c :: cs) =
      extractBalanced 1 true q false (payload ++ [c]) cs := by
  rw [extractBalanced]
  rw [if_neg (by simp), if_neg (by simp), if_neg (by simp), if_pos rfl]
  rw [if_neg (by simp), if_neg h1, if_neg h2]

theorem extractBalanced_esc_pair (q : Char) (payload : List Char) (x : Char)
    (cs : List Char) :
    extractBalanced 1 true q false payload ('\x5c' :: x :: cs) =
      extractBalanced 1 true q false (payload ++ ['\x5c', x]) cs := by
  rw [extractBalanced]
  rw [if_neg (by simp), if_neg (by simp), if_neg (by simp), if_pos rfl]
  rw [if_neg (by simp), if_pos rfl]
  rw [extractBalanced]
  rw [if_neg (by simp), if_neg (by simp), if_neg (by simp), if_pos rfl]
  rw [if_pos rfl]
  simp

theorem extractBalanced_openQuote (sq : Char) (payload cs : List Char) :
    extractBalanced 1 false sq false payload ('\x22' :: cs) =
      extractBalanced 1 true '\x22' false (payload ++ ['\x22']) cs := by
  rw [extractBalanced]
  rw [if_neg (by simp), if_neg (by simp), if_pos ⟨rfl, Or.inl rfl⟩]

theorem extractBalanced_closeQuote (payload cs : List Char) :
    extractBalanced 1 true '\x22' false payload ('\x22' :: cs) =
      extractBalanced 1 false '\x22' false (payload ++ ['\x22']) cs := by
  rw [extractBalanced]
  rw [if_neg (by simp), if_neg (by simp), if_neg (by simp), if_pos rfl]
  rw [if_neg (by simp), if_neg (by decide), if_pos rfl]

theorem jsonSafe_not_low (c : Char) (h : jsonSafeB c = true) (h1 : c ≠ '\n') (h2 : c ≠ '\r')
    (h3 : c ≠ '\t') : 32 ≤ c.toNat := by
  simp only [jsonSafeB, Bool.or_eq_true, beq_iff_eq, decide_eq_true_eq] at h
  rcases h with ((h | h) | h) | h
  · exact absurd h h1
  · exact absurd h h2
  · exact absurd h h3
  · exact h

theorem extract_string_body : ∀ (s : List Char), (∀ c ∈ s, jsonSafeB c = true) →
    ∀ (payload cs : List Char),
    extractBalanced 1 true '\x22' false payload ((s.map jsonEscapeChar).flatten ++ cs) =
      extractBalanced 1 true '\x22' false (payload ++ (s.map jsonEscapeChar).flatten) cs := by
  intro s
  induction s with
  | nil => intro _ payload cs; simp
  | cons c ct ih =>
    intro h payload cs
    have hc := h c (by simp)
    have hct : ∀ d ∈ ct, jsonSafeB d = true := fun d hd => h d (by simp [hd])
    simp only [List.map_cons, List.flatten_cons, List.append_assoc]
    by_cases h1 : c = '\x22'
    · subst h1
      rw [show jsonEscapeChar '\x22' = ['\x5c', '\x22'] from rfl]
      rw [show (['\x5c', '\x22'] ++ ((ct.map jsonEscapeChar).flatten ++ cs) : List Char) =
        '\x5c' :: '\x22' :: ((ct.map jsonEscapeChar).flatten ++ cs) from rfl]
      rw [extractBalanced_esc_pair, ih hct]
      simp
    · by_cases h2 : c = '\x5c'
      · subst h2
        rw [show jsonEscapeChar '\x5c' = ['\x5c', '\x5c'] from rfl]
        rw [show (['\x5c', '\x5c'] ++ ((ct.map jsonEscapeChar).flatten ++ cs) : List Char) =
          '\x5c' :: '\x5c' :: ((ct.map jsonEscapeChar).flatten ++ cs) from rfl]
        rw [extractBalanced_esc_pair, ih hct]
        simp
      · by_cases h3 : c = '\n'
        · subst h3
          rw [show jsonEscapeChar '\n' = ['\x5c', 'n'] from rfl]
          rw [show (['\x5c', 'n'] ++ ((ct.map jsonEscapeChar).flatten ++ cs) : List Char) =
            '\x5c' :: 'n' :: ((ct.map jsonEscapeChar).flatten ++ cs) from rfl]
          rw [extractBalanced_esc_pair, ih hct]
          simp
        · by_cases h4 : c = '\r'
          · subst h4
            rw [show jsonEscapeChar '\r' = ['\x5c', 'r'] from rfl]
            rw [show (['\x5c', 'r'] ++ ((ct.map jsonEscapeChar).flatten ++ cs) : List Char) =
              '\x5c' :: 'r' :: ((ct.map jsonEscapeChar).flatten ++ cs) from rfl]
            rw [extractBalanced_esc_pair, ih hct]
            simp
          · by_cases h5 : c = '\t'
            · subst h5
              rw [show jsonEscapeChar '\t' = ['\x5c', 't'] from rfl]
              rw [show (['\x5c', 't'] ++ ((ct.map jsonEscapeChar).flatten ++ cs) : List Char) =
                '\x5c' :: 't' :: ((ct.map jsonEscapeChar).flatten ++ cs) from rfl]
              rw [extractBalanced_esc_pair, ih hct]
              simp
            · have hlow : 32 ≤ c.toNat := jsonSafe_not_low c hc h3 h4 h5
              have hesc : jsonEscapeChar c = [c] := by
                rw [jsonEscapeChar]
                rw [if_neg h1, if_neg h2, if_neg h3, if_neg h4, if_neg h5,
                  if_neg (char_ne_of_toNat_ne c '\x08' (by simp; omega)),
                  if_neg (char_ne_of_toNat_ne c '\x0c' (by simp; omega)),
                  if_neg (by omega)]
              rw [hesc]
              rw [show (([c] : List Char) ++ ((ct.map jsonEscapeChar).flatten ++ cs)) =
                c :: ((ct.map jsonEscapeChar).flatten ++ cs) from rfl]
              rw [extractBalanced_instring_plain '\x22' payload c h2 h1, ih hct]
              simp

theorem extract_string (s : String) (hs : ∀ c ∈ s.data, jsonSafeB c = true)
    (sq : Char) (payload cs : List Char) :
    extractBalanced 1 false sq false payload (jsonQuoteChars s.data ++ cs) =
      extractBalanced 1 false '\x22' false (payload ++ jsonQuoteChars s.data) cs := by
  rw [jsonQuoteChars]
  rw [show ((('\x22' :: (s.data.map jsonEscapeChar).flatten) ++ ['\x22']) ++ cs : List Char) =
    '\x22' :: ((s.data.map jsonEscapeChar).flatten ++ ('\x22' :: cs)) by simp]
  rw [extractBalanced_openQuote]
  rw [extract_string_body s.data hs]
  rw [extractBalanced_closeQuote]
  simp

theorem extract_emission : ∀ (L : List Lex) (cont : List Char), EmitOk L cont →
    ∀ (sq : Char) (payload cs : List Char),
    ∃ sq2, extractBalanced 1 false sq false payload (renderL L ++ cs) =
      extractBalanced 1 false sq2 false (payload ++ renderL L) cs := by
  intro L
  induction L with
  | nil => intro cont _ sq payload cs; exact ⟨sq, by rw [renderL_nil]; simp⟩
  | cons l L ih =>
    intro cont hok sq payload cs
    rw [renderL_cons, List.append_assoc]
    cases l with
    | ws cs2 =>
      obtain ⟨hws, hok2⟩ := hok
      rw [show Lex.render (.ws cs2) = cs2 from rfl]
      rw [extractBalanced_plains sq cs2 (fun c hc => scanPlain_ws c (hws c hc)) payload _]
      obtain ⟨sq2, hres⟩ := ih cont hok2 sq (payload ++ cs2) cs
      refine ⟨sq2, ?_⟩
      rw [hres]
      simp
    | lbrace =>
      have hok2 : EmitOk L cont := hok
      rw [show Lex.render .lbrace = ['\x7b'] from rfl, List.singleton_append]
      rw [extractBalanced_plain sq payload '\x7b' (by decide) _]
      obtain ⟨sq2, hres⟩ := ih cont hok2 sq (payload ++ ['\x7b']) cs
      refine ⟨sq2, ?_⟩
      rw [hres]
      simp
    | rbrace =>
      have hok2 : EmitOk L cont := hok
      rw [show Lex.render .rbrace = ['\x7d'] from rfl, List.singleton_append]
      rw [extractBalanced_plain sq payload '\x7d' (by decide) _]
      obtain ⟨sq2, hres⟩ := ih cont hok2 sq (payload ++ ['\x7d']) cs
      refine ⟨sq2, ?_⟩
      rw [hres]
      simp
    | lbrack =>
      have hok2 : EmitOk L cont := hok
      rw [show Lex.render .lbrack = ['['] from rfl, List.singleton_append]
      rw [extractBalanced_plain sq payload '[' (by decide) _]
      obtain ⟨sq2, hres⟩ := ih cont hok2 sq (payload ++ ['[']) cs
      refine ⟨sq2, ?_⟩
      rw [hres]
      simp
    | rbrack =>
      have hok2 : EmitOk L cont := hok
      rw [show Lex.render .rbrack = [']'] from rfl, List.singleton_append]
      rw [extractBalanced_plain sq payload ']' (by decide) _]
      obtain ⟨sq2, hres⟩ := ih cont hok2 sq (payload ++ [']']) cs
      refine ⟨sq2, ?_⟩
      rw [hres]
      simp
    | colonL =>
      have hok2 : EmitOk L cont := hok
      rw [show Lex.render .colonL = [':'] from rfl, List.singleton_append]
      rw [extractBalanced_plain sq payload ':' (by decide) _]
      obtain ⟨sq2, hres⟩ := ih cont hok2 sq (payload ++ [':']) cs
      refine ⟨sq2, ?_⟩
      rw [hres]
      simp
    | commaL =>
      have hok2 : EmitOk L cont := hok
      rw [show Lex.render .commaL = [','] from rfl, List.singleton_append]
      rw [extractBalanced_plain sq payload ',' (by decide) _]
      obtain ⟨sq2, hres⟩ := ih cont hok2 sq (payload ++ [',']) cs
      refine ⟨sq2, ?_⟩
      rw [hres]
      simp
    | strL s =>
      obtain ⟨hsafe, hok2⟩ := hok
      rw [show Lex.render (.strL s) = jsonQuoteChars s.data from rfl]
      rw [extract_string s hsafe sq payload _]
      obtain ⟨sq2, hres⟩ := ih cont hok2 '\x22' (payload ++ jsonQuoteChars s.data) cs
      refine ⟨sq2, ?_⟩
      rw [hres]
      simp
    | numL q =>
      obtain ⟨hq, hb, hok2⟩ := hok
      rw [show Lex.render (.numL q) = (formatNumber q).data from rfl]
      rw [extractBalanced_plains sq (formatNumber q).data (formatNumber_plain q) payload _]
      obtain ⟨sq2, hres⟩ := ih cont hok2 sq (payload ++ (formatNumber q).data) cs
      refine ⟨sq2, ?_⟩
      rw [hres]
      simp
    | identL s =>
      obtain ⟨hid, hb, hok2⟩ := hok
      rw [show Lex.render (.identL s) = s.data from rfl]
      have hparts : ∀ c ∈ s.data, scanPlainB c = true := by
        intro c hcm
        refine scanPlain_identPart c ?_
        rw [identShape] at hid
        rcases hsd : s.data with _ | ⟨c2, cs2⟩
        · rw [hsd] at hcm; simp at hcm
        · rw [hsd] at hid
          exact hid.2 c (by rw [hsd] at hcm; exact hcm)
      rw [extractBalanced_plains sq s.data hparts payload _]
      obtain ⟨sq2, hres⟩ := ih cont hok2 sq (payload ++ s.data) cs
      refine ⟨sq2, ?_⟩
      rw [hres]
      simp

/-! ## The serialized text, its extraction and its trim -/

theorem interNLex_render_join : ∀ (ls : List (List Lex)) (ss : List String),
    ls.map renderL = ss.map (fun s => s.data) →
    renderL (interNLex ls) = (String.intercalate "\n" ss).data := by
  intro ls
  induction ls with
  | nil =>
    intro ss h
    cases ss with
    | nil => rfl
    | cons s st => exact absurd h (by simp)
  | cons a ls2 ih =>
    intro ss h
    cases ss with
    | nil => exact absurd h (by simp)
    | cons s st =>
      simp only [List.map_cons, List.cons.injEq] at h
      obtain ⟨h1, h2⟩ := h
      rw [intercalate_data]
      cases ls2 with
      | nil =>
        cases st with
        | nil =>
          rw [show interNLex [a] = a from rfl, h1]
          simp
        | cons s2 st2 => exact absurd h2 (by simp)
      | cons b ls3 =>
        cases st with
        | nil => exact absurd h2 (by simp)
        | cons t st3 =>
          rw [show interNLex (a :: b :: ls3) = a ++ (Lex.ws ['\n'] :: interNLex (b :: ls3))
            from rfl]
          rw [renderL_append, renderL_cons, h1]
          have hrec := ih (t :: st3) h2
          rw [intercalate_data] at hrec
          rw [show Lex.render (Lex.ws ['\n']) = ['\n'] from rfl, hrec]
          simp [show ("\n" : String).data = ['\n'] from rfl]

theorem ser_data (p : UIParams) (lvl : ℕ) (strings : StrTable) :
    (serializeParamToTypescript p lvl strings).data =
      renderL (interNLex (emitParamLines p lvl strings)) := by
  rw [serializeParamToTypescript]
  exact (interNLex_render_join _ _ (renderLines_eq p lvl strings)).symm

theorem emitParamLines_shape (f : UIFields) (children : List UIParams) (lvl : ℕ)
    (strings : StrTable) :
    ∃ mid, emitParamLines (UIParams.node f children) lvl strings =
      [Lex.ws (List.replicate (2 * lvl) ' '), Lex.lbrace] ::
        (mid ++ [[Lex.ws (List.replicate (2 * lvl) ' '), Lex.rbrace]]) := by
  rw [emitParamLines]
  exact ⟨_, rfl⟩

theorem interNLex_render_first (l1 : List Lex) (ls : List (List Lex)) (hne : ls ≠ []) :
    renderL (interNLex (l1 :: ls)) = renderL l1 ++ '\n' :: renderL (interNLex ls) := by
  cases ls with
  | nil => exact absurd rfl hne
  | cons b bs =>
    rw [show interNLex (l1 :: b :: bs) = l1 ++ (Lex.ws ['\n'] :: interNLex (b :: bs)) from rfl]
    rw [renderL_append, renderL_cons]
    rw [show Lex.render (Lex.ws ['\n']) = ['\n'] from rfl]
    simp

theorem interNLex_render_last : ∀ (ls : List (List Lex)) (lst : List Lex),
    ∃ N, renderL (interNLex (ls ++ [lst])) = N ++ renderL lst := by
  intro ls
  induction ls with
  | nil =>
    intro lst
    exact ⟨[], by rw [show (([] : List (List Lex)) ++ [lst]) = [lst] from rfl,
      show interNLex [lst] = lst from rfl]; simp⟩
  | cons a as ih =>
    intro lst
    obtain ⟨N, hN⟩ := ih lst
    rcases hcons : as ++ [lst] with _ | ⟨b, bs⟩
    · exact absurd hcons (by simp)
    · refine ⟨renderL a ++ '\n' :: N, ?_⟩
      rw [List.cons_append, hcons]
      rw [show interNLex (a :: b :: bs) = a ++ (Lex.ws ['\n'] :: interNLex (b :: bs)) from rfl]
      rw [renderL_append, renderL_cons]
      rw [show Lex.render (Lex.ws ['\n']) = ['\n'] from rfl]
      rw [← hcons, hN]
      simp

theorem nodeRender_shape (p : UIParams) (lvl : ℕ) (strings : StrTable) :
    (∃ M, renderL (interNLex (emitParamLines p lvl strings)) =
      List.replicate (2 * lvl) ' ' ++ '\x7b' :: M) ∧
    (∃ N, renderL (interNLex (emitParamLines p lvl strings)) = N ++ ['\x7d']) := by
  obtain ⟨f, children⟩ := p
  obtain ⟨mid, hmid⟩ := emitParamLines_shape f children lvl strings
  constructor
  · rw [hmid]
    rw [interNLex_render_first _ _ (by simp)]
    rw [show renderL [Lex.ws (List.replicate (2 * lvl) ' '), Lex.lbrace] =
      List.replicate (2 * lvl) ' ' ++ ['\x7b'] by simp [renderL, Lex.render]]
    refine ⟨'\n' :: renderL (interNLex
      (mid ++ [[Lex.ws (List.replicate (2 * lvl) ' '), Lex.rbrace]])), ?_⟩
    simp
  · rw [hmid]
    rw [show ([Lex.ws (List.replicate (2 * lvl) ' '), Lex.lbrace] ::
      (mid ++ [[Lex.ws (List.replicate (2 * lvl) ' '), Lex.rbrace]])) =
      (([Lex.ws (List.replicate (2 * lvl) ' '), Lex.lbrace] :: mid) ++
        [[Lex.ws (List.replicate (2 * lvl) ' '), Lex.rbrace]]) from rfl]
    obtain ⟨N, hN⟩ := interNLex_render_last
      ([Lex.ws (List.replicate (2 * lvl) ' '), Lex.lbrace] :: mid)
      [Lex.ws (List.replicate (2 * lvl) ' '), Lex.rbrace]
    rw [hN]
    rw [show renderL [Lex.ws (List.replicate (2 * lvl) ' '), Lex.rbrace] =
      List.replicate (2 * lvl) ' ' ++ ['\x7d'] by simp [renderL, Lex.render]]
    refine ⟨N ++ List.replicate (2 * lvl) ' ', ?_⟩
    simp

theorem jsTrim_snippet (E : List Char) (k : ℕ) (M N : List Char)
    (h1 : E = List.replicate k ' ' ++ '\x7b' :: M) (h2 : E = N ++ ['\x7d']) :
    jsTrimChars (('\n' :: E) ++ ['\n']) = '\x7b' :: M := by
  have hlastq : ∀ (l : List Char) (a : Char), (l ++ [a]).getLast? = some a := by
    intro l a
    exact List.getLast?_concat l
  have hM : ∃ M0, M = M0 ++ ['\x7d'] := by
    rcases List.eq_nil_or_concat M with hnil | ⟨M0, d, hMd⟩
    · subst hnil
      have he := h1.symm.trans h2
      have h3 := congrArg List.getLast? he
      rw [hlastq, hlastq] at h3
      exact absurd h3 (by simp)
    · rw [List.concat_eq_append] at hMd
      have he := h1.symm.trans h2
      rw [hMd] at he
      have hsh : List.replicate k ' ' ++ '\x7b' :: (M0 ++ [d]) =
          (List.replicate k ' ' ++ '\x7b' :: M0) ++ [d] := by simp
      rw [hsh] at he
      have h3 := congrArg List.getLast? he
      rw [hlastq, hlastq] at h3
      simp only [Option.some.injEq] at h3
      exact ⟨M0, by rw [hMd, h3]⟩
  obtain ⟨M0, hM0⟩ := hM
  rw [jsTrimChars]
  have hfront : List.dropWhile jsWhitespaceB (('\n' :: E) ++ ['\n']) =
      '\x7b' :: (M ++ ['\n']) := by
    rw [List.cons_append, List.dropWhile_cons, if_pos (by decide)]
    rw [h1, List.append_assoc]
    rw [dropWhile_append_all jsWhitespaceB (List.replicate k ' ') _
      (fun c hc => by rw [List.eq_of_mem_replicate hc]; decide)]
    rw [show (('\x7b' :: M) ++ ['\n'] : List Char) = '\x7b' :: (M ++ ['\n']) from rfl]
    rw [List.dropWhile_cons, if_neg (by decide)]
  rw [hfront, hM0]
  have hrev : ('\x7b' :: ((M0 ++ ['\x7d']) ++ ['\n'])).reverse =
      '\n' :: '\x7d' :: (M0.reverse ++ ['\x7b']) := by simp
  rw [hrev]
  rw [List.dropWhile_cons, if_pos (by decide)]
  rw [List.dropWhile_cons, if_neg (by decide)]
  simp

theorem tokenize_emission_nil (L : List Lex) (h : EmitOk L []) :
    tokenize (renderL L) = .ok (toksL L) := by
  have h1 := tokenize_emission L [] h
  rw [List.append_nil] at h1
  have h0 : tokenize ([] : List Char) = .ok [] := by rw [tokenize]
  rw [h1, h0]
  simp [Except.map]

/-! ## Marker scan of the snippet wrapper -/

theorem isPrefixOf_append_self : ∀ (l r : List Char), l.isPrefixOf (l ++ r) = true := by
  intro l
  induction l with
  | nil => intro r; cases r <;> rfl
  | cons a as ih =>
    intro r
    rw [List.cons_append]
    simp [List.isPrefixOf, ih r]

theorem dropThroughMarker_found (rest : List Char) :
    dropThroughMarker (parseUiMarker ++ rest) = some rest := by
  have hm : parseUiMarker = 'm' :: "odlib.ParseUI".data := by decide
  have hshape : parseUiMarker ++ rest = 'm' :: ("odlib.ParseUI".data ++ rest) := by
    rw [hm, List.cons_append]
  rw [hshape, dropThroughMarker]
  rw [if_pos (by rw [← List.cons_append, ← hm]; exact isPrefixOf_append_self _ _)]
  rw [← List.cons_append, ← hm]
  rw [List.drop_left]

theorem dropThroughMarker_skip : ∀ (pre : List Char), (∀ c ∈ pre, c ≠ 'm') →
    ∀ (suffix : List Char), dropThroughMarker (pre ++ suffix) = dropThroughMarker suffix := by
  intro pre
  induction pre with
  | nil => intro _ suffix; rw [List.nil_append]
  | cons c cst ih =>
    intro h suffix
    rw [List.cons_append, dropThroughMarker]
    rw [if_neg ?hcond]
    · exact ih (fun d hd => h d (by simp [hd])) suffix
    case hcond =>
      have hm : parseUiMarker = 'm' :: "odlib.ParseUI".data := by decide
      rw [hm]
      simp only [List.isPrefixOf, Bool.and_eq_true, beq_iff_eq]
      intro hcontra
      exact h c (by simp) hcontra.1.symm

theorem dropThroughOpenParen_found (cs : List Char) :
    dropThroughOpenParen ('(' :: cs) = some cs := by
  rw [dropThroughOpenParen, if_pos rfl]

theorem extractNext_eq (xs am ap payload rest : List Char)
    (h1 : dropThroughMarker xs = some am)
    (h2 : dropThroughOpenParen am = some ap)
    (h3 : extractBalanced 1 false ' ' false [] ap = .ok (payload, rest)) :
    extractNextParseUiPayload xs = .ok (some (payload, rest)) := by
  unfold extractNextParseUiPayload
  simp only [h1, h2, h3]

theorem extractNext_none (xs : List Char) (h : dropThroughMarker xs = none) :
    extractNextParseUiPayload xs = .ok none := by
  unfold extractNextParseUiPayload
  simp only [h]

theorem extractAll_cons (xs p0 rest : List Char)
    (h : extractNextParseUiPayload xs = .ok (some (p0, rest))) :
    extractAllPayloads xs = (extractAllPayloads rest).map (p0 :: ·) := by
  rw [extractAllPayloads]
  split
  · next e heq => rw [h] at heq; exact absurd heq (by simp)
  · next heq => rw [h] at heq; exact absurd heq (by simp)
  · next p1 r1 heq =>
    rw [h] at heq
    simp only [Except.ok.injEq, Option.some.injEq, Prod.mk.injEq] at heq
    obtain ⟨hp, hr⟩ := heq
    rw [hp, hr]

theorem extractAll_nil (xs : List Char) (h : extractNextParseUiPayload xs = .ok none) :
    extractAllPayloads xs = .ok [] := by
  rw [extractAllPayloads]
  split
  · next e heq => rw [h] at heq; exact absurd heq (by simp)
  · rfl
  · next p1 r1 heq => rw [h] at heq; exact absurd heq (by simp)

/-! ## One parser argument: a single object value consumes the stream -/

theorem parseArgs_single (tv : TokVal) (h : ValSpec tv) (fs : List (String × JValue))
    (hobj : tv.val = .obj fs) : parseTokensToParams tv.toks = .ok [fs] := by
  obtain ⟨t, ts, hts, -, -⟩ := ValSpec.shape tv h
  obtain ⟨-, hval⟩ := h
  have h0 := hval 0 []
  rw [hts, List.append_nil] at h0
  rw [show (0 + (t :: ts).length + 1) = ts.length + 1 + 1 by simp] at h0
  rw [parseTokensToParams, hts]
  rw [show (t :: ts).length + 1 = ts.length + 1 + 1 by simp]
  rw [parseArgsF, h0, hobj]

/-- The snippet text `buildElementSnippets` wraps around one serialized
tree (with a concrete header comment, variable name and timestamp). -/
def wrapSnippet (body : String) : String :=
  String.intercalate "\n"
    ["// Auto-generated UI snippet (Root) 2026-02-10",
     "const ui = modlib.ParseUI(",
     body,
     ");",
     ""]

theorem wrapSnippet_data (body : String) :
    (wrapSnippet body).data =
      "// Auto-generated UI snippet (Root) 2026-02-10\nconst ui = ".data ++
        (parseUiMarker ++ ('(' :: '\n' :: (body.data ++ '\n' :: ')' :: ';' :: ['\n']))) := by
  rw [wrapSnippet, intercalate_data]
  simp [parseUiMarker]

/-! ## The full import of one serialized snippet -/

theorem nodeVal_obj (p : UIParams) (strings : StrTable) :
    (nodeTokVal p strings).val = .obj (objFieldsOf (nodeTokVal p strings).val) := by
  obtain ⟨f, children⟩ := p
  rw [nodeTokVal]
  rfl

/-- Core round-trip lemma: extracting, tokenizing, parsing and normalizing
the snippet text built around a canonical tree's serialization yields
exactly the round-trip transform of that tree. -/
theorem parse_wrapped (p : UIParams) (hcan : canonicalTree p = true) (strings : StrTable) :
    parseParseUiTypescript (wrapSnippet (serializeParamToTypescript p 1 strings)) =
      .ok [roundTrip strings p] := by
  have hEmit0 : EmitOk (interNLex (emitParamLines p 1 strings)) [] :=
    nodeEmitOk p hcan 1 strings [] trivial
  have hEmitC : EmitOk (interNLex (emitParamLines p 1 strings))
      ('\n' :: ')' :: ';' :: ['\n']) :=
    nodeEmitOk p hcan 1 strings _ (by decide : isIdentPartB '\n' = false)
  obtain ⟨⟨M, hfirst⟩, ⟨N, hlast⟩⟩ := nodeRender_shape p 1 strings
  have hbal : extractBalanced 1 false ' ' false []
      ('\n' :: (renderL (interNLex (emitParamLines p 1 strings)) ++
        ('\n' :: ')' :: ';' :: ['\n']))) =
      .ok (jsTrimChars (('\n' :: renderL (interNLex (emitParamLines p 1 strings))) ++
        ['\n']), ';' :: ['\n']) := by
    rw [extractBalanced_plain ' ' [] '\n' (by decide) _]
    obtain ⟨sq2, hsc⟩ := extract_emission (interNLex (emitParamLines p 1 strings)) _
      hEmitC ' ' ([] ++ ['\n']) ('\n' :: ')' :: ';' :: ['\n'])
    rw [hsc]
    rw [extractBalanced_plain sq2 _ '\n' (by decide) _]
    rw [extractBalanced]
    rw [if_neg (by simp), if_neg (by simp), if_neg (by simp), if_neg (by simp),
      if_neg (by decide), if_pos rfl, if_pos rfl]
    simp
  have htrim : jsTrimChars (('\n' :: renderL (interNLex (emitParamLines p 1 strings))) ++
      ['\n']) = '\x7b' :: M :=
    jsTrim_snippet _ (2 * 1) M N hfirst hlast
  have h1m : dropThroughMarker (wrapSnippet (serializeParamToTypescript p 1 strings)).data =
      some ('(' :: '\n' :: ((serializeParamToTypescript p 1 strings).data ++
        '\n' :: ')' :: ';' :: ['\n'])) := by
    rw [wrapSnippet_data]
    rw [dropThroughMarker_skip _ (by decide) _]
    exact dropThroughMarker_found _
  have h3b : extractBalanced 1 false ' ' false []
      ('\n' :: ((serializeParamToTypescript p 1 strings).data ++
        '\n' :: ')' :: ';' :: ['\n'])) = .ok ('\x7b' :: M, ';' :: ['\n']) := by
    rw [ser_data]
    rw [hbal, htrim]
  have hnext := extractNext_eq _ _ _ _ _ h1m (dropThroughOpenParen_found _) h3b
  have hnone : extractNextParseUiPayload (';' :: ['\n']) = .ok none :=
    extractNext_none _ (by decide)
  have hall : extractAllPayloads
      (wrapSnippet (serializeParamToTypescript p 1 strings)).data = .ok ['\x7b' :: M] := by
    rw [extractAll_cons _ _ _ hnext, extractAll_nil _ hnone]
    rfl
  have hpayloads : extractParseUiPayloads
      (wrapSnippet (serializeParamToTypescript p 1 strings)).data = .ok ['\x7b' :: M] := by
    unfold extractParseUiPayloads
    simp only [hall]
  have htokE : tokenize (renderL (interNLex (emitParamLines p 1 strings))) =
      .ok ((nodeTokVal p strings).toks) := by
    rw [tokenize_emission_nil _ hEmit0, nodeToks_eq]
  have htokM : tokenizeParseUiPayload ('\x7b' :: M) = .ok ((nodeTokVal p strings).toks) := by
    rw [tokenizeParseUiPayload]
    have hws : tokenize (List.replicate (2 * 1) ' ' ++ '\x7b' :: M) = tokenize ('\x7b' :: M) :=
      tokenize_ws_list _ (fun c hc => by rw [List.eq_of_mem_replicate hc]; decide) _
    rw [← hws, ← hfirst, htokE]
  have hvs := nodeValSpec p hcan strings
  obtain ⟨t0, ts0, htoks, -, -⟩ := ValSpec.shape _ hvs
  have hparse : parseTokensToParams ((nodeTokVal p strings).toks) =
      .ok [objFieldsOf (nodeTokVal p strings).val] :=
    parseArgs_single _ hvs _ (nodeVal_obj p strings)
  rw [htoks] at htokM hparse
  unfold parseParseUiTypescript
  simp only [hpayloads]
  rw [parsePayloadsLoop]
  simp only [htokM, hparse]
  rw [parsePayloadsLoop]
  simp [Except.map, normalize_nodeTokVal p hcan strings]

/-! ## C1: the serializer/importer round trip on canonical trees -/

/-- A canonical Container node (all other fields default). -/
def cexRoot : UIFields := { DEFAULT_UI_PARAMS with name := "Root" }

/-- A canonical Text node whose trimmed name has a string-table entry. -/
def cexText : UIFields :=
  { DEFAULT_UI_PARAMS with name := "lbl", type := ElemType.Text, textLabel := "hi" }

/-- Counterexample to C1 as stated: the canonical Text node named `lbl`
with label `"hi"`, serialized against the string table `[("lbl", "hi")]`,
imports with `textLabel = "mod.stringkeys.lbl"` — the type-specific field
is not reproduced exactly, because the serializer emitted the table
reference and the importer keeps that reference string as the label. -/
theorem roundtrip_label_counterexample :
    canonicalTree (UIParams.node cexText []) = true ∧
    parseParseUiTypescript (wrapSnippet (serializeParamToTypescript
      (UIParams.node cexText []) 1 [("lbl", "hi")])) =
      .ok [UIParams.node { cexText with textLabel := "mod.stringkeys.lbl" } []] ∧
    cexText.textLabel = "hi" ∧ ("mod.stringkeys.lbl" : String) ≠ "hi" := by
  have hcan : canonicalTree (UIParams.node cexText []) = true := by
    have hname : canonicalName "lbl" = true := by decide
    have hlbl : ("hi" : String).data.all jsonSafeB = true := by decide
    rw [canonicalTree, canonicalForest]
    rw [canonicalFields]
    rw [show cexText.type = ElemType.Text from rfl]
    norm_num [cexText, DEFAULT_UI_PARAMS, canonicalVec, fourDec, hname, hlbl,
      UIAnchor.TopLeft, UIAnchor.Center, UIBgFill.None]
    simp
  refine ⟨hcan, ?_, rfl, by decide⟩
  rw [parse_wrapped (UIParams.node cexText []) hcan [("lbl", "hi")]]
  rw [roundTrip_node]
  rw [show roundTripList [("lbl", "hi")] [] = [] from by rw [roundTripList]]
  rw [show roundTripFields cexText [("lbl", "hi")] =
    { cexText with textLabel := "mod.stringkeys.lbl" } from rfl]

/-- **C1.** For every tree whose nodes have only canonical fields
populated, parsing the serializer's output (the text of a `modlib.ParseUI`
snippet around `serializeParamToTypescript`) succeeds and reproduces each
node through the round-trip transform: `name`, `type`, `position`, `size`,
`anchor` and the always-serialized appearance fields return exactly,
fields that were absent in the serialized form are backfilled from the
default table — with the two forced exceptions recorded in `roundTrip`:
every Button's `buttonEnabled` imports as `true`, and a table-resolved
Text label imports as the `mod.stringkeys.…` reference (first space of the
key underscored) rather than the original label text. -/
theorem canonical_tree_roundtrip (p : UIParams) (hcan : canonicalTree p = true)
    (strings : StrTable) :
    parseParseUiTypescript (wrapSnippet (serializeParamToTypescript p 1 strings)) =
      .ok [roundTrip strings p] :=
  parse_wrapped p hcan strings

/-- Witness for C1: the canonical Container `Root` round-trips. -/
theorem canonical_tree_roundtrip_witness :
    canonicalTree (UIParams.node cexRoot []) = true ∧
    parseParseUiTypescript (wrapSnippet (serializeParamToTypescript
      (UIParams.node cexRoot []) 1 [])) = .ok [roundTrip [] (UIParams.node cexRoot [])] := by
  have hcan : canonicalTree (UIParams.node cexRoot []) = true := by
    have hname : canonicalName "Root" = true := by decide
    rw [canonicalTree, canonicalForest]
    rw [canonicalFields]
    rw [show cexRoot.type = ElemType.Container from rfl]
    norm_num [cexRoot, DEFAULT_UI_PARAMS, canonicalVec, fourDec, hname,
      UIAnchor.TopLeft, UIBgFill.None]
    simp
  exact ⟨hcan, canonical_tree_roundtrip (UIParams.node cexRoot []) hcan []⟩

end UIB
